import Mathlib

/-! Synapse: a verification development

A shallow embedding of the parts of `maxymania/synapse` that its specification
makes claims about, followed by the theorems that settle those claims.

Conventions of the embedding

* A Go `[]byte` and a Go `string` are both `List Nat` (one entry per byte).
* A Go `error` is a value of `GoError`; a nil error is `none`.
* Library code the repository imports but does not contain (the `bsoncore`
  document library, `crypto/elliptic`, `crypto/sha256`, `path/filepath`, the
  `unicode` tables) is modelled from its documented behaviour, or taken as a
  parameter; each such definition says so.
* Goroutines and channels are not modelled; a function that sends on a channel
  is embedded as appending to the queue held in the state.
-/

set_option autoImplicit false

/-- A byte buffer (`[]byte`), one list entry per byte. -/
abbrev Bytes := List Nat

/-- A Go string, as the sequence of its bytes. -/
abbrev GoString := List Nat

/-- The bytes of an ASCII literal of the source. -/
def lit (s : String) : GoString := s.toList.map Char.toNat

/-- The Go errors that occur in the embedded code. -/
inductive GoError where
  | EOF
  | ErrUnexpectedEOF
  | ErrInvalidLength
  | InsufficientBytes
  | eAuthFailed
  | eCryptoError
  | eProtocolError
  | ECryptoError
  | EProtocolError
  | ENoDir
  | ENoFile
  | EDlRejected
  | errorf (msg : GoString)
  | os (msg : GoString)
  deriving DecidableEq, Repr

/-- `err.Error()`: the message of an error. -/
def GoError.Error : GoError → GoString
  | .EOF => lit "EOF"
  | .ErrUnexpectedEOF => lit "unexpected EOF"
  | .ErrInvalidLength => lit "document is invalid, end byte is at wrong position"
  | .InsufficientBytes => lit "too few bytes to read next component"
  | .eAuthFailed => lit "c2s: Auth Failed"
  | .eCryptoError => lit "c2s: crypto error"
  | .eProtocolError => lit "c2s: protocol error"
  | .ECryptoError => lit "p2p: Crypto Error"
  | .EProtocolError => lit "p2p: Protocol Error"
  | .ENoDir => lit "p2p: Dir not Found"
  | .ENoFile => lit "p2p: File not Found"
  | .EDlRejected => lit "p2p: Download Rejected"
  | .errorf msg => msg
  | .os msg => msg

/-! ## Package `bsoncore`: the length prefix of a document buffer -/

namespace bson

/-- Modelled from the spec: `bsoncore` is not part of the repository. A document
buffer starts with "four little-endian bytes [that] give total byte length";
this reads them as a signed 32-bit integer and returns the rest. -/
def readi32 : Bytes → Option (Int × Bytes)
  | b0 :: b1 :: b2 :: b3 :: rest =>
    let u := b0 % 256 + (b1 % 256) * 256 + (b2 % 256) * 65536 + (b3 % 256) * 16777216
    some (if u < 2147483648 then (u : Int) else (u : Int) - 4294967296, rest)
  | _ => none

/-- Modelled from the spec: `bsoncore.ReadLength`, the length prefix, refused
when it is negative. -/
def ReadLength (src : Bytes) : Option (Int × Bytes) :=
  match readi32 src with
  | some (ln, rest) => if ln < 0 then none else some (ln, rest)
  | none => none

/-- Modelled from the spec: `bsoncore.ReadDocument(src)`, the check behind
`WriteDocument`, which "validates that the document prefix length matches the
buffer length": it yields `src` as the document, with nothing left over, when
the length prefix equals `len(src)`, and fails otherwise. -/
def ReadDocument (src : Bytes) : Option (Bytes × Bytes) :=
  match ReadLength src with
  | some (l, _) => if l = (src.length : Int) then some (src, []) else none
  | none => none

/-- The 4-byte little-endian length prefix of `d` equals `len(d)`. -/
def WellFormed (d : Bytes) : Prop :=
  ∃ rest, readi32 d = some ((d.length : Int), rest)

instance (d : Bytes) : Decidable (WellFormed d) :=
  match h : readi32 d with
  | some (n, rest) =>
    if hn : n = (d.length : Int) then isTrue ⟨rest, by rw [h, hn]⟩
    else isFalse (by
      rintro ⟨r, hr⟩
      rw [h] at hr
      simp only [Option.some.injEq, Prod.mk.injEq] at hr
      exact hn hr.1)
  | none => isFalse (by
      rintro ⟨r, hr⟩
      rw [h] at hr
      exact Option.noConfusion hr)

end bson

/-! ## Package `proto`: the connection codec -/

namespace proto

/-- The `io.ReadWriteCloser` under a `Conn`, as seen from one end.
`rd` holds the bytes the peer has written and this end has not read yet (end of
stream follows them); `writes` records the `Write` calls made on this end;
`werr` is the error `Write` returns (none on a healthy stream). -/
structure RWC where
  rd : Bytes
  writes : List Bytes
  werr : Option GoError
  closed : Bool
  deriving DecidableEq, Repr

/-- The `Allocator` of a `Conn`, reduced to its bookkeeping: how many buffers
were handed out by `Alloc` and how many were given back through `Free`. -/
structure Arena where
  allocs : Nat
  frees : Nat
  deriving DecidableEq, Repr

/-- `type Conn struct{ conn io.ReadWriteCloser; arena Allocator }`. -/
structure Conn where
  conn : RWC
  arena : Arena
  deriving DecidableEq, Repr

/-- `io.ReadFull(r, buf)` for a buffer of `n` bytes: all `n` bytes or an error
(`EOF` when nothing was left, `ErrUnexpectedEOF` when the stream ended early). -/
def ReadFull (r : RWC) (n : Nat) : Except GoError Bytes × RWC :=
  if n ≤ r.rd.length then (.ok (r.rd.take n), { r with rd := r.rd.drop n })
  else if r.rd = [] then (.error .EOF, r)
  else (.error .ErrUnexpectedEOF, { r with rd := [] })

/-- `conn.Write(b)`: one call, recorded, returning the stream's write error. -/
def RWC.Write (r : RWC) (b : Bytes) : Option GoError × RWC :=
  (r.werr, { r with writes := r.writes ++ [b] })

/-- `NewConn(cw, a)`. -/
def NewConn (cw : RWC) : Conn := { conn := cw, arena := { allocs := 0, frees := 0 } }

/-- `arena.Alloc`. -/
def Arena.Alloc (a : Arena) : Arena := { a with allocs := a.allocs + 1 }

/-- `arena.Free`. -/
def Arena.Free (a : Arena) : Arena := { a with frees := a.frees + 1 }

/-- `func (c *Conn) Free(buf []byte)`. -/
def Conn.Free (c : Conn) : Conn := { c with arena := c.arena.Free }

/-- `func (c *Conn) ifree(buf []byte) []byte`: frees a non-nil buffer. -/
def Conn.ifree (c : Conn) (buf : Option Bytes) : Conn :=
  match buf with
  | some _ => { c with arena := c.arena.Free }
  | none => c

/-- Modelled from the spec: `bsoncore.NewDocumentFromReader2(r, alloc)` "reads
exactly four length bytes, allocates a buffer of that length through the
allocator, reads the remainder, and returns the buffer"; when the remainder
cannot be read the partially filled buffer comes back together with the error.
A prefix that is negative or below four is refused before allocating. -/
def NewDocumentFromReader2 (c : Conn) : Option Bytes × Option GoError × Conn :=
  match ReadFull c.conn 4 with
  | (.error e, r1) => (none, some e, { c with conn := r1 })
  | (.ok lengthBytes, r1) =>
    match bson.readi32 lengthBytes with
    | none => (none, some .ErrInvalidLength, { c with conn := r1 })
    | some (length, _) =>
      if length < 4 then (none, some .ErrInvalidLength, { c with conn := r1 })
      else
        let a1 := c.arena.Alloc
        match ReadFull r1 (length.toNat - 4) with
        | (.error e, r2) =>
          (some lengthBytes, some e, { conn := r2, arena := a1 })
        | (.ok body, r2) => (some (lengthBytes ++ body), none, { conn := r2, arena := a1 })

/-- `func (c *Conn) ReadDocument() (doc bson.Document, err error)`. -/
def Conn.ReadDocument (c : Conn) : Option Bytes × Option GoError × Conn :=
  match NewDocumentFromReader2 c with
  | (doc, some err, c1) => (none, some err, c1.ifree doc)
  | (doc, none, c1) => (doc, none, c1)

/-- `func (c *Conn) WriteDocument(doc bson.Document) error`. -/
def Conn.WriteDocument (c : Conn) (doc : Bytes) : Option GoError × Conn :=
  match bson.ReadDocument doc with
  | none => (none, c)
  | some (doc1, _) =>
    let (err, r1) := c.conn.Write doc1
    (err, { c with conn := r1 })

/-- `func (c *Conn) Close() error`. -/
def Conn.Close (c : Conn) : Conn := { c with conn := { c.conn with closed := true } }

/-- The far end of a stream: what was written on `a`, in order, is what the
other end reads. -/
def otherEnd (a : Conn) : Conn :=
  NewConn { rd := a.conn.writes.flatten, writes := [], werr := none, closed := false }

/-- A fresh healthy connection on which nothing was written or received. -/
def freshConn : Conn :=
  NewConn { rd := [], writes := [], werr := none, closed := false }

end proto

/-! ## Package `bsoncore`: documents as their accessors show them

The session code never looks at the bytes of a document itself: it goes through
`Elements`, `Lookup`, `IndexErr` and the `...OK` accessors, and builds documents
with the document builder. From here on a document is therefore what those
accessors show: the elements that iterate cleanly, in order, and the error (if
any) at which iteration stops. A nil document is `none`. -/

namespace bson

/-- Modelled from the spec: a `bsoncore.Value` ("a typed value (string, integer
32/64-bit, binary blob with a one-byte subtype tag, nested document)"). `zero` is
the zero `Value` that a failed lookup returns; `other` stands for the remaining
BSON types, which the code never reads. -/
inductive Value where
  | zero
  | string (s : GoString)
  | document (elems : List (GoString × Value)) (err : Option GoError)
  | binary (subtype : Nat) (data : Bytes)
  | int32 (i : Int)
  | int64 (i : Int)
  | other (tag : Nat)

mutual
/-- Boolean equality of values. -/
def Value.beq : Value → Value → Bool
  | .zero, .zero => true
  | .string s, .string t => s == t
  | .document es e, .document fs f => Value.beqElems es fs && e == f
  | .binary s d, .binary t c => s == t && d == c
  | .int32 i, .int32 j => i == j
  | .int64 i, .int64 j => i == j
  | .other i, .other j => i == j
  | _, _ => false
/-- Boolean equality of element lists. -/
def Value.beqElems : List (GoString × Value) → List (GoString × Value) → Bool
  | [], [] => true
  | (k, v) :: es, (l, w) :: fs => k == l && Value.beq v w && Value.beqElems es fs
  | _, _ => false
end

mutual
theorem Value.beq_eq : ∀ (a b : Value), Value.beq a b = true ↔ a = b
  | .zero, b => by cases b <;> simp [Value.beq]
  | .string s, b => by cases b <;> simp [Value.beq]
  | .document es e, b => by cases b <;> simp [Value.beq, Value.beqElems_eq es]
  | .binary s d, b => by cases b <;> simp [Value.beq]
  | .int32 i, b => by cases b <;> simp [Value.beq]
  | .int64 i, b => by cases b <;> simp [Value.beq]
  | .other i, b => by cases b <;> simp [Value.beq]
theorem Value.beqElems_eq :
    ∀ (a b : List (GoString × Value)), Value.beqElems a b = true ↔ a = b
  | [], b => by cases b <;> simp [Value.beqElems]
  | (k, v) :: es, b => by
    cases b with
    | nil => simp [Value.beqElems]
    | cons h fs =>
      obtain ⟨l, w⟩ := h
      simp [Value.beqElems, Value.beq_eq v w, Value.beqElems_eq es fs, and_assoc]
end

instance : DecidableEq Value := fun a b => decidable_of_iff _ (Value.beq_eq a b)

/-- A `bsoncore.Element`: key and value. -/
abbrev Element := GoString × Value

/-- `Element.Key()` / `Element.KeyBytes()`. -/
def Element.Key (e : Element) : GoString := e.1

/-- `Element.Value()`. -/
def Element.Value (e : Element) : Value := e.2

/-- Modelled from the spec: a `bsoncore.Document` ("an ordered sequence of named
elements"), as `Elements()` shows it: the elements read before iteration stops,
and the error it stops with (none for a well-formed document). -/
structure Document where
  elems : List Element
  err : Option GoError
  deriving DecidableEq

/-- `Document.Elements()`: the elements and the iteration error. -/
def Document.Elements (d : Document) : List Element × Option GoError := (d.elems, d.err)

/-- `Elements()` of a possibly nil document; a nil buffer has no length prefix. -/
def Elements (d : Option Document) : List Element × Option GoError :=
  match d with
  | some d => d.Elements
  | none => ([], some .InsufficientBytes)

/-- Modelled from the spec: `Document.Lookup(key)`, "lookup is by first match";
the zero value when no element has the key. -/
def Document.Lookup (d : Document) (key : GoString) : Value :=
  match d.elems.find? (fun e => e.1 == key) with
  | some e => e.2
  | none => .zero

/-- `Lookup` on a possibly nil document. -/
def Lookup (d : Option Document) (key : GoString) : Value :=
  match d with
  | some d => d.Lookup key
  | none => .zero

/-- Modelled from the spec: `Document.IndexErr(i)`, the element at position `i`,
or an error (and the empty element) when there is none. -/
def Document.IndexErr (d : Document) (i : Nat) : Element × Option GoError :=
  match d.elems.get? i with
  | some e => (e, none)
  | none => (([], .zero), some (d.err.getD .InsufficientBytes))

/-- `Value.StringValueOK()`. -/
def Value.StringValueOK : Value → GoString × Bool
  | .string s => (s, true)
  | _ => ([], false)

/-- `Value.BinaryOK()`: subtype, data, ok. -/
def Value.BinaryOK : Value → Nat × Bytes × Bool
  | .binary t b => (t, b, true)
  | _ => (0, [], false)

/-- `Value.Int32OK()`. -/
def Value.Int32OK : Value → Int × Bool
  | .int32 i => (i, true)
  | _ => (0, false)

/-- `Value.DocumentOK()`: the nested document (nil when the value is none). -/
def Value.DocumentOK : Value → Option Document × Bool
  | .document es e => (some { elems := es, err := e }, true)
  | _ => (none, false)

/-- `NewDocumentBuilder()`, as the elements appended so far. -/
abbrev DocumentBuilder := List Element

/-- `NewDocumentBuilder()`. -/
def NewDocumentBuilder : DocumentBuilder := []

/-- `AppendBinary(key, subtype, b)`. -/
def DocumentBuilder.AppendBinary (db : DocumentBuilder) (k : GoString) (t : Nat) (b : Bytes) :
    DocumentBuilder := db ++ [(k, .binary t b)]

/-- `AppendString(key, s)`. -/
def DocumentBuilder.AppendString (db : DocumentBuilder) (k : GoString) (v : GoString) :
    DocumentBuilder := db ++ [(k, .string v)]

/-- `AppendInt32(key, i)`. -/
def DocumentBuilder.AppendInt32 (db : DocumentBuilder) (k : GoString) (i : Int) :
    DocumentBuilder := db ++ [(k, .int32 i)]

/-- `AppendInt64(key, i)`. -/
def DocumentBuilder.AppendInt64 (db : DocumentBuilder) (k : GoString) (i : Int) :
    DocumentBuilder := db ++ [(k, .int64 i)]

/-- `AppendDocument(key, d)`. -/
def DocumentBuilder.AppendDocument (db : DocumentBuilder) (k : GoString) (d : Document) :
    DocumentBuilder := db ++ [(k, .document d.elems d.err)]

/-- `Build()`: a well-formed document of the appended elements. -/
def DocumentBuilder.Build (db : DocumentBuilder) : Document := { elems := db, err := none }

end bson

/-! ## Package `proto`: cryptography and the two-step handshake -/

namespace proto

/-- The part of `crypto/elliptic` the code calls on `elliptic.P256()`. A point is
the pair of its affine coordinates, as in Go; `Unmarshal` yields none where Go
returns nil coordinates. The library is not part of the repository, so the curve
is a parameter of the embedding. -/
structure Curve where
  ScalarBaseMult : Bytes → Nat × Nat
  ScalarMult : Nat × Nat → Bytes → Nat × Nat
  Marshal : Nat × Nat → Bytes
  Unmarshal : Bytes → Option (Nat × Nat)

/-- The cryptographic libraries the package imports: the curve and
`crypto/sha256` (`Sum256 b` is the digest of `b`). -/
structure Crypto where
  curve : Curve
  Sum256 : Bytes → Bytes

/-- `func GenKeyPair(rand io.Reader) (pub, pri []byte, err error)`. The reader is
the list of bytes it will deliver; the result also carries what is left of it.
A short read leaves the rest of `pri` zero and returns the error of `ReadFull`,
and `pub` is computed all the same. -/
def GenKeyPair (c : Curve) (rand : Bytes) : (Bytes × Bytes × Option GoError) × Bytes :=
  let pri := rand.take 32 ++ List.replicate (32 - rand.length) 0
  let err : Option GoError :=
    if 32 ≤ rand.length then none
    else if rand = [] then some .EOF else some .ErrUnexpectedEOF
  let xy := c.ScalarBaseMult pri
  ((c.Marshal xy, pri, err), rand.drop 32)

/-- `func Handshake(other, pri []byte) (res []byte)`; none is the nil result. -/
def Handshake (c : Curve) (other pri : Bytes) : Option Bytes :=
  match c.Unmarshal other with
  | none => none
  | some xy => some (c.Marshal (c.ScalarMult xy pri))

/-- `func dohash(b []byte) []byte`. -/
def dohash (E : Crypto) (b : Bytes) : Bytes := E.Sum256 b

/-- `func bdup(pb *[]byte)`: a copy of the buffer (nil for an empty one). -/
def bdup (b : Bytes) : Bytes := if b.length ≠ 0 then b else []

/-- `type KeyPair struct{ Pub, Pri []byte; Domain string }`. -/
structure KeyPair where
  Pub : Bytes
  Pri : Bytes
  Domain : GoString
  deriving DecidableEq

/-- `func (kp *KeyPair) Step1() bson.Document`. -/
def KeyPair.Step1 (kp : KeyPair) : bson.Document :=
  ((bson.NewDocumentBuilder.AppendBinary (lit "login") 99 kp.Pub).AppendString
    (lit "domain") kp.Domain).Build

/-- `func (kp *KeyPair) Step2(resp bson.Document) bson.Document`. -/
def KeyPair.Step2 (E : Crypto) (kp : KeyPair) (resp : Option bson.Document) :
    Option bson.Document :=
  let other := (bson.Lookup resp (lit "chal")).BinaryOK.2.1
  match Handshake E.curve other kp.Pri with
  | none => none
  | some sk =>
    let sk := dohash E sk
    some (bson.NewDocumentBuilder.AppendBinary (lit "sha2") 115 sk).Build

/-- `type ServerAuth struct{ Rand io.Reader; Pub []byte; Domain string; sk []byte }`. -/
structure ServerAuth where
  Rand : Bytes
  Pub : Bytes
  Domain : GoString
  sk : Bytes
  deriving DecidableEq

/-- `func (sa *ServerAuth) Step1(doc bson.Document) bson.Document`. -/
def ServerAuth.Step1 (E : Crypto) (sa : ServerAuth) (doc : Option bson.Document) :
    Option bson.Document × ServerAuth :=
  match GenKeyPair E.curve sa.Rand with
  | ((_, _, some _), rand1) => (none, { sa with Rand := rand1 })
  | ((pub, pri, none), rand1) =>
    let r1 := (bson.Lookup doc (lit "login")).BinaryOK
    let r2 := (bson.Lookup doc (lit "domain")).StringValueOK
    let sa1 : ServerAuth := { sa with Rand := rand1, Pub := bdup r1.2.1, Domain := r2.1 }
    if !(r1.2.2 && r2.2) then (none, sa1)
    else
      match Handshake E.curve sa1.Pub pri with
      | none => (none, sa1)
      | some sk =>
        (some (bson.NewDocumentBuilder.AppendBinary (lit "chal") 99 pub).Build,
          { sa1 with sk := dohash E sk })

/-- `func (sa *ServerAuth) OnePassPrep(pub []byte, domain string) bson.Document`. -/
def ServerAuth.OnePassPrep (E : Crypto) (sa : ServerAuth) (pub : Bytes) (domain : GoString) :
    Option bson.Document × ServerAuth :=
  sa.Step1 E (some ((bson.NewDocumentBuilder.AppendBinary (lit "login") 99 pub).AppendString
    (lit "domain") domain).Build)

/-- `func (sa *ServerAuth) Step2(doc bson.Document) (ok bool)`. -/
def ServerAuth.Step2 (sa : ServerAuth) (doc : Option bson.Document) : Bool :=
  let osk := (bson.Lookup doc (lit "sha2")).BinaryOK.2.1
  decide (sa.sk.length > 0) && decide (sa.sk = osk)

/-- The key pair a participant holds after `GenKeyPair(rand)`, for its domain. -/
def KeyPair.generate (c : Curve) (rand : Bytes) (dom : GoString) : KeyPair :=
  { Pub := (GenKeyPair c rand).1.1
    Pri := (GenKeyPair c rand).1.2.1
    Domain := dom }

/-- Successive `Step1` calls on one `ServerAuth`: the documents returned, and
the final state. -/
def ServerAuth.Step1s (E : Crypto) (sa : ServerAuth) :
    List (Option bson.Document) → List (Option bson.Document) × ServerAuth
  | [] => ([], sa)
  | d :: ds =>
    let r := sa.Step1 E d
    let rs := ServerAuth.Step1s E r.2 ds
    (r.1 :: rs.1, rs.2)

/-- What the handshake relies on in the libraries: a key that decodes decodes to
the point that was encoded, scalar multiplication of two valid public keys by
each other's private scalar gives one point (the Diffie-Hellman property), and a
SHA-256 digest has 32 bytes. -/
structure Crypto.Sound (E : Crypto) : Prop where
  decode : ∀ k Q, E.curve.Unmarshal (E.curve.Marshal (E.curve.ScalarBaseMult k)) = some Q →
    Q = E.curve.ScalarBaseMult k
  comm : ∀ a b,
    (E.curve.Unmarshal (E.curve.Marshal (E.curve.ScalarBaseMult a))).isSome = true →
    (E.curve.Unmarshal (E.curve.Marshal (E.curve.ScalarBaseMult b))).isSome = true →
    E.curve.ScalarMult (E.curve.ScalarBaseMult a) b
      = E.curve.ScalarMult (E.curve.ScalarBaseMult b) a
  digest : ∀ x, (E.Sum256 x).length = 32

/-- A small stand-in for the libraries, used to run the handshake on concrete
values: the additive group of integers modulo 11 with generator 1, the neutral
element refused as a key, and a 32-byte checksum as digest. -/
def toyCrypto : Crypto :=
  { curve :=
      { ScalarBaseMult := fun k => (k.sum % 11, 0)
        ScalarMult := fun P k => (P.1 * k.sum % 11, 0)
        Marshal := fun P => [P.1]
        Unmarshal := fun d =>
          match d with
          | [x] => if 0 < x ∧ x < 11 then some (x, 0) else none
          | _ => none }
    Sum256 := fun x => List.replicate 31 0 ++ [x.sum % 256] }

/-- A `ServerAuth` as the callers create it: only `Rand` is set. -/
def newServerAuth (rand : Bytes) : ServerAuth := { Rand := rand, Pub := [], Domain := [], sk := [] }

end proto

/-! ## The curve P-256 of `crypto/elliptic`

`var curve = elliptic.P256()`. The standard library is not part of the
repository; this is the curve of FIPS 186 (y² = x³ - 3x + b over the prime field
of order `p`) in affine coordinates, with the pair (0, 0) standing for the point
at infinity as `crypto/elliptic` does, and the uncompressed point encoding of
`elliptic.Marshal` / `elliptic.Unmarshal`. -/

namespace P256

/-- The field prime. -/
def p : Nat := 0xffffffff00000001000000000000000000000000ffffffffffffffffffffffff

/-- The curve coefficient `b`. -/
def b : Nat := 0x5ac635d8aa3a93e7b3ebbd55769886bc651d06b0cc53b0f63bce3c3e27d2604b

/-- The base point. -/
def G : Nat × Nat :=
  (0x6b17d1f2e12c4247f8bce6e563a440f277037d812deb33a0f4a13945d898c296,
   0x4fe342e2fe1a7f9b8ee7eb4a7c0f9e162bce33576b315ececbb6406837bf51f5)

/-- Modular exponentiation by squaring, for exponents below 2^fuel. -/
def powMod (m : Nat) : Nat → Nat → Nat → Nat → Nat
  | 0, _, _, acc => acc
  | fuel + 1, base, e, acc =>
    if e = 0 then acc
    else powMod m fuel (base * base % m) (e / 2) (if e % 2 = 1 then acc * base % m else acc)

/-- The inverse in the field (Fermat). -/
def inv (a : Nat) : Nat := powMod p 256 (a % p) (p - 2) 1

/-- Subtraction in the field. -/
def sub (a c : Nat) : Nat := (a % p + (p - c % p)) % p

/-- `IsOnCurve(x, y)`: coordinates in range and y² = x³ - 3x + b. -/
def IsOnCurve (xy : Nat × Nat) : Bool :=
  decide (xy.1 < p) && decide (xy.2 < p) &&
    decide (xy.2 * xy.2 % p = (sub (xy.1 * xy.1 % p * xy.1) (3 * xy.1) + b) % p)

/-- Point doubling. -/
def double (P : Nat × Nat) : Nat × Nat :=
  if P = (0, 0) then (0, 0)
  else if P.2 % p = 0 then (0, 0)
  else
    let l := sub (3 * (P.1 * P.1 % p)) 3 * inv (2 * P.2) % p
    let x := sub (sub (l * l) P.1) P.1
    (x, sub (l * sub P.1 x) P.2)

/-- Point addition. -/
def add (P Q : Nat × Nat) : Nat × Nat :=
  if P = (0, 0) then Q
  else if Q = (0, 0) then P
  else if P.1 % p = Q.1 % p then
    (if P.2 % p = Q.2 % p then double P else (0, 0))
  else
    let l := sub Q.2 P.2 * inv (sub Q.1 P.1) % p
    let x := sub (sub (l * l) P.1) Q.1
    (x, sub (l * sub P.1 x) P.2)

/-- The bits of a byte, most significant first. -/
def bitsOfByte (c : Nat) : List Bool :=
  [128, 64, 32, 16, 8, 4, 2, 1].map (fun w => decide (c / w % 2 = 1))

/-- `ScalarMult(x, y, k)`: `k` is a big-endian scalar; double-and-add. -/
def ScalarMult (P : Nat × Nat) (k : Bytes) : Nat × Nat :=
  (k.flatMap bitsOfByte).foldl (fun acc bit => if bit then add (double acc) P else double acc)
    (0, 0)

/-- `ScalarBaseMult(k)`. -/
def ScalarBaseMult (k : Bytes) : Nat × Nat := ScalarMult G k

/-- A number as `n` big-endian bytes. -/
def toBytesBE : Nat → Nat → Bytes
  | 0, _ => []
  | n + 1, x => toBytesBE n (x / 256) ++ [x % 256]

/-- The number a big-endian byte string stands for. -/
def fromBytesBE (bs : Bytes) : Nat := bs.foldl (fun acc c => acc * 256 + c % 256) 0

/-- `elliptic.Marshal`: 4, then both coordinates as 32 big-endian bytes. -/
def Marshal (P : Nat × Nat) : Bytes := 4 :: (toBytesBE 32 P.1 ++ toBytesBE 32 P.2)

/-- `elliptic.Unmarshal`: none unless the encoding is the uncompressed form of a
point on the curve. -/
def Unmarshal (data : Bytes) : Option (Nat × Nat) :=
  if data.length ≠ 65 then none
  else if data.head? ≠ some 4 then none
  else
    let P := (fromBytesBE ((data.drop 1).take 32), fromBytesBE (data.drop 33))
    if IsOnCurve P then some P else none

/-- The curve as the package uses it. -/
def curve : proto.Curve :=
  { ScalarBaseMult := ScalarBaseMult, ScalarMult := ScalarMult,
    Marshal := Marshal, Unmarshal := Unmarshal }

end P256

/-! ## Package `proto`: a connection, one document at a time

By the framing of `Conn.WriteDocument` / `Conn.ReadDocument` a session sees its
connection as a sequence of whole documents. `DocConn` is the `*proto.Conn` of a
session at that granularity. -/

namespace proto

/-- A `*proto.Conn` as a session uses it. `inbox` holds the documents the peer
has sent and this end has not read yet; once it is exhausted `ReadDocument` fails
with `rerr`. `sent` records the documents written, `werr` is the error the
stream returns from `Write` (none on a healthy stream). -/
structure DocConn where
  inbox : List bson.Document
  rerr : GoError
  sent : List bson.Document
  werr : Option GoError
  arena : Arena
  closed : Bool
  deriving DecidableEq

/-- `Conn.ReadDocument` at document granularity: the buffer comes from the
allocator. -/
def DocConn.ReadDocument (c : DocConn) : Option bson.Document × Option GoError × DocConn :=
  match c.inbox with
  | d :: rest => (some d, none, { c with inbox := rest, arena := c.arena.Alloc })
  | [] => (none, some c.rerr, c)

/-- `Conn.WriteDocument` at document granularity: a nil document has no valid
length prefix, so nothing is written and nil is returned. -/
def DocConn.WriteDocument (c : DocConn) (doc : Option bson.Document) : Option GoError × DocConn :=
  match doc with
  | none => (none, c)
  | some d => (c.werr, { c with sent := c.sent ++ [d] })

/-- `Conn.Free`. -/
def DocConn.Free (c : DocConn) : DocConn := { c with arena := c.arena.Free }

/-- `Conn.Close`. -/
def DocConn.Close (c : DocConn) : DocConn := { c with closed := true }

/-- A healthy connection on which the given documents arrive, then end of
stream. -/
def connOf (inbox : List bson.Document) : DocConn :=
  { inbox := inbox, rerr := .EOF, sent := [], werr := none,
    arena := { allocs := 0, frees := 0 }, closed := false }

end proto

/-! ## Package `p2p`: file names and filesystem adapters (`dir.go`, `fobj.go`) -/

namespace p2p

/-- The operating system the program is built for; it fixes `filepath.Separator`. -/
inductive GOOS where
  | unix
  | windows
  deriving DecidableEq, Repr

/-- Modelled from the spec: `filepath.Separator` ("the operating system's path
separator"): `/` on Unix, `\` on Windows. -/
def Separator : GOOS → Nat
  | .unix => 47
  | .windows => 92

/-- The byte loop of `BadFileName`. -/
def BadFileName.loop (os : GOOS) : List Nat → Bool
  | [] => false
  | b :: rest =>
    if b = Separator os then true
    else if b = 92 ∨ b = 47 then true
    else BadFileName.loop os rest

/-- `func BadFileName(s string) bool`. -/
def BadFileName (os : GOOS) (s : GoString) : Bool :=
  if BadFileName.loop os s then true
  else if s = lit "." then true
  else false

/-- `type Path [2]string`: domain and file name. -/
abbrev Path := GoString × GoString

/-- An open `io.ReadCloser`: the name it was opened under and the data its
successive `Read` calls return. -/
structure ReadCloser where
  name : GoString
  reads : List Bytes
  deriving DecidableEq, Repr

/-- What the adapters use of the operating system: `filepath.Split`,
`filepath.Join` and `os.Open` (none of them part of the repository). -/
structure OSEnv where
  os : GOOS
  Split : GoString → GoString × GoString
  Join : GoString → GoString → GoString
  Open : GoString → Option ReadCloser × Option GoError

/-- The result of `FileSystem.Open`: the reader, the error, and the OS paths
that were opened on the way. -/
structure OpenResult where
  r : Option ReadCloser
  e : Option GoError
  opened : List GoString
  deriving DecidableEq, Repr

/-- `func (d Dir) Open(p Path) (io.ReadCloser, error)`. -/
def Dir.Open (env : OSEnv) (d : GoString) (p : Path) : OpenResult :=
  if BadFileName env.os p.2 then { r := none, e := some .ENoFile, opened := [] }
  else
    let f := (env.Split d).2
    if p.1 ≠ f then { r := none, e := some .ENoDir, opened := [] }
    else
      let name := env.Join d p.2
      { r := (env.Open name).1, e := (env.Open name).2, opened := [name] }

/-- The loop of `DirColl.Open`; `acc` holds the named results `r, e`. -/
def DirColl.Open.loop (env : OSEnv) (p : Path) : List GoString → OpenResult → OpenResult
  | [], acc => acc
  | dd :: rest, acc =>
    let res := Dir.Open env dd p
    let acc1 : OpenResult := { res with opened := acc.opened ++ res.opened }
    if res.e ≠ some .ENoDir then acc1 else DirColl.Open.loop env p rest acc1

/-- `func (d DirColl) Open(p Path) (r io.ReadCloser, e error)`. -/
def DirColl.Open (env : OSEnv) (d : List GoString) (p : Path) : OpenResult :=
  DirColl.Open.loop env p d { r := none, e := none, opened := [] }

/-- `func (d DirMap) Open(p Path) (r io.ReadCloser, e error)`; the map is a list
of key/value pairs. -/
def DirMap.Open (env : OSEnv) (d : List (GoString × GoString)) (p : Path) : OpenResult :=
  if BadFileName env.os p.2 then { r := none, e := some .ENoFile, opened := [] }
  else
    match d.lookup p.1 with
    | some _ => { r := none, e := some .ENoDir, opened := [] }
    | none =>
      let name := env.Join [] p.2
      { r := (env.Open name).1, e := (env.Open name).2, opened := [name] }

end p2p

/-! ## Package `p2p`: the session protocol (`encoding.go`, `p2p.go`) -/

namespace p2p

/-- The dynamic types `pack` tells apart in its type switch; `other` is any type
it has no case for. -/
inductive Iface where
  | string (s : GoString)
  | bytes (b : Bytes)
  | int32 (i : Int)
  | int64 (i : Int)
  | int (i : Int)
  | document (d : bson.Document)
  | other

/-- The conversion `int32(e)` of an `int`: the value modulo 2^32, signed. -/
def toInt32 (e : Int) : Int := (e + 2147483648) % 4294967296 - 2147483648

/-- `func pack(i ...interface{}) bson.Document`. The arguments are taken in
pairs, as the loop does; every call in the package passes a string as the first
of a pair, and `fmt.Sprint` of a string is that string. -/
def pack.loop (db : bson.DocumentBuilder) : List (GoString × Iface) → bson.DocumentBuilder
  | [] => db
  | (k, e) :: rest =>
    pack.loop
      (match e with
        | .string v => db.AppendString k v
        | .bytes v => db.AppendBinary k 1 v
        | .int32 v => db.AppendInt32 k v
        | .int64 v => db.AppendInt64 k v
        | .int v => db.AppendInt32 k (toInt32 v)
        | .document v => db.AppendDocument k v
        | .other => db)
      rest

/-- `pack(...)`, see `pack.loop`. -/
def pack (i : List (GoString × Iface)) : bson.Document :=
  (pack.loop bson.NewDocumentBuilder i).Build

/-- `type queueElement struct { fobj io.ReadCloser; path Path }`. -/
structure queueElement where
  fobj : Option ReadCloser
  path : Path
  deriving DecidableEq

/-- What happens to files while a request is served: calls of
`FileSystem.Open` and of `Close` on a reader. -/
inductive FSEvent where
  | Open (p : Path)
  | Close (f : ReadCloser)
  deriving DecidableEq

/-- `type Server struct{ Arena; FS FileSystem; KP proto.KeyPair }`. The
`FileSystem` is its `Open` method: reader and error for a path. -/
structure Server where
  FS : Path → Option ReadCloser × Option GoError
  KP : proto.KeyPair

/-- `type connServer struct`: the connection, the two outgoing queues and the
download queue (a channel of capacity 8), with the log of file events. A send on
`outhi` or `outlo` appends to the queue (the writer task drains it). -/
structure connServer where
  pc : proto.DocConn
  alive : Bool
  outhi : List bson.Document
  outlo : List bson.Document
  downl : List queueElement
  fslog : List FSEvent
  deriving DecidableEq

/-- `func (s *Server) prepare(conn) *connServer`. -/
def Server.prepare (pc : proto.DocConn) : connServer :=
  { pc := pc, alive := true, outhi := [], outlo := [], downl := [], fslog := [] }

/-- The capacity of the download queue: `make(fileQueue,8)`. -/
def downlCap : Nat := 8

/-- The `getfile` case of `serveReq`, after the request was read. The result is
none where the Go code panics (`Close` on a nil reader). -/
def connServer.getfile (s : Server) (c : connServer) (elems : List bson.Element)
    (err : Option GoError) : Option (Option GoError × connServer) :=
  if elems.length < 2 then some (err, c)
  else
    let path : Path :=
      (((elems.get? 0).getD ([], .zero)).2.StringValueOK.1,
       ((elems.get? 1).getD ([], .zero)).2.StringValueOK.1)
    let res := s.FS path
    let c1 : connServer := { c with fslog := c.fslog ++ [.Open path] }
    match res.2 with
    | some e =>
      some (none, { c1 with outhi := c1.outhi ++
        [pack [(lit "putfile", .int 404), (lit "txt", .string e.Error)]] })
    | none =>
      if c1.downl.length < downlCap then
        some (none, { c1 with
          downl := c1.downl ++ [{ fobj := res.1, path := path }]
          outhi := c1.outhi ++ [pack [(lit "putfile", .int 200), (lit "d", .string path.1),
            (lit "f", .string path.2)]] })
      else
        match res.1 with
        | none => none
        | some f =>
          some (none, { c1 with
            fslog := c1.fslog ++ [.Close f]
            outhi := c1.outhi ++
              [pack [(lit "putfile", .int 204), (lit "txt", .string (lit "queue ran full"))]] })

/-- `func (c *connServer) serveReq() (err error)`. The deferred `Free(msg)` runs
on every return after the read. None where the Go code panics. -/
def connServer.serveReq (E : proto.Crypto) (s : Server) (c : connServer) :
    Option (Option GoError × connServer) :=
  match c.pc.ReadDocument with
  | (_, some err, pc1) => some (some err, { c with pc := pc1 })
  | (msg, none, pc1) =>
    let c0 : connServer := { c with pc := pc1.Free }
    let elems := (bson.Elements msg).1
    let err := (bson.Elements msg).2
    match elems with
    | [] => some (err, c0)
    | e0 :: _ =>
      if e0.1 = lit "hs.s1" then
        let send := pack [(lit "hs.s1", .document s.KP.Step1)]
        some (err, { c0 with outhi := c0.outhi ++ [send] })
      else if e0.1 = lit "hs.s2" then
        let send := (e0.2.DocumentOK.1).getD (pack [])
        let send := (s.KP.Step2 E (some send)).getD (pack [])
        some (err, { c0 with outhi := c0.outhi ++ [pack [(lit "hs.s2", .document send)]] })
      else if e0.1 = lit "getfile" then connServer.getfile s c0 elems err
      else some (err, c0)

end p2p

namespace p2p

/-- A `FileSystem` made of a `Dir`. -/
def FileSystem.ofDir (env : OSEnv) (d : GoString) (p : Path) :
    Option ReadCloser × Option GoError := ((Dir.Open env d p).r, (Dir.Open env d p).e)

/-- A `FileSystem` made of a `DirColl`. -/
def FileSystem.ofDirColl (env : OSEnv) (d : List GoString) (p : Path) :
    Option ReadCloser × Option GoError := ((DirColl.Open env d p).r, (DirColl.Open env d p).e)

/-- A `FileSystem` made of a `DirMap`. -/
def FileSystem.ofDirMap (env : OSEnv) (d : List (GoString × GoString)) (p : Path) :
    Option ReadCloser × Option GoError := ((DirMap.Open env d p).r, (DirMap.Open env d p).e)

/-- An operating system for concrete runs: Unix, directory names without a
separator, and a disk on which every name opens as an empty file. -/
def exampleEnv : OSEnv :=
  { os := .unix
    Split := fun d => ([], d)
    Join := fun a c => if a = [] then c else a ++ lit "/" ++ c
    Open := fun n => (some { name := n, reads := [] }, none) }

/-- A request `{getfile: domain, f: filename}` as `Client.GetFile` writes it. -/
def getfileRequest (p : Path) : bson.Document :=
  pack [(lit "getfile", .string p.1), (lit "f", .string p.2)]

end p2p

namespace p2p

/-- A server sharing the directory "share" of `exampleEnv`. -/
def exampleServer : Server :=
  { FS := FileSystem.ofDir exampleEnv (lit "share")
    KP := { Pub := [], Pri := [], Domain := lit "share" } }

/-- A connection state whose download queue holds 8 accepted transfers and on
which the request `{getfile: "share", f: "a.txt"}` arrives. -/
def fullQueueConn : connServer :=
  { Server.prepare (proto.connOf [getfileRequest (lit "share", lit "a.txt")]) with
    downl := List.replicate 8
      { fobj := some { name := lit "share/b.txt", reads := [] },
        path := (lit "share", lit "b.txt") } }

end p2p

namespace p2p

/-- `type Token interface{}`: an opaque handle; nil is none. -/
abbrev Token := Option Nat

/-- `type PathTokenMap struct{ s sync.RWMutex; m map[Path]Token }`: the map as a
list of its entries (no key twice). -/
structure PathTokenMap where
  m : List (Path × Nat)
  deriving DecidableEq

/-- `func (m *PathTokenMap) Get(p Path) (t Token)`. -/
def PathTokenMap.Get (m : PathTokenMap) (p : Path) : Token := m.m.lookup p

/-- `func (m *PathTokenMap) Put(p Path, t Token)`: a nil token deletes the entry. -/
def PathTokenMap.Put (m : PathTokenMap) (p : Path) (t : Token) : PathTokenMap :=
  match t with
  | none => { m := m.m.filter (fun kv => kv.1 ≠ p) }
  | some v => { m := (p, v) :: m.m.filter (fun kv => kv.1 ≠ p) }

/-- `type Client struct`: the connection, the two inbound queues the reader task
fills, and the token map. `appmsg` holds the application messages the reader
delivers, in order; `aliveClosed` says that the `alive` channel is closed. -/
structure Client where
  pc : proto.DocConn
  aliveClosed : Bool
  appmsg : List bson.Document
  filemsg : List bson.Document
  toks : PathTokenMap
  deriving DecidableEq

/-- `func (c *Client) readMessage() (bson.Document, error)`: a `select` over the
application queue and the `alive` channel. When both are ready Go takes either
one: `pickClose` is that choice. None when neither is ready (the call blocks). -/
def Client.readMessage (c : Client) (pickClose : Bool) :
    Option (Option bson.Document × Option GoError × Client) :=
  match c.appmsg with
  | m :: rest =>
    if c.aliveClosed && pickClose then some (none, some .EOF, c)
    else some (some m, none, { c with appmsg := rest })
  | [] => if c.aliveClosed then some (none, some .EOF, c) else none

/-- `func (c *Client) GetFile(tok Token, path Path) (dataerr, err error)`: the
two errors and the state afterwards; none when `readMessage` blocks. -/
def Client.GetFile (c : Client) (tok : Token) (path : Path) (pickClose : Bool) :
    Option (Option GoError × Option GoError × Client) :=
  let c1 : Client := { c with toks := c.toks.Put path tok }
  match c1.pc.WriteDocument (some (pack [(lit "getfile", .string path.1),
      (lit "f", .string path.2)])) with
  | (some err, pc2) => some (none, some err, { c1 with pc := pc2 })
  | (none, pc2) =>
    match Client.readMessage { c1 with pc := pc2 } pickClose with
    | none => none
    | some (_, some err, c3) => some (none, some err, c3)
    | some (msg, none, c3) =>
      let c4 : Client := { c3 with pc := c3.pc.Free }
      match bson.Elements msg with
      | (_, some err) => some (none, some err, c4)
      | (elems, none) =>
        if elems.length < 2 then some (none, some .EProtocolError, c4)
        else
          let code := ((elems.get? 0).getD ([], .zero)).2.Int32OK.1
          if code ≠ 200 then
            let s := ((elems.get? 1).getD ([], .zero)).2.StringValueOK.1
            some (some (.errorf s), none, c4)
          else some (none, none, c4)

end p2p

namespace p2p

/-- A client on a healthy connection whose reader has delivered one application
message, `reply`. -/
def clientWithReply (reply : bson.Document) : Client :=
  { pc := proto.connOf [], aliveClosed := false, appmsg := [reply], filemsg := [],
    toks := { m := [] } }

/-- A reply buffer whose length prefix is right and whose content ends before
the first element is complete: iteration yields no element and an error. -/
def truncatedReply : bson.Document := { elems := [], err := some .InsufficientBytes }

end p2p

/-! ## Package `c2s`: status and tokens -/

namespace c2s

/-- `type Status int32` with `Pending`, `Rejected`, `Accepted` = 0, 1, 2. -/
inductive Status where
  | Pending
  | Rejected
  | Accepted
  deriving DecidableEq, Repr

/-- `int32(status)`. -/
def Status.toInt32 : Status → Int
  | .Pending => 0
  | .Rejected => 1
  | .Accepted => 2

/-- A `Srv_Token` as a call sees it: what `Status()` and `Domain()` return. -/
structure Srv_Token where
  Status : Status
  Domain : GoString
  deriving DecidableEq, Repr

end c2s

/-! ## Package `server`: memoized approvals (`srvauth.go`)

`checkOK` and `approve` are declared with a value receiver, `func (m memoizer)`:
each call works on a copy of the struct. A `partmap` is a Go map, that is a
reference: the struct holds references into the memory where the maps live, so
writes into an existing map are seen by every copy, but an assignment to a field
of the receiver (`m.inner[m.c] = ap`, `m.c ^= 1`) changes the copy only. The
embedding keeps the maps in `Mem` and the struct as the pair of references. -/

namespace server

/-- `type partmap map[string][]byte`, as the list of its entries. -/
abbrev partmap := List (GoString × Bytes)

/-- The memory holding the maps made by `make(partmap)`; a reference is an index. -/
abbrev Mem := List partmap

/-- `var MaxCacheEntries int = 1<<15`. -/
def MaxCacheEntries : Nat := 32768

/-- `type memoizer struct { sync.RWMutex; inner memoizer_i; c uint }`, with
`memoizer_i = [2]partmap`: two map references (none is the nil map). -/
structure memoizer where
  inner0 : Option Nat
  inner1 : Option Nat
  c : Nat
  deriving DecidableEq, Repr

/-- `m.inner[i]` for `i` in 0, 1. -/
def memoizer.inner (m : memoizer) (i : Nat) : Option Nat :=
  if i = 0 then m.inner0 else m.inner1

/-- `m.inner[i] = ap`. -/
def memoizer.setInner (m : memoizer) (i : Nat) (ap : Option Nat) : memoizer :=
  if i = 0 then { m with inner0 := ap } else { m with inner1 := ap }

/-- `v, ok := mp[dom]` on a map reference; a nil map has no entry. -/
def mapGet (mem : Mem) (ref : Option Nat) (dom : GoString) : Option Bytes :=
  match ref with
  | none => none
  | some r => (mem.getD r []).lookup dom

/-- `delete(mp, dom)`. -/
def mapDelete (mem : Mem) (r : Nat) (dom : GoString) : Mem :=
  mem.set r ((mem.getD r []).filter (fun kv => kv.1 ≠ dom))

/-- `mp[dom] = v`. -/
def mapSet (mem : Mem) (r : Nat) (dom : GoString) (v : Bytes) : Mem :=
  mem.set r ((dom, v) :: (mem.getD r []).filter (fun kv => kv.1 ≠ dom))

/-- The body of `checkOK` on the receiver copy `m`. -/
def memoizer.checkOK (m : memoizer) (mem : Mem) (dom : GoString) (pub : Bytes) : Bool :=
  match mapGet mem (m.inner m.c) dom with
  | some opub => decide (opub = pub)
  | none =>
    match mapGet mem (m.inner (m.c ^^^ 1)) dom with
    | some opub => decide (opub = pub)
    | none => false

/-- The body of `approve`, run on the receiver copy `m`: the copy as the body
leaves it, and the memory. -/
def memoizer.approveBody (m : memoizer) (mem : Mem) (dom : GoString) (pub : Bytes) :
    memoizer × Mem :=
  let mem1 :=
    match m.inner (m.c ^^^ 1) with
    | some r => mapDelete mem r dom
    | none => mem
  let (ap, m2, mem2) :=
    match m.inner m.c with
    | some r => (r, m, mem1)
    | none => (mem1.length, m.setInner m.c (some mem1.length), mem1 ++ [[]])
  let mem3 := mapSet mem2 ap dom pub
  if (mem3.getD ap []).length ≥ MaxCacheEntries then
    (({ m2 with c := m2.c ^^^ 1 } : memoizer).setInner (m2.c ^^^ 1) none, mem3)
  else (m2, mem3)

/-- `type PeerConnectAuth struct{ Rand; Dialer; mem memoizer }`: the memoizer
field and the memory its maps live in. -/
structure PeerConnectAuth where
  mem : memoizer
  heap : Mem
  deriving DecidableEq, Repr

/-- A `PeerConnectAuth` as it is created: the zero memoizer. -/
def newPeerConnectAuth : PeerConnectAuth :=
  { mem := { inner0 := none, inner1 := none, c := 0 }, heap := [] }

/-- The call `p.mem.approve(dom, pub)`: the receiver is passed by value, so
`p.mem` is what it was; only the memory of the maps keeps the body's writes. -/
def PeerConnectAuth.approve (p : PeerConnectAuth) (dom : GoString) (pub : Bytes) :
    PeerConnectAuth :=
  { p with heap := (p.mem.approveBody p.heap dom pub).2 }

/-- The call `p.mem.checkOK(dom, pub)`. -/
def PeerConnectAuth.checkOK (p : PeerConnectAuth) (dom : GoString) (pub : Bytes) : Bool :=
  p.mem.checkOK p.heap dom pub

/-- `func (p *PeerConnectAuth) Login(pub []byte, domain string) c2s.Srv_Token`:
the token returned (the verification it launches for a pending token runs on
its own). -/
def PeerConnectAuth.Login (p : PeerConnectAuth) (pub : Bytes) (domain : GoString) :
    c2s.Srv_Token :=
  if p.checkOK domain pub then { Status := .Accepted, Domain := domain }
  else { Status := .Pending, Domain := domain }

/-- A run of approvals, in order. -/
def PeerConnectAuth.approveAll (p : PeerConnectAuth) :
    List (GoString × Bytes) → PeerConnectAuth
  | [] => p
  | (d, k) :: rest => PeerConnectAuth.approveAll (p.approve d k) rest

end server

/-! ## Package `ftse`: keywords (`ftse.go`)

`strings.Map`, `strings.FieldsFunc` and the UTF-8 decoding behind them belong to
the standard library; they are modelled from their documentation. The `unicode`
tables are a parameter (`Unicode`). -/

namespace ftse

/-- The functions of package `unicode` the code calls, on code points. -/
structure Unicode where
  ToLower : Nat → Nat
  IsLetter : Nat → Bool
  IsDigit : Nat → Bool

/-- The `unicode` functions on the ASCII range (code points below 128), where
they agree with Go; other code points are left alone and are neither letters
nor digits. -/
def asciiUnicode : Unicode :=
  { ToLower := fun r => if 65 ≤ r ∧ r ≤ 90 then r + 32 else r
    IsLetter := fun r => decide ((65 ≤ r ∧ r ≤ 90) ∨ (97 ≤ r ∧ r ≤ 122))
    IsDigit := fun r => decide (48 ≤ r ∧ r ≤ 57) }

/-- `utf8.RuneError`. -/
def RuneError : Nat := 0xFFFD

/-- A continuation byte. -/
def isCont (c : Nat) : Bool := decide (0x80 ≤ c ∧ c ≤ 0xBF)

/-- `utf8.DecodeRune`: the first code point of a non-empty string and its width
in bytes; an invalid sequence is `RuneError` of width 1. -/
def decodeRune : Bytes → Nat × Nat
  | [] => (RuneError, 0)
  | b0 :: rest =>
    if b0 < 0x80 then (b0, 1)
    else if 0xC2 ≤ b0 ∧ b0 ≤ 0xDF then
      match rest with
      | b1 :: _ => if isCont b1 then ((b0 - 0xC0) * 64 + (b1 - 0x80), 2) else (RuneError, 1)
      | _ => (RuneError, 1)
    else if 0xE0 ≤ b0 ∧ b0 ≤ 0xEF then
      match rest with
      | b1 :: b2 :: _ =>
        if (if b0 = 0xE0 then 0xA0 else 0x80) ≤ b1 ∧ b1 ≤ (if b0 = 0xED then 0x9F else 0xBF)
            ∧ isCont b2 = true then
          ((b0 - 0xE0) * 4096 + (b1 - 0x80) * 64 + (b2 - 0x80), 3)
        else (RuneError, 1)
      | _ => (RuneError, 1)
    else if 0xF0 ≤ b0 ∧ b0 ≤ 0xF4 then
      match rest with
      | b1 :: b2 :: b3 :: _ =>
        if (if b0 = 0xF0 then 0x90 else 0x80) ≤ b1 ∧ b1 ≤ (if b0 = 0xF4 then 0x8F else 0xBF)
            ∧ isCont b2 = true ∧ isCont b3 = true then
          ((b0 - 0xF0) * 262144 + (b1 - 0x80) * 4096 + (b2 - 0x80) * 64 + (b3 - 0x80), 4)
        else (RuneError, 1)
      | _ => (RuneError, 1)
    else (RuneError, 1)

/-- The code points of a string with the bytes each one occupies, as
`for _, r := range s` visits them. -/
def decodeRunes : Nat → Bytes → List (Nat × Bytes)
  | 0, _ => []
  | fuel + 1, s =>
    if s = [] then []
    else
      let rw := decodeRune s
      (rw.1, s.take rw.2) :: decodeRunes fuel (s.drop rw.2)

/-- `utf8.EncodeRune`; surrogates and values past U+10FFFF encode as `RuneError`. -/
def encodeRune (r : Nat) : Bytes :=
  if r < 0x80 then [r]
  else if r < 0x800 then [0xC0 + r / 64, 0x80 + r % 64]
  else if (0xD800 ≤ r ∧ r ≤ 0xDFFF) ∨ 0x10FFFF < r then [0xEF, 0xBF, 0xBD]
  else if r < 0x10000 then [0xE0 + r / 4096, 0x80 + r / 64 % 64, 0x80 + r % 64]
  else [0xF0 + r / 262144, 0x80 + r / 4096 % 64, 0x80 + r / 64 % 64, 0x80 + r % 64]

/-- `strings.Map(mapping, s)` for a mapping that drops no character. -/
def stringsMap (mapping : Nat → Nat) (s : GoString) : GoString :=
  ((decodeRunes s.length s).map (fun rb => encodeRune (mapping rb.1))).flatten

/-- The scan of `strings.FieldsFunc`: `cur` is the field being read, if any. -/
def FieldsFunc.loop (f : Nat → Bool) : List (Nat × Bytes) → Option Bytes → List GoString
  | [], none => []
  | [], some cur => [cur]
  | (r, bs) :: rest, cur =>
    if f r then
      match cur with
      | some c => c :: FieldsFunc.loop f rest none
      | none => FieldsFunc.loop f rest none
    else FieldsFunc.loop f rest (some (cur.getD [] ++ bs))

/-- `strings.FieldsFunc(s, f)`: the maximal runs of code points not satisfying `f`. -/
def FieldsFunc (s : GoString) (f : Nat → Bool) : List GoString :=
  FieldsFunc.loop f (decodeRunes s.length s) none

/-- `func canonicalize(r rune) rune`. -/
def canonicalize (U : Unicode) (r : Nat) : Nat :=
  if r = 39 ∨ r = 96 ∨ r = 180 then 95
  else if r = 95 then 32
  else U.ToLower r

/-- `func fields(r rune) bool`. -/
def fields (U : Unicode) (r : Nat) : Bool :=
  !(decide (r = 95) || U.IsLetter r || U.IsDigit r)

/-- `func splitup(s string) []string`. -/
def splitup (U : Unicode) (s : GoString) : List GoString :=
  FieldsFunc (stringsMap (canonicalize U) s) (fields U)

/-- `func prepends(kwds []string, pre string)`. -/
def prepends (kwds : List GoString) (pre : GoString) : List GoString :=
  kwds.map (fun k => pre ++ k)

/-- The loop of `unify`: `seen` is the map `m`, `t` the result so far. -/
def unify.loop : List GoString → List GoString → List GoString → List GoString
  | [], _, t => t
  | w :: rest, seen, t =>
    if w ∈ seen then unify.loop rest seen t
    else unify.loop rest (w :: seen) (t ++ [w])

/-- `func unify(t, words []string) []string`: `words` without repetitions, first
occurrences kept (the result overwrites `t` from its start). -/
def unify (words : List GoString) : List GoString := unify.loop words [] []

end ftse

/-! ## Package `ftse`: the in-memory index (`mem.go`) and the query layer -/

namespace ftse

/-- `type Path [3]string`: domain, group, title. -/
structure Path where
  domain : GoString
  group : GoString
  title : GoString
  deriving DecidableEq, Repr

/-- `Path{}`. -/
def Path.zero : Path := { domain := [], group := [], title := [] }

/-- `func (p *Path) CreateMeta() bson.Document`. -/
def Path.CreateMeta (p : Path) : bson.Document :=
  ((bson.NewDocumentBuilder.AppendString [] p.group).AppendString (lit "f") p.title).Build

/-- `type Result struct{ Path Path; Meta bson.Document }`; `Meta` is none when the
stored buffer is not a document (it has no valid length prefix). -/
structure Result where
  Path : Path
  Meta : Option bson.Document
  deriving DecidableEq

/-- `func (r *Result) GetMeta() bson.Document`. -/
def Result.GetMeta (r : Result) : bson.Document :=
  match r.Meta with
  | some doc => doc
  | none => r.Path.CreateMeta

/-- A `*roaring.Bitmap`: a set of 32-bit integers, as the ascending list of its
members (the library is not part of the repository). -/
abbrev Bitmap := List Nat

/-- `b.Add(i)`. -/
def Bitmap.Add : Bitmap → Nat → Bitmap
  | [], i => [i]
  | x :: rest, i =>
    if i < x then i :: x :: rest
    else if i = x then x :: rest
    else x :: Bitmap.Add rest i

/-- `b.Remove(i)`. -/
def Bitmap.Remove (b : Bitmap) (i : Nat) : Bitmap := b.filter (fun x => x ≠ i)

/-- `roaring.FastAnd(bitmaps...)`: the intersection; the empty bitmap when no
bitmap is given. -/
def FastAnd : List Bitmap → Bitmap
  | [] => []
  | b :: rest => rest.foldl (fun acc c => acc.filter (fun x => x ∈ c)) b

/-- `type MemDir struct`. `f` maps a path key to its slot, `i` a keyword to the
bitmap of slots, `z` is the bitmap of free slots (none before `prepare`), and
`s`, `p`, `b` hold the keywords, path and document of each slot. Maps are lists
of entries with no key twice. -/
structure MemDir where
  f : List (GoString × Nat)
  i : List (GoString × Bitmap)
  z : Option Bitmap
  s : List (List GoString)
  p : List Path
  b : List (Option bson.Document)
  deriving DecidableEq

/-- The zero `MemDir`. -/
def MemDir.empty : MemDir := { f := [], i := [], z := none, s := [], p := [], b := [] }

/-- `mp[k] = v` on a map. -/
def mapPut {α : Type} (mp : List (GoString × α)) (k : GoString) (v : α) :
    List (GoString × α) :=
  match mp with
  | [] => [(k, v)]
  | (k1, v1) :: rest => if k1 = k then (k, v) :: rest else (k1, v1) :: mapPut rest k v

/-- `delete(mp, k)`. -/
def mapDel {α : Type} (mp : List (GoString × α)) (k : GoString) : List (GoString × α) :=
  mp.filter (fun kv => kv.1 ≠ k)

/-- `func (m *MemDir) prepare()`; the maps `f` and `i` are created empty. -/
def MemDir.prepare (m : MemDir) : MemDir :=
  { m with z := some (m.z.getD []) }

/-- The key of a path in `f`: `path[0]+"/"+path[1]+"/"+path[2]`. -/
def pathKey (path : Path) : GoString :=
  path.domain ++ lit "/" ++ path.group ++ lit "/" ++ path.title

/-- The loop of `idel` over the keywords of the slot. -/
def MemDir.idel.loop (i : Nat) :
    List GoString → List (GoString × Bitmap) → List (GoString × Bitmap)
  | [], idx => idx
  | kw :: rest, idx =>
    match idx.lookup kw with
    | none => MemDir.idel.loop i rest idx
    | some b => MemDir.idel.loop i rest (mapPut idx kw (b.Remove i))

/-- `func (m *MemDir) idel(i uint32)`. -/
def MemDir.idel (m : MemDir) (i : Nat) : MemDir :=
  if m.s.length % 4294967296 ≤ i then m
  else
    { m with
      i := MemDir.idel.loop i (m.s.getD i []) m.i
      s := m.s.set i []
      p := m.p.set i Path.zero }

/-- `func (m *MemDir) alloc() (uint32, bool)`. -/
def MemDir.alloc (m : MemDir) : (Nat × Bool) × MemDir :=
  match m.z with
  | none => ((0, false), m)
  | some [] => ((0, false), m)
  | some (i :: rest) => ((i, true), { m with z := some rest })

/-- The last loop of `PutTrack`: slot `i` is added to the bitmap of each keyword. -/
def MemDir.PutTrack.index (i : Nat) :
    List GoString → List (GoString × Bitmap) → List (GoString × Bitmap)
  | [], idx => idx
  | kw :: rest, idx =>
    MemDir.PutTrack.index i rest (mapPut idx kw (Bitmap.Add ((idx.lookup kw).getD []) i))

/-- `m.s[i] = keys; m.p[i] = path; m.b[i] = doc`; none where an index is out of
range (Go panics). -/
def MemDir.store (m : MemDir) (i : Nat) (keys : List GoString) (path : Path)
    (doc : Option bson.Document) : Option MemDir :=
  if i < m.s.length ∧ i < m.p.length ∧ i < m.b.length then
    some { m with s := m.s.set i keys, p := m.p.set i path, b := m.b.set i doc }
  else none

/-- `func (m *MemDir) PutTrack(path Path, keys []string, doc []byte)`; none where
Go panics. In the third branch the statement `m.f[p] = i` comes before
`i = uint32(len(m.s))`, so it stores the zero value of `i`. -/
def MemDir.PutTrack (m : MemDir) (path : Path) (keys : List GoString)
    (doc : Option bson.Document) : Option MemDir :=
  let p := pathKey path
  let m := m.prepare
  let r : Option (Nat × MemDir) :=
    match m.f.lookup p with
    | some j => (MemDir.store (m.idel j) j keys path doc).map (fun m1 => (j, m1))
    | none =>
      match m.alloc with
      | ((j, true), m1) =>
        (MemDir.store m1 j keys path doc).map
          (fun m2 => (j, { m2 with f := mapPut m2.f p j }))
      | ((_, false), m1) =>
        let m2 : MemDir := { m1 with f := mapPut m1.f p 0 }
        let i := m2.s.length % 4294967296
        some (i, { m2 with s := m2.s ++ [keys], p := m2.p ++ [path], b := m2.b ++ [doc] })
  match r with
  | none => none
  | some (i, m3) =>
    if i < m3.s.length then some { m3 with i := MemDir.PutTrack.index i (m3.s.getD i []) m3.i }
    else none

/-- `func (m *MemDir) DelTrack(path Path)`. -/
def MemDir.DelTrack (m : MemDir) (path : Path) : MemDir :=
  let p := pathKey path
  let m := m.prepare
  match m.f.lookup p with
  | some i =>
    let m1 := m.idel i
    { m1 with f := mapDel m1.f p, z := some (Bitmap.Add (m1.z.getD []) i) }
  | none => m

/-- The loop of `DelAll` over the entries of `f`. -/
def MemDir.DelAll.loop (pre : GoString) : List (GoString × Nat) → MemDir → MemDir
  | [], m => m
  | (p, i) :: rest, m =>
    if p.length < pre.length then MemDir.DelAll.loop pre rest m
    else if p.take pre.length ≠ pre then MemDir.DelAll.loop pre rest m
    else
      let m1 := m.idel i
      MemDir.DelAll.loop pre rest
        { m1 with f := mapDel m1.f p, z := some (Bitmap.Add (m1.z.getD []) i) }

/-- `func (m *MemDir) DelAll(domain string)`. -/
def MemDir.DelAll (m : MemDir) (domain : GoString) : MemDir :=
  let m := m.prepare
  MemDir.DelAll.loop (domain ++ lit "/") m.f m

/-- The bitmaps of the keys, none as soon as one key has no bitmap. -/
def MemDir.Lookup.bitmaps (idx : List (GoString × Bitmap)) : List GoString → Option (List Bitmap)
  | [] => some []
  | key :: rest =>
    match idx.lookup key with
    | none => none
    | some b => (MemDir.Lookup.bitmaps idx rest).map (fun bs => b :: bs)

/-- The iteration of `Lookup` over the matching slots, ascending; it stops once
`len(pth) >= max` holds after an append. -/
def MemDir.Lookup.collect (m : MemDir) (max : Int) : List Nat → List Result → List Result
  | [], pth => pth
  | i :: rest, pth =>
    if i ≥ m.p.length % 4294967296 then MemDir.Lookup.collect m max rest pth
    else
      let pth1 := pth ++ [{ Path := m.p.getD i Path.zero, Meta := (m.b.getD i none) }]
      if (pth1.length : Int) ≥ max then pth1 else MemDir.Lookup.collect m max rest pth1

/-- `func (m *MemDir) Lookup(keys []string, max int) []Result`. -/
def MemDir.Lookup (m : MemDir) (keys : List GoString) (max : Int) : List Result :=
  match MemDir.Lookup.bitmaps m.i keys with
  | none => []
  | some imb => MemDir.Lookup.collect m max (FastAnd imb) []

/-- The keywords of a list of elements: for each, the words of its string value
with the element's key in front (the loops of `Publish` and `Query`). -/
def keywordsOf (U : Unicode) : List bson.Element → List GoString
  | [] => []
  | elem :: rest => prepends (splitup U elem.2.StringValueOK.1) elem.1 ++ keywordsOf U rest

/-- `func (f *FTSI) Publish(tok c2s.Srv_Token, doc bson.Document)`; none where
`PutTrack` panics. -/
def FTSI.Publish (U : Unicode) (m : MemDir) (tok : c2s.Srv_Token)
    (doc : Option bson.Document) : Option MemDir :=
  if tok.Status ≠ .Accepted then some m
  else
    match (bson.Elements doc).1 with
    | e0 :: e1 :: rest =>
      let pth : Path :=
        { domain := tok.Domain, group := e0.2.StringValueOK.1, title := e1.2.StringValueOK.1 }
      let kwds := prepends (splitup U pth.title) (lit "f") ++ keywordsOf U rest
      m.PutTrack pth (unify kwds) doc
    | _ => some m

/-- `func (f *FTSI) Retract(tok c2s.Srv_Token, doc bson.Document)`. -/
def FTSI.Retract (m : MemDir) (tok : c2s.Srv_Token) (doc : Option bson.Document) : MemDir :=
  if tok.Status ≠ .Accepted then m
  else
    match (bson.Elements doc).1 with
    | e0 :: e1 :: _ =>
      m.DelTrack
        { domain := tok.Domain, group := e0.2.StringValueOK.1, title := e1.2.StringValueOK.1 }
    | _ => m

/-- `func (f *FTSI) RetractAll(tok c2s.Srv_Token)`. -/
def FTSI.RetractAll (m : MemDir) (tok : c2s.Srv_Token) : MemDir :=
  if tok.Status ≠ .Accepted then m else m.DelAll tok.Domain

/-- The results of `Query` before they are put into the reply. -/
def FTSI.results (U : Unicode) (m : MemDir) (terms : Option bson.Document) (max : Int) :
    List Result :=
  m.Lookup (unify (keywordsOf U (bson.Elements terms).1)) max

/-- `func (f *FTSI) Query(tok, terms bson.Document, max int) bson.Document`. -/
def FTSI.Query (U : Unicode) (m : MemDir) (_tok : c2s.Srv_Token)
    (terms : Option bson.Document) (max : Int) : bson.Document :=
  ((FTSI.results U m terms max).foldl
    (fun db res => db.AppendDocument res.Path.domain res.GetMeta) bson.NewDocumentBuilder).Build

end ftse

namespace ftse

/-- An `Accepted` token of the domain "x.onion". -/
def tokX : c2s.Srv_Token := { Status := .Accepted, Domain := lit "x.onion" }

/-- The file document `{"": group, "f": title}` a servent publishes. -/
def fileDoc (group title : GoString) : bson.Document :=
  ((bson.NewDocumentBuilder.AppendString [] group).AppendString (lit "f") title).Build

/-- The index after `Publish` of "a", `Publish` of "b" and `Retract` of "b", all
of group "g" under `tokX`, starting from the empty `MemDir`. -/
def indexAfterRetract : Option MemDir :=
  ((FTSI.Publish asciiUnicode MemDir.empty tokX (some (fileDoc (lit "g") (lit "a")))).bind
    (fun m1 => FTSI.Publish asciiUnicode m1 tokX (some (fileDoc (lit "g") (lit "b"))))).map
    (fun m2 => FTSI.Retract m2 tokX (some (fileDoc (lit "g") (lit "b"))))

end ftse

/-! ## Package `c2s`: the index server session (`c2s.go`) -/

namespace c2s

/-- A call on the `Srv_Queries` of the server. `RetractAll` carries the place
it was made from: the deferred call of `Serve` (`teardown`) or the `sweep` case
of `serve`. -/
inductive QCall where
  | RetractAll (tok : Srv_Token) (teardown : Bool)
  | Publish (tok : Srv_Token) (doc : Option bson.Document)
  | Retract (tok : Srv_Token) (doc : Option bson.Document)
  | Query (tok : Srv_Token) (terms : Option bson.Document) (max : Int)
  deriving DecidableEq

/-- `type Server struct{ Arena; Rand; Auth Srv_Auth; Query Srv_Queries }` with
what its collaborators answer: `Login` is `Auth.Login` (none is a nil token),
`Query` is the document `Query.Query` returns (none is nil), and `StatusAt n` is
what the token's `Status()` reports while the `n`-th request of the session is
served (another task may change it in between). -/
structure Server where
  E : proto.Crypto
  Rand : Bytes
  Login : Bytes → GoString → Option Srv_Token
  Query : Srv_Token → Option bson.Document → Int → Option bson.Document
  StatusAt : Nat → Status

/-- `type connServer struct { *Server; pc; sa; tok }`, with the calls made on
`Query` so far and the number of requests read. -/
structure connServer where
  pc : proto.DocConn
  sa : proto.ServerAuth
  tok : Option Srv_Token
  calls : List QCall
  served : Nat
  deriving DecidableEq

/-- `func elookup(elems []bson.Element, n string) (val bson.Value)`. -/
def elookup : List bson.Element → GoString → bson.Value
  | [], _ => .zero
  | elem :: rest, n => if elem.1 ≠ n then elookup rest n else elem.2

/-- The token of the session as a call sees it now. -/
def connServer.token (S : Server) (c : connServer) : Srv_Token :=
  { Status := S.StatusAt c.served, Domain := (c.tok.getD { Status := .Pending, Domain := [] }).Domain }

/-- `func (s *connServer) handshake() (err error)`. -/
def connServer.handshake (S : Server) (c : connServer) : Option GoError × connServer :=
  match c.pc.ReadDocument with
  | (_, some err, pc1) => (some err, { c with pc := pc1 })
  | (recv, none, pc1) =>
    let r := c.sa.Step1 S.E recv
    let pc2 := pc1.Free
    match r.1 with
    | none => (some .eCryptoError, { c with pc := pc2, sa := r.2 })
    | some chal =>
      match pc2.WriteDocument (some chal) with
      | (some err, pc3) => (some err, { c with pc := pc3, sa := r.2 })
      | (none, pc3) =>
        match pc3.ReadDocument with
        | (_, some err, pc4) => (some err, { c with pc := pc4, sa := r.2 })
        | (recv2, none, pc4) =>
          let ok := r.2.Step2 recv2
          (if ok then none else some .eAuthFailed, { c with pc := pc4.Free, sa := r.2 })

/-- `func (s *connServer) ready(msg, elems) (err error)`. -/
def connServer.ready (S : Server) (c : connServer) : Option GoError × connServer :=
  let res := (bson.NewDocumentBuilder.AppendInt32 (lit "status") (c.token S).Status.toInt32).Build
  let w := c.pc.WriteDocument (some res)
  (w.1, { c with pc := w.2 })

/-- `func (s *connServer) publish(msg, elems) (err error)`: the calls it makes. -/
def connServer.publish (tok : Srv_Token) : List bson.Element → List QCall
  | [] => []
  | elem :: rest =>
    if elem.2.DocumentOK.2 then .Publish tok elem.2.DocumentOK.1 :: connServer.publish tok rest
    else connServer.publish tok rest

/-- `func (s *connServer) retract(msg, elems) (err error)`: the calls it makes. -/
def connServer.retract (tok : Srv_Token) : List bson.Element → List QCall
  | [] => []
  | elem :: rest =>
    if elem.2.DocumentOK.2 then .Retract tok elem.2.DocumentOK.1 :: connServer.retract tok rest
    else connServer.retract tok rest

/-- `func (s *connServer) query(msg, elems) (err error)`; `elems` is not empty. -/
def connServer.query (S : Server) (c : connServer) (elems : List bson.Element) :
    Option GoError × connServer :=
  if (c.token S).Status = .Rejected then
    let w := c.pc.WriteDocument (some bson.NewDocumentBuilder.Build)
    (w.1, { c with pc := w.2 })
  else
    let v := ((elems.get? 0).getD ([], .zero)).2.DocumentOK
    if !v.2 then (some .eProtocolError, c)
    else
      let j := (elookup elems (lit "max")).Int32OK
      let i : Int := if j.2 then j.1 else 1024
      let resp := S.Query (c.token S) v.1 i
      let w := c.pc.WriteDocument resp
      (w.1, { c with pc := w.2, calls := c.calls ++ [.Query (c.token S) v.1 i] })

/-- `func (s *connServer) serve() (err error)`. -/
def connServer.serve (S : Server) (c : connServer) : Option GoError × connServer :=
  match c.pc.ReadDocument with
  | (_, some err, pc1) => (some err, { c with pc := pc1 })
  | (msg, none, pc1) =>
    let c0 : connServer := { c with pc := pc1.Free }
    match bson.Elements msg with
    | (_, some err) => (some err, { c0 with served := c0.served + 1 })
    | ([], none) => (none, { c0 with served := c0.served + 1 })
    | (e0 :: tl, none) =>
      let r : Option GoError × connServer :=
        if e0.1 = lit "ready" then c0.ready S
        else if e0.1 = lit "publish" then
          (none, { c0 with calls := c0.calls ++ connServer.publish (c0.token S) (e0 :: tl) })
        else if e0.1 = lit "retract" then
          (none, { c0 with calls := c0.calls ++ connServer.retract (c0.token S) (e0 :: tl) })
        else if e0.1 = lit "sweep" then
          (none, { c0 with calls := c0.calls ++ [.RetractAll (c0.token S) false] })
        else if e0.1 = lit "query" then c0.query S (e0 :: tl)
        else (none, c0)
      (r.1, { r.2 with served := r.2.served + 1 })

/-- `func (s *Server) prepare(conn) *connServer`. -/
def Server.prepare (S : Server) (conn : proto.DocConn) : connServer :=
  { pc := conn, sa := proto.newServerAuth S.Rand, tok := none, calls := [], served := 0 }

/-- The loop `for { err = t.serve(); if err != nil { return } }`, at most `fuel`
rounds; none when the rounds do not suffice. -/
def Server.serveLoop (S : Server) : Nat → connServer → Option connServer
  | 0, _ => none
  | fuel + 1, c =>
    match c.serve S with
    | (some _, c1) => some c1
    | (none, c1) => Server.serveLoop S fuel c1

/-- `func (s *Server) Serve(conn io.ReadWriteCloser)`: the state when it returns.
The deferred calls run last: `RetractAll(t.tok)`, then `conn.Close()`. Every
round of the loop reads a document, so one round more than the connection has
documents is enough. -/
def Server.Serve (S : Server) (conn : proto.DocConn) : Option connServer :=
  let t := S.prepare conn
  match t.handshake S with
  | (some _, t1) => some { t1 with pc := t1.pc.Close }
  | (none, t1) =>
    match S.Login t1.sa.Pub t1.sa.Domain with
    | none => some { t1 with pc := t1.pc.Close }
    | some tok =>
      let t2 : connServer := { t1 with tok := some tok }
      (Server.serveLoop S (t2.pc.inbox.length + 1) t2).map (fun t3 =>
        { t3 with
          calls := t3.calls ++ [.RetractAll (t3.token S) true]
          pc := t3.pc.Close })

/-- The number of `RetractAll` calls made at teardown. -/
def teardownCount (calls : List QCall) : Nat :=
  calls.countP (fun q => match q with
    | .RetractAll _ true => true
    | _ => false)

end c2s

namespace c2s

/-- The key pair of an honest client, drawn from the scalar 2 in `toyCrypto`. -/
def honestClient : proto.KeyPair :=
  proto.KeyPair.generate proto.toyCrypto.curve (List.replicate 31 0 ++ [2]) (lit "a.onion")

/-- An index server whose `Auth.Login` returns a nil token. -/
def nilLoginServer : Server :=
  { E := proto.toyCrypto
    Rand := List.replicate 31 0 ++ [3]
    Login := fun _ _ => none
    Query := fun _ _ _ => none
    StatusAt := fun _ => .Pending }

/-- The two documents the honest client sends during the handshake with
`nilLoginServer`: its login, and its answer to the server's challenge. -/
def honestHandshake : List bson.Document :=
  [honestClient.Step1,
   (honestClient.Step2 proto.toyCrypto
      ((proto.newServerAuth nilLoginServer.Rand).Step1 proto.toyCrypto
        (some honestClient.Step1)).1).getD bson.NewDocumentBuilder.Build]

end c2s

/-! ## Package `p2p`: the file-writer task of the server (`p2p.go`) -/

namespace p2p

/-- `n, _ := fobj.Read(buf)` for a buffer of `n` bytes: the data of the next
read (never more than the buffer holds) and the reader afterwards; no data at
the end of the file. -/
def ReadCloser.Read (f : ReadCloser) (n : Nat) : Bytes × ReadCloser :=
  match f.reads with
  | [] => ([], f)
  | chunk :: rest => (chunk.take n, { f with reads := rest })

/-- The size of the buffer of `filewrite`: `make([]byte,1<<13)`. -/
def bufSize : Nat := 8192

/-- The message `{dl.start: {d, f}}` of a path. -/
def dlStart (path : Path) : bson.Document :=
  pack [(lit "dl.start", .document (pack [(lit "d", .string path.1), (lit "f", .string path.2)]))]

/-- The message `{dl.bin: data}`. -/
def dlBin (data : Bytes) : bson.Document := pack [(lit "dl.bin", .bytes data)]

/-- The message `{dl.end: 0}`. -/
def dlEnd : bson.Document := pack [(lit "dl.end", .int 0)]

/-- The read loop of `filewrite` over the reads the file still has to give:
each round is one `Read(buf)`; it stops on an empty read and after a short one.
`out` is the low-priority queue. -/
def connServer.filewrite.loop : List Bytes → List bson.Document → List bson.Document
  | [], out => out
  | chunk :: rest, out =>
    let data := chunk.take bufSize
    if data.length = 0 then out
    else if data.length < bufSize then out ++ [dlBin data]
    else connServer.filewrite.loop rest (out ++ [dlBin data])

/-- `func (c *connServer) filewrite(felem queueElement)`; the deferred `Close`
runs last. -/
def connServer.filewrite (c : connServer) (felem : queueElement) : connServer :=
  match felem.fobj with
  | none => c
  | some f =>
    { c with
      outlo := connServer.filewrite.loop f.reads (c.outlo ++ [dlStart felem.path]) ++ [dlEnd]
      fslog := c.fslog ++ [.Close f] }

/-- The reader fills the buffer on every read except the last: every read but
the last returns `bufSize` bytes, and the last at most that many. -/
def FillsBuffer : List Bytes → Prop
  | [] => True
  | [chunk] => chunk.length ≤ bufSize
  | chunk :: rest => chunk.length = bufSize ∧ FillsBuffer rest

instance : (reads : List Bytes) → Decidable (FillsBuffer reads)
  | [] => isTrue trivial
  | [chunk] => inferInstanceAs (Decidable (chunk.length ≤ bufSize))
  | chunk :: c2 :: rest =>
    have : Decidable (FillsBuffer (c2 :: rest)) := instDecidableFillsBuffer (c2 :: rest)
    inferInstanceAs (Decidable (chunk.length = bufSize ∧ FillsBuffer (c2 :: rest)))

end p2p

/-! ## Package `p2p`: the writer task of the server (`p2p.go`)

`writer` loops over two `select` statements. A `select` takes one of the cases
that are ready, any of them when several are; `default` is taken only when none
is. The embedding makes the case taken an argument (`Pick`) and yields none when
that case is not ready. Sends from other tasks are steps of their own. -/

namespace p2p

/-- The cases of the `select` statements of `writer`. -/
inductive Pick where
  | alive
  | hi
  | lo
  | dflt
  deriving DecidableEq, Repr

/-- `case msg := <- c.outhi: c.pc.WriteDocument(msg)`; none when the queue is empty. -/
def connServer.sendHi (c : connServer) : Option connServer :=
  match c.outhi with
  | msg :: rest => some { c with outhi := rest, pc := (c.pc.WriteDocument (some msg)).2 }
  | [] => none

/-- `case msg := <- c.outlo: c.pc.WriteDocument(msg)`; none when the queue is empty. -/
def connServer.sendLo (c : connServer) : Option connServer :=
  match c.outlo with
  | msg :: rest => some { c with outlo := rest, pc := (c.pc.WriteDocument (some msg)).2 }
  | [] => none

/-- The first `select` of `writer`: `<- c.alive` (ready once the channel is
closed), `<- c.outhi`, or `default`. -/
def connServer.writer.first (c : connServer) : Pick → Option connServer
  | .alive => if c.alive then none else some c
  | .hi => c.sendHi
  | .lo => none
  | .dflt => if c.alive ∧ c.outhi = [] then some c else none

/-- The second `select` of `writer`: `<- c.alive`, `<- c.outhi` or `<- c.outlo`;
it has no `default`, so it blocks while none is ready. -/
def connServer.writer.second (c : connServer) : Pick → Option connServer
  | .alive => if c.alive then none else some c
  | .hi => c.sendHi
  | .lo => c.sendLo
  | .dflt => none

/-- One round of the loop of `writer`, with the cases its two `select`s take. -/
def connServer.writerRound (c : connServer) (p1 p2 : Pick) : Option connServer :=
  (connServer.writer.first c p1).bind (fun c1 => connServer.writer.second c1 p2)

/-- A step of the writer and the tasks around it: one of its two `select`s, or
a send of another task on one of the queues. -/
inductive WriterStep where
  | first (p : Pick)
  | second (p : Pick)
  | enqHi (msg : bson.Document)
  | enqLo (msg : bson.Document)

/-- The effect of a step. -/
def connServer.writerStep (c : connServer) : WriterStep → Option connServer
  | .first p => connServer.writer.first c p
  | .second p => connServer.writer.second c p
  | .enqHi msg => some { c with outhi := c.outhi ++ [msg] }
  | .enqLo msg => some { c with outlo := c.outlo ++ [msg] }

/-- A sequence of steps. -/
def connServer.writerRun (c : connServer) : List WriterStep → Option connServer
  | [] => some c
  | st :: rest => (c.writerStep st).bind (fun c1 => connServer.writerRun c1 rest)

/-- The high-priority messages a sequence of steps enqueues, in order. -/
def enqueuedHi : List WriterStep → List bson.Document
  | [] => []
  | .enqHi msg :: rest => msg :: enqueuedHi rest
  | _ :: rest => enqueuedHi rest

/-- The low-priority messages a sequence of steps enqueues, in order. -/
def enqueuedLo : List WriterStep → List bson.Document
  | [] => []
  | .enqLo msg :: rest => msg :: enqueuedLo rest
  | _ :: rest => enqueuedLo rest

/-- The list `m` is made of the lists `hs` and `ls`, each in its own order. -/
inductive Interleave : List bson.Document → List bson.Document → List bson.Document → Prop
  | nil : Interleave [] [] []
  | left (h : bson.Document) {hs ls m : List bson.Document} :
      Interleave hs ls m → Interleave (h :: hs) ls (h :: m)
  | right (l : bson.Document) {hs ls m : List bson.Document} :
      Interleave hs ls m → Interleave hs (l :: ls) (l :: m)

/-- A state of the writer for concrete runs: the high-priority queue holds two
replies, the low-priority queue one chunk. -/
def twoHighOneLow : connServer :=
  { Server.prepare (proto.connOf []) with
    outhi := [pack [(lit "putfile", .int 404), (lit "txt", .string (lit "p2p: File not Found"))],
      pack [(lit "putfile", .int 204), (lit "txt", .string (lit "queue ran full"))]]
    outlo := [dlBin [1, 2, 3]] }

end p2p

/-! ## Package `p2p`: the file-writing task of the client (`p2p.go`, `dir.go`) -/

namespace p2p

/-- An open `io.WriteCloser` of the target store, known by its name. -/
structure WriteCloser where
  name : GoString
  deriving DecidableEq, Repr

/-- What happens to sinks: calls of `TargetStore.Create`, and of `Write` and
`Close` on a sink. -/
inductive SinkEvent where
  | Create (t : Token) (p : Path)
  | Write (w : WriteCloser) (data : Bytes)
  | Close (w : WriteCloser)
  deriving DecidableEq

/-- `type TargetStore interface{ Create(t Token, p Path) (io.WriteCloser, error) }`. -/
abbrev TargetStore := Token → Path → Option WriteCloser × Option GoError

/-- `func cleanup(r rune) rune`. -/
def cleanup (os : GOOS) (r : Nat) : Nat :=
  if r < 32 then 95
  else if r = 92 ∨ r = 47 ∨ r = Separator os then 95
  else r

/-- `func CleanUpFile(s string) string`. -/
def CleanUpFile (os : GOOS) (s : GoString) : GoString := ftse.stringsMap (cleanup os) s

/-- `func (df *DownloadFolder) Create(t Token, p Path) (io.WriteCloser, error)`;
`osCreate` is `os.Create`. -/
def DownloadFolder.Create (env : OSEnv)
    (osCreate : GoString → Option WriteCloser × Option GoError) (dir : GoString) :
    TargetStore :=
  fun t p =>
    match t with
    | none => (none, some .EDlRejected)
    | some _ => osCreate (env.Join dir (CleanUpFile env.os p.2))

/-- `func d2path(d bson.Document) (p Path)`: the string values of the first two
elements (the empty string where there is none). -/
def d2path (d : Option bson.Document) : Path :=
  (((d.map (fun (x : bson.Document) => (x.IndexErr 0).1)).getD
      (([], .zero) : bson.Element)).2.StringValueOK.1,
   ((d.map (fun (x : bson.Document) => (x.IndexErr 1).1)).getD
      (([], .zero) : bson.Element)).2.StringValueOK.1)

/-- The local state of `filewriter`: the current sink `cf`, with the log of
what was done to sinks. -/
structure fileWriter where
  cf : Option WriteCloser
  log : List SinkEvent
  deriving DecidableEq

/-- The closure `setFile` of `filewriter`. -/
def fileWriter.setFile (w : fileWriter) (ncf : Option WriteCloser) : fileWriter :=
  match w.cf with
  | some f => { cf := ncf, log := w.log ++ [.Close f] }
  | none => { w with cf := ncf }

/-- The body of the loop of `filewriter` for one message taken from `filemsg`;
every path ends at the label `done` with `c.pc.Free(msg)`. -/
def Client.filewriter.handle (T : TargetStore) (c : Client) (w : fileWriter)
    (msg : bson.Document) : Client × fileWriter :=
  let elem := (msg.IndexErr 0).1
  let r : Client × fileWriter :=
    if elem.1 = lit "dl.start" then
      let hdr := elem.2.DocumentOK
      if !hdr.2 then (c, w)
      else
        let path := d2path hdr.1
        let token := c.toks.Get path
        let c1 : Client := { c with toks := c.toks.Put path none }
        let res := T token path
        let w1 : fileWriter := { w with log := w.log ++ [.Create token path] }
        match res.2 with
        | some _ => (c1, w1)
        | none => (c1, w1.setFile res.1)
    else if elem.1 = lit "dl.bin" then
      let b := elem.2.BinaryOK
      if !b.2.2 then (c, w)
      else
        match w.cf with
        | some f => (c, { w with log := w.log ++ [.Write f b.2.1] })
        | none => (c, w)
    else if elem.1 = lit "dl.end" then
      match w.cf with
      | some f => (c, { cf := none, log := w.log ++ [.Close f] })
      | none => (c, w)
    else (c, w)
  ({ r.1 with pc := r.1.pc.Free }, r.2)

/-- The loop of `filewriter` over the messages it receives. -/
def Client.filewriter.loop (T : TargetStore) :
    List bson.Document → Client → fileWriter → Client × fileWriter
  | [], c, w => (c, w)
  | msg :: rest, c, w =>
    let r := Client.filewriter.handle T c w msg
    Client.filewriter.loop T rest r.1 r.2

/-- `func (c *Client) filewriter()`: it handles `n` messages of `filemsg` (all of
them when there are fewer), then takes the case `<- c.alive` and returns, the
deferred `setFile(nil)` closing the current sink. None when `alive` is not
closed (the task keeps waiting). -/
def Client.filewriter (T : TargetStore) (c : Client) (n : Nat) : Option (Client × fileWriter) :=
  if c.aliveClosed then
    let r := Client.filewriter.loop T (c.filemsg.take n) { c with filemsg := c.filemsg.drop n }
      { cf := none, log := [] }
    some (r.1, r.2.setFile none)
  else none

/-- A target store for concrete runs: a download folder "dl" on a disk where
every file can be created. -/
def exampleTarget : TargetStore :=
  DownloadFolder.Create exampleEnv (fun n => (some { name := n }, none)) (lit "dl")

/-- A client whose token map holds one token, for "a.ogg" of "peer.onion", and
to which the peer sends: the start of "a.ogg", a chunk, the start of "b.ogg"
(for which no token is stored), and another chunk. -/
def twoStartsClient : Client :=
  { pc := proto.connOf [], aliveClosed := true, appmsg := []
    filemsg := [dlStart (lit "peer.onion", lit "a.ogg"), dlBin [1, 2],
      dlStart (lit "peer.onion", lit "b.ogg"), dlBin [3, 4]]
    toks := { m := [((lit "peer.onion", lit "a.ogg"), 7)] } }

end p2p

/-! ## Package `c2s`: the client of the index protocol (`c2s.go`) -/

namespace c2s

/-- `type Client struct{ *ClientContext; conn *proto.Conn; m sync.Mutex }`: the
key pair of its context and the connection. -/
structure Client where
  KP : proto.KeyPair
  conn : proto.DocConn
  deriving DecidableEq

/-- `func (c *Client) handshake() (err error)`. -/
def Client.handshake (E : proto.Crypto) (c : Client) : Option GoError × Client :=
  match c.conn.WriteDocument (some c.KP.Step1) with
  | (some err, conn1) => (some err, { c with conn := conn1 })
  | (none, conn1) =>
    match conn1.ReadDocument with
    | (_, some err, conn2) => (some err, { c with conn := conn2 })
    | (recv, none, conn2) =>
      match c.KP.Step2 E recv with
      | none => (some .eCryptoError, { c with conn := conn2 })
      | some send =>
        let w := conn2.WriteDocument (some send)
        (w.1, { c with conn := w.2 })

/-- `func (cc *ClientContext) NewClient(conn) (cli *Client, err error)`: on a
failed handshake `cfatal` closes the connection and the client is nil. -/
def ClientContext.NewClient (E : proto.Crypto) (KP : proto.KeyPair) (conn : proto.DocConn) :
    Option Client × Option GoError × proto.DocConn :=
  let r := Client.handshake E { KP := KP, conn := conn }
  match r.1 with
  | some err => (none, some err, r.2.conn.Close)
  | none => (some r.2, none, r.2.conn)

/-- `func (c *Client) Status() (Status, error)`: the status as the int32 of the
reply. -/
def Client.Status (c : Client) : (Int × Option GoError) × Client :=
  let doc := (bson.NewDocumentBuilder.AppendString (lit "ready") []).Build
  match c.conn.WriteDocument (some doc) with
  | (some err, conn1) => ((0, some err), { c with conn := conn1 })
  | (none, conn1) =>
    match conn1.ReadDocument with
    | (_, some err, conn2) => ((0, some err), { c with conn := conn2 })
    | (resp, none, conn2) =>
      let i := (bson.Lookup resp (lit "status")).Int32OK
      if !i.2 then ((0, some .eProtocolError), { c with conn := conn2 })
      else ((i.1, none), { c with conn := conn2 })

/-- `func (c *Client) RetractAll() error`. -/
def Client.RetractAll (c : Client) : Option GoError × Client :=
  let w := c.conn.WriteDocument (some (bson.NewDocumentBuilder.AppendString (lit "sweep") []).Build)
  (w.1, { c with conn := w.2 })

/-- The loop `for _,f := range files[1:] { db = db.AppendDocument("",f) }`. -/
def appendFiles (db : bson.DocumentBuilder) : List bson.Document → bson.DocumentBuilder
  | [] => db
  | f :: rest => appendFiles (db.AppendDocument [] f) rest

/-- `func (c *Client) Publish(files []bson.Document) error`. -/
def Client.Publish (c : Client) (files : List bson.Document) : Option GoError × Client :=
  match files with
  | [] => (none, c)
  | f0 :: rest =>
    let db := appendFiles (bson.NewDocumentBuilder.AppendDocument (lit "publish") f0) rest
    let w := c.conn.WriteDocument (some db.Build)
    (w.1, { c with conn := w.2 })

/-- `func (c *Client) Retract(files []bson.Document) error`. -/
def Client.Retract (c : Client) (files : List bson.Document) : Option GoError × Client :=
  match files with
  | [] => (none, c)
  | f0 :: rest =>
    let db := appendFiles (bson.NewDocumentBuilder.AppendDocument (lit "retract") f0) rest
    let w := c.conn.WriteDocument (some db.Build)
    (w.1, { c with conn := w.2 })

/-- `func (c *Client) Query(terms bson.Document, max int) ([]bson.Element, error)`;
`bdClones` copies the elements, which changes nothing here. -/
def Client.Query (c : Client) (terms : bson.Document) (max : Int) :
    List bson.Element × Option GoError × Client :=
  let db := bson.NewDocumentBuilder.AppendDocument (lit "query") terms
  let db := if max > 0 then db.AppendInt32 (lit "max") (p2p.toInt32 max) else db
  match c.conn.WriteDocument (some db.Build) with
  | (some err, conn1) => ([], some err, { c with conn := conn1 })
  | (none, conn1) =>
    match conn1.ReadDocument with
    | (_, some err, conn2) => ([], some err, { c with conn := conn2 })
    | (doc, none, conn2) =>
      ((bson.Elements doc).1, (bson.Elements doc).2, { c with conn := conn2 })

end c2s

/-! ## The index server with the in-memory index as its query layer -/

namespace c2s

/-- A server whose `Query` collaborator is an `FTSI` over the index `m`. -/
def Server.withIndex (S : Server) (U : ftse.Unicode) (m : ftse.MemDir) : Server :=
  { S with Query := fun tok terms max => some (ftse.FTSI.Query U m tok terms max) }

/-- The limit a query request asks for: its int32 "max" element, or 1024. -/
def requestedMax (elems : List bson.Element) : Int :=
  if (elookup elems (lit "max")).Int32OK.2 then (elookup elems (lit "max")).Int32OK.1 else 1024

/-- An index server for concrete runs: accepted sessions over the index that
holds the one file "a" of group "g", published by "x.onion". -/
def oneFileServer : Server :=
  Server.withIndex { nilLoginServer with StatusAt := fun _ => .Accepted } ftse.asciiUnicode
    ((ftse.FTSI.Publish ftse.asciiUnicode ftse.MemDir.empty ftse.tokX
      (some (ftse.fileDoc (lit "g") (lit "a")))).getD ftse.MemDir.empty)

/-- The request `{query: {f: "a"}, max: 0}`. -/
def queryMaxZero : bson.Document :=
  ((bson.NewDocumentBuilder.AppendDocument (lit "query")
    (bson.NewDocumentBuilder.AppendString (lit "f") (lit "a")).Build).AppendInt32
      (lit "max") 0).Build

end c2s

/-! ## Package `servent`: index sessions and the fan-out query (`servent.go`) -/

namespace servent

/-- `type serverConn struct`: the index client of the session, whether a wake-up
is pending on `signal` (a channel of capacity 1), and the supervisor's view of
the session (`status`, `commit`). `status` is a `c2s.Status`, that is an int32:
it holds whatever number the last `Status()` poll returned. -/
structure serverConn where
  cli : c2s.Client
  signal : Bool
  status : Int
  commit : Bool
  deriving DecidableEq

/-- `func wakeup(s chan int)`: a send that does not block; one wake-up can be
pending. -/
def wakeup (conn : serverConn) : serverConn := { conn with signal := true }

/-- The loop of `Servent.Query` over the connections; `res` and `err` are the
named results. It yields them and the connections as the queries leave them. -/
def Servent.Query.loop (terms : bson.Document) (maxPerConn : Int) :
    List serverConn → List bson.Element → Option GoError →
      (List bson.Element × Option GoError) × List serverConn
  | [], res, err => ((res, err), [])
  | conn :: rest, res, err =>
    let q := conn.cli.Query terms maxPerConn
    let err1 := if err = none then q.2.1 else err
    let conn1 : serverConn := { conn with cli := q.2.2 }
    let conn2 := if err1 ≠ none then wakeup conn1 else conn1
    let r := Servent.Query.loop terms maxPerConn rest (res ++ q.1) err1
    (r.1, conn2 :: r.2)

/-- `func (s *Servent) Query(terms bson.Document, maxPerConn int) (res []bson.Element, err error)`
on the connections `obtainConnections` returns. -/
def Servent.Query (conns : List serverConn) (terms : bson.Document) (maxPerConn : Int) :
    (List bson.Element × Option GoError) × List serverConn :=
  let r := Servent.Query.loop terms maxPerConn conns [] none
  ((r.1.1, if r.1.1.length > 0 then none else r.1.2), r.2)

/-- The outcome of the query of one session: elements and error. -/
def sessionResult (terms : bson.Document) (maxPerConn : Int) (conn : serverConn) :
    List bson.Element × Option GoError :=
  ((conn.cli.Query terms maxPerConn).1, (conn.cli.Query terms maxPerConn).2.1)

/-- The error of the first session that failed, if any. -/
def firstError : List (List bson.Element × Option GoError) → Option GoError
  | [] => none
  | (_, some e) :: _ => some e
  | (_, none) :: rest => firstError rest

/-- An index session over a healthy connection on which the given replies
arrive. -/
def sessionOf (replies : List bson.Document) : serverConn :=
  { cli := { KP := c2s.honestClient, conn := proto.connOf replies }
    signal := false, status := c2s.Status.Accepted.toInt32, commit := false }

end servent

/-! ## Package `p2p`: the reader task and the authentication calls of the client (`p2p.go`) -/

namespace p2p

/-- `func (c *Client) Close() (err error)`: the connection is closed, then the
`alive` channel; closing it a second time panics and `rescue` turns that into
the returned error. -/
def Client.Close (c : Client) : Client := { c with pc := c.pc.Close, aliveClosed := true }

/-- `func hasprefix(b []byte, s string) bool` (named `hasPrefixBytes` here). -/
def hasPrefixBytes (b : Bytes) (s : GoString) : Bool :=
  if b.length < s.length then false else decide (b.take s.length = s)

/-- The capacity of `appmsg`: `make(mqueue,32)`. -/
def appmsgCap : Nat := 32

/-- The capacity of `filemsg`: `make(mqueue,8)`. -/
def filemsgCap : Nat := 8

/-- One round of the first loop of `reader`, taken when `alive` is not closed.
None when the queue the message goes to is full (the send blocks). -/
def Client.reader.round (c : Client) : Option Client :=
  match c.pc.ReadDocument with
  | (_, some _, pc1) => some (Client.Close { c with pc := pc1 })
  | (none, none, pc1) => some { c with pc := pc1.Free }
  | (some msg, none, pc1) =>
    match msg.IndexErr 0 with
    | (_, some _) => some { c with pc := pc1.Free }
    | (elem, none) =>
      if hasPrefixBytes elem.1 (lit "dl.") then
        if c.filemsg.length < filemsgCap then
          some { c with pc := pc1, filemsg := c.filemsg ++ [msg] }
        else none
      else if c.appmsg.length < appmsgCap then
        some { c with pc := pc1, appmsg := c.appmsg ++ [msg] }
      else none

/-- `c.pc.Free(msg)` for every message of a queue. -/
def freeAll (pc : proto.DocConn) : List bson.Document → proto.DocConn
  | [] => pc
  | _ :: rest => freeAll pc.Free rest

/-- The loop of `reader` after the label `done`: what is in the two queues is
received and freed. -/
def Client.reader.drain (c : Client) : Client :=
  { c with pc := freeAll (freeAll c.pc c.appmsg) c.filemsg, appmsg := [], filemsg := [] }

/-- `func (c *Client) reader()`: the state after at most `n` rounds of the first
loop; once `alive` is closed the task is in its second loop, which empties the
queues. None when a send blocks. -/
def Client.reader (c : Client) : Nat → Option Client
  | 0 => if c.aliveClosed then some (Client.reader.drain c) else some c
  | n + 1 =>
    if c.aliveClosed then some (Client.reader.drain c)
    else
      match Client.reader.round c with
      | none => none
      | some c1 => Client.reader c1 n

/-- The result of `step1`: the document `pl`, the error, the `ServerAuth` and
the client afterwards. -/
structure Step1Result where
  pl : Option bson.Document
  err : Option GoError
  sa : proto.ServerAuth
  cli : Client

/-- The result of `step2`, `Authenticate` and `AuthStep2`: `ok`, the error, the
`ServerAuth` and the client afterwards. -/
structure AuthResult where
  ok : Bool
  err : Option GoError
  sa : proto.ServerAuth
  cli : Client

/-- `func (c *Client) step1(sa *proto.ServerAuth) (pl bson.Document, err error)`;
none when `readMessage` blocks. The deferred `Free` has the message as it was
read. -/
def Client.step1 (E : proto.Crypto) (c : Client) (sa : proto.ServerAuth) (pickClose : Bool) :
    Option Step1Result :=
  match c.pc.WriteDocument (some (pack [(lit "hs.s1", .string [])])) with
  | (some err, pc1) => some { pl := none, err := some err, sa := sa, cli := { c with pc := pc1 } }
  | (none, pc1) =>
    match Client.readMessage { c with pc := pc1 } pickClose with
    | none => none
    | some (_, some err, c2) => some { pl := none, err := some err, sa := sa, cli := c2 }
    | some (msg, none, c2) =>
      let r := sa.Step1 E (bson.Lookup msg (lit "hs.s1")).DocumentOK.1
      some { pl := r.1, err := none, sa := r.2, cli := { c2 with pc := c2.pc.Free } }

/-- `func (c *Client) step2(pl bson.Document, sa *proto.ServerAuth) (ok bool, err error)`;
none when `readMessage` blocks. -/
def Client.step2 (c : Client) (pl : bson.Document) (sa : proto.ServerAuth) (pickClose : Bool) :
    Option AuthResult :=
  match c.pc.WriteDocument (some (pack [(lit "hs.s2", .document pl)])) with
  | (some err, pc1) => some { ok := false, err := some err, sa := sa, cli := { c with pc := pc1 } }
  | (none, pc1) =>
    match Client.readMessage { c with pc := pc1 } pickClose with
    | none => none
    | some (_, some err, c2) => some { ok := false, err := some err, sa := sa, cli := c2 }
    | some (msg, none, c2) =>
      some { ok := sa.Step2 (bson.Lookup msg (lit "hs.s2")).DocumentOK.1, err := none, sa := sa,
             cli := { c2 with pc := c2.pc.Free } }

/-- `func (c *Client) Authenticate(sa *proto.ServerAuth) (ok bool, err error)`;
`pick1` and `pick2` are the choices of the two `readMessage` calls. -/
def Client.Authenticate (E : proto.Crypto) (c : Client) (sa : proto.ServerAuth)
    (pick1 pick2 : Bool) : Option AuthResult :=
  match c.step1 E sa pick1 with
  | none => none
  | some r =>
    match r.err, r.pl with
    | some err, _ => some { ok := false, err := some err, sa := r.sa, cli := r.cli }
    | none, none => some { ok := true, err := some .ECryptoError, sa := r.sa, cli := r.cli }
    | none, some pl => r.cli.step2 pl r.sa pick2

/-- `func (c *Client) AuthStep2(sa *proto.ServerAuth, pub []byte, dom string) (ok bool, err error)`. -/
def Client.AuthStep2 (E : proto.Crypto) (c : Client) (sa : proto.ServerAuth) (pub : Bytes)
    (dom : GoString) (pickClose : Bool) : Option AuthResult :=
  match sa.OnePassPrep E pub dom with
  | (none, sa1) => some { ok := true, err := some .ECryptoError, sa := sa1, cli := c }
  | (some pl, sa1) => c.step2 pl sa1 pickClose

/-- The buffers a client owns: those allocated by its reads and not freed, less
those waiting in its two queues. -/
def Client.owned (c : Client) : Int :=
  (c.pc.arena.allocs : Int) - c.pc.arena.frees - c.appmsg.length - c.filemsg.length

end p2p

namespace proto

/-- The buffers allocated and not freed: allocations less frees. -/
def Arena.outstanding (a : Arena) : Int := (a.allocs : Int) - a.frees

end proto

namespace c2s

/-- An index client on a healthy connection on which the reply `{status: 2}`
waits. -/
def statusClient : Client :=
  { KP := honestClient
    conn := proto.connOf [(bson.NewDocumentBuilder.AppendInt32 (lit "status") 2).Build] }

end c2s

/-! ## Package `server`: the back-connect verification (`srvauth.go`) -/

namespace p2p

/-- `func (cc *ClientContext) prepare(conn io.ReadWriteCloser) *Client`. -/
def ClientContext.prepare (conn : proto.DocConn) : Client :=
  { pc := conn, aliveClosed := false, appmsg := [], filemsg := [], toks := { m := [] } }

/-- `func (cc *ClientContext) NewClient(conn io.ReadWriteCloser) (*Client, error)`:
a nil connection is refused; the reader and file-writer tasks it starts run on
their own. -/
def ClientContext.NewClient (conn : Option proto.DocConn) : Option Client × Option GoError :=
  match conn with
  | none => (none, some (.errorf (lit "p2p: conn = %!(EXTRA <nil>)")))
  | some conn => (some (ClientContext.prepare conn), none)

/-- A reply buffer whose first element, `putfile: 200`, is complete and whose
second element is cut off: iteration yields one element and then an error. -/
def cutOffReply : bson.Document :=
  { elems := [(lit "putfile", .int32 200)], err := some .InsufficientBytes }

end p2p

namespace server

/-- `net.JoinHostPort(host, port)` of the standard library, after its
documentation: "host:port", with the host in square brackets when it contains a
colon. -/
def JoinHostPort (host port : GoString) : GoString :=
  if 58 ∈ host then [91] ++ host ++ [93, 58] ++ port else host ++ [58] ++ port

/-- `type token struct { stat c2s.Status; dom string }`. -/
structure token where
  stat : c2s.Status
  dom : GoString
  deriving DecidableEq

/-- `func (t *token) done()`. -/
def token.done (t : token) : token :=
  if t.stat = .Pending then { t with stat := .Rejected } else t

/-- What a run of `verifyPeer` leaves: the `PeerConnectAuth`, the token, the calls
of `p.mem.approve` it made, and whether it closed the client it created. -/
structure VerifyResult where
  p : PeerConnectAuth
  t : token
  approved : List (GoString × Bytes)
  closed : Bool
  deriving DecidableEq

/-- `func verifyPeer(p *PeerConnectAuth, t *token, pub []byte)`. `Dial` is
`p.Dialer.Dial("tcp", ·)`, `port` is `globals.Port_p2p` and `rand` is what the
random source yields. The reader task of the new client runs beside the call of
`AuthStep2`: `rounds` is how many rounds it has made when the `select` of
`readMessage` is taken, and `pickClose` is the choice of that `select`. None
while that `select` has nothing ready. The deferred calls run last:
`cli.Close()`, then `t.done()`. -/
def verifyPeer (E : proto.Crypto) (Dial : GoString → Option proto.DocConn × Option GoError)
    (port : GoString) (rand : Bytes) (p : PeerConnectAuth) (t : token) (pub : Bytes)
    (rounds : Nat) (pickClose : Bool) : Option VerifyResult :=
  match Dial (JoinHostPort t.dom port) with
  | (_, some _) => some { p := p, t := t.done, approved := [], closed := false }
  | (conn, none) =>
    match p2p.ClientContext.NewClient conn with
    | (_, some _) => some { p := p, t := t.done, approved := [], closed := false }
    | (none, none) => some { p := p, t := t.done, approved := [], closed := false }
    | (some cli, none) =>
      match cli.reader rounds with
      | none => none
      | some cli1 =>
        match cli1.AuthStep2 E (proto.newServerAuth rand) pub t.dom pickClose with
        | none => none
        | some a =>
          if a.err ≠ none ∨ !a.ok then
            some { p := p, t := t.done, approved := [], closed := true }
          else
            some { p := p.approve t.dom pub
                   t := ({ t with stat := .Accepted } : token).done
                   approved := [(t.dom, pub)]
                   closed := true }

/-- The outcome of the `AuthStep2` call of a run of `verifyPeer`: none when the
run does not get to the call or the call does not return. -/
def verifyPeer.auth (E : proto.Crypto) (Dial : GoString → Option proto.DocConn × Option GoError)
    (port : GoString) (rand : Bytes) (t : token) (pub : Bytes)
    (rounds : Nat) (pickClose : Bool) : Option p2p.AuthResult :=
  match Dial (JoinHostPort t.dom port) with
  | (some conn, none) =>
    match (p2p.ClientContext.prepare conn).reader rounds with
    | none => none
    | some cli1 => cli1.AuthStep2 E (proto.newServerAuth rand) pub t.dom pickClose
  | _ => none

/-- The random bytes of the verifier in the concrete runs. -/
def verifierRand : Bytes := List.replicate 31 0 ++ [3]

/-- The answer of the peer that holds the key pair `c2s.honestClient` to the
`hs.s2` request of the verifier, as `serveReq` of the p2p server builds it. -/
def peerReply : bson.Document :=
  p2p.pack [(lit "hs.s2", .document
    ((c2s.honestClient.Step2 proto.toyCrypto
      ((proto.newServerAuth verifierRand).OnePassPrep proto.toyCrypto c2s.honestClient.Pub
        (lit "a.onion")).1).getD (p2p.pack [])))]

/-- A dialer that reaches the peer: the connection carries the peer's answer. -/
def peerDial (_ : GoString) : Option proto.DocConn × Option GoError :=
  (some (proto.connOf [peerReply]), none)

/-- A dialer that fails. -/
def failingDial (_ : GoString) : Option proto.DocConn × Option GoError :=
  (none, some (.os (lit "dial tcp: connection refused")))

/-- A pending token for "a.onion". -/
def pendingToken : token := { stat := .Pending, dom := lit "a.onion" }

end server

/-! ## Package `servent`: the pool of peer clients (`servent.go`) -/

namespace p2p

/-- `func (c *Client) Alive() bool`: `select { case <- c.alive: return true;
default: return false }`. The receive is ready once the channel is closed. -/
def Client.Alive (c : Client) : Bool := c.aliveClosed

end p2p

namespace servent

/-- The part of `type Servent struct` the peer pool uses. The clients live in
`clients` and a `*p2p.Client` is an index into it; `clist` is the `sync.Map`
from domain to client, as the list of its entries (only `*p2p.Client` values are
ever stored in it); `dialed` lists the addresses passed to `Dialer.Dial`. -/
structure Servent where
  clients : List p2p.Client
  clist : List (GoString × Nat)
  dialed : List GoString
  deriving DecidableEq

/-- `func (s *Servent) cliRem(domain interface{}, raw interface{})`. -/
def Servent.cliRem (s : Servent) (domain : GoString) (raw : Option Nat) : Servent :=
  if s.clist.lookup domain ≠ raw then s
  else { s with clist := s.clist.filter (fun e => e.1 ≠ domain) }

/-- The results of `GetClient` and the `Servent` afterwards. -/
structure GetClientResult where
  cli : Option Nat
  err : Option GoError
  s : Servent
  deriving DecidableEq

/-- `GetClient` from `addr := net.JoinHostPort(...)` on. `race` is the client
another task stores for the domain while this one dials, if there is such a
task. None when the call panics: `conn.Close()` on the nil connection that
`NewClient` refused. -/
def Servent.GetClient.dial (Dial : GoString → Option proto.DocConn × Option GoError)
    (port : GoString) (s : Servent) (domain : GoString) (race : Option Nat) :
    Option GetClientResult :=
  let addr := server.JoinHostPort domain port
  let s1 : Servent := { s with dialed := s.dialed ++ [addr] }
  match Dial addr with
  | (_, some err) => some { cli := none, err := some err, s := s1 }
  | (conn, none) =>
    match p2p.ClientContext.NewClient conn, conn with
    | (_, some _), none => none
    | (_, some err), some _ => some { cli := none, err := some err, s := s1 }
    | (none, none), _ => none
    | (some cli, none), _ =>
      let i := s1.clients.length
      let s2 : Servent := { s1 with clients := s1.clients ++ [cli] }
      let s3 : Servent :=
        match race with
        | some j => { s2 with clist := (domain, j) :: s2.clist.filter (fun e => e.1 ≠ domain) }
        | none => s2
      match s3.clist.lookup domain with
      | some j =>
        some { cli := some j, err := none, s := { s3 with clients := s3.clients.set i cli.Close } }
      | none =>
        some { cli := some i, err := none, s := { s3 with clist := s3.clist ++ [(domain, i)] } }

/-- `func (s *Servent) GetClient(domain string) (*p2p.Client, error)`. The type
assertion `raw.(*p2p.Client)` holds when the pool has an entry for the
domain. -/
def Servent.GetClient (Dial : GoString → Option proto.DocConn × Option GoError)
    (port : GoString) (s : Servent) (domain : GoString) (race : Option Nat) :
    Option GetClientResult :=
  let raw := s.clist.lookup domain
  match raw.bind (fun i => (s.clients.get? i).map (fun c => (i, c))) with
  | some (i, cli) =>
    if cli.Alive then some { cli := some i, err := none, s := s }
    else Servent.GetClient.dial Dial port (s.cliRem domain raw) domain race
  | none => Servent.GetClient.dial Dial port s domain race

/-- A pool with one entry: the client `cli` for "a.onion". -/
def poolOf (cli : p2p.Client) : Servent :=
  { clients := [cli], clist := [(lit "a.onion", 0)], dialed := [] }

/-- A client whose session is open. -/
def liveClient : p2p.Client := p2p.ClientContext.prepare (proto.connOf [])

/-- A dialer that connects. -/
def okDial (_ : GoString) : Option proto.DocConn × Option GoError :=
  (some (proto.connOf []), none)

end servent

/-! ## Package `proto`: buffers with something after the document -/

namespace proto

/-- A buffer of six bytes whose length prefix says five: five bytes with one
more byte after them. -/
def longerBuffer : Bytes := [5, 0, 0, 0, 0, 7]

end proto

/-! ## Package `proto`: the handshake over P-256 -/

namespace proto

/-- The libraries with the curve P-256; the digest plays no part where the
handshake fails before hashing, and is a checksum here. -/
def p256Crypto : Crypto :=
  { curve := P256.curve, Sum256 := fun x => List.replicate 31 0 ++ [x.sum % 256] }

end proto



/-! ## Package `servent`: the supervisor of an index session (`servent.go`) -/

namespace servent

/-- What one round of the loop of `serverConn.serve` leaves: the session, whether
the function returned (`exit`; the deferred `close(s.alive)` follows), and
whether `go s.sendAll()` was launched. -/
structure ServeRound where
  s : serverConn
  exit : Bool
  sendAll : Bool
  deriving DecidableEq

/-- The case `<- s.signal` of the loop of `serve`: the liveness check. -/
def serverConn.serve.signal (s : serverConn) : ServeRound :=
  let r := s.cli.Status
  let s1 : serverConn := { s with cli := r.2, signal := false }
  match r.1.2 with
  | some _ => { s := s1, exit := true, sendAll := false }
  | none => { s := s1, exit := false, sendAll := false }

/-- The case `<- tk.C` of the loop of `serve`: a tick of the timer. -/
def serverConn.serve.tick (s : serverConn) : ServeRound :=
  if s.status ≠ c2s.Status.Pending.toInt32 then { s := s, exit := false, sendAll := false }
  else
    let r := s.cli.Status
    let s1 : serverConn := { s with cli := r.2 }
    match r.1.2 with
    | some _ => { s := s1, exit := true, sendAll := false }
    | none =>
      let s2 : serverConn := { s1 with status := r.1.1 }
      if r.1.1 = c2s.Status.Rejected.toInt32 then { s := s2, exit := true, sendAll := false }
      else { s := { s2 with commit := true }, exit := false, sendAll := true }

/-- A session in the state Pending, not committed, on whose connection the
reply `{status: v}` to the next poll waits. -/
def pendingSession (v : Int) : serverConn :=
  { cli := { KP := c2s.honestClient
             conn := proto.connOf [(bson.NewDocumentBuilder.AppendInt32 (lit "status") v).Build] }
    signal := false, status := c2s.Status.Pending.toInt32, commit := false }

end servent

/-! ## Package `servent`: publishing the whole inventory (`servent.go`) -/

namespace servent

/-- `p2p.FileSystemEx` as `sendAll` uses it: what `Dirs()` and `Files(dir)`
return. -/
structure FileSystemEx where
  Dirs : List GoString
  Files : GoString → List GoString × Option GoError

/-- `type MetadataAdapter interface`: `GetMetadata(fs, pth)`, document and error. -/
abbrev MetadataAdapter := p2p.Path → Option bson.Document × Option GoError

/-- The document `{_: pth[0], f: pth[1]}`. -/
def minimalDoc (pth : p2p.Path) : bson.Document :=
  ((bson.NewDocumentBuilder.AppendString (lit "_") pth.1).AppendString (lit "f") pth.2).Build

/-- The document `sendAll` and `sendMany` make for a path: the adapter's, or the
minimal one when there is no adapter, the adapter returns an error or it returns
a nil document. -/
def docFor (mda : Option MetadataAdapter) (pth : p2p.Path) : bson.Document :=
  let doc : Option bson.Document :=
    match mda with
    | none => none
    | some g => if (g pth).2 ≠ none then none else (g pth).1
  match doc with
  | none => minimalDoc pth
  | some d => d

/-- The capacity of `docs` in `sendAll`: `make([]bson.Document,0,1<<9)`. -/
def batchCap : Nat := 512

/-- The variables of `sendAll` while it runs: `docs`, the client, and the
arguments of the calls of `Publish` made so far. -/
structure SendState where
  docs : List bson.Document
  cli : c2s.Client
  calls : List (List bson.Document)
  deriving DecidableEq

/-- The inner loop of `sendAll`, over the files of a directory. -/
def serverConn.sendAll.files (mda : Option MetadataAdapter) (dir : GoString) :
    List GoString → SendState → SendState
  | [], st => st
  | file :: rest, st =>
    let docs := st.docs ++ [docFor mda (dir, file)]
    if docs.length < batchCap then
      serverConn.sendAll.files mda dir rest { st with docs := docs }
    else
      serverConn.sendAll.files mda dir rest
        { docs := [], cli := (st.cli.Publish docs).2, calls := st.calls ++ [docs] }

/-- The outer loop of `sendAll`, over the directories. -/
def serverConn.sendAll.dirs (fs : FileSystemEx) (mda : Option MetadataAdapter) :
    List GoString → SendState → SendState
  | [], st => st
  | dir :: rest, st =>
    serverConn.sendAll.dirs fs mda rest (serverConn.sendAll.files mda dir (fs.Files dir).1 st)

/-- `func (s *serverConn) sendAll()`: the session afterwards and the arguments
of its `Publish` calls, in order. The deferred function clears `commit`. -/
def serverConn.sendAll (fs : FileSystemEx) (mda : Option MetadataAdapter) (s : serverConn) :
    serverConn × List (List bson.Document) :=
  let st := serverConn.sendAll.dirs fs mda fs.Dirs { docs := [], cli := s.cli, calls := [] }
  let st1 : SendState :=
    if st.docs.length > 0 then
      { st with cli := (st.cli.Publish st.docs).2, calls := st.calls ++ [st.docs] }
    else st
  ({ s with cli := st1.cli, commit := false }, st1.calls)

/-- One document per (directory, file) pair, in the order of the enumeration. -/
def inventory (fs : FileSystemEx) (mda : Option MetadataAdapter) : List bson.Document :=
  (fs.Dirs.map (fun dir => (fs.Files dir).1.map (fun file => docFor mda (dir, file)))).flatten

end servent

/-! ## Package `ftse`: runs of the in-memory index (`mem.go`) -/

namespace ftse

/-- The path ("x", "g", title). -/
def pathOf (title : GoString) : Path := { domain := lit "x", group := lit "g", title := title }

/-- `PutTrack` of the path ("x", "g", title) with the single keyword `kw` and the
file document of the title. -/
def putFile (m : MemDir) (title kw : GoString) : Option MemDir :=
  m.PutTrack (pathOf title) [kw] (some (fileDoc (lit "g") title))

/-- The index after `PutTrack` of "a" and of "b", from the empty index. -/
def twoPuts : Option MemDir :=
  (putFile MemDir.empty (lit "a") (lit "ka")).bind (fun m => putFile m (lit "b") (lit "kb"))

/-- The index after `PutTrack` of "a" and of "b", `DelTrack` of "b", `PutTrack`
of "a" again and `PutTrack` of "c", from the empty index. -/
def reusedSlot : Option MemDir :=
  ((twoPuts.map (fun m => m.DelTrack (pathOf (lit "b")))).bind
    (fun m => putFile m (lit "a") (lit "ka"))).bind (fun m => putFile m (lit "c") (lit "kc"))

end ftse

/-! ## Package `ftse`: the states of the in-memory index reachable from the empty one -/

namespace ftse

/-- A call on a `MemDir`. -/
inductive MemOp where
  | PutTrack (path : Path) (keys : List GoString) (doc : Option bson.Document)
  | DelTrack (path : Path)
  | DelAll (domain : GoString)

/-- The index after a call; none where the call panics. -/
def MemDir.apply (m : MemDir) : MemOp → Option MemDir
  | .PutTrack path keys doc => m.PutTrack path keys doc
  | .DelTrack path => some (m.DelTrack path)
  | .DelAll domain => some (m.DelAll domain)

/-- The index after a sequence of calls. -/
def MemDir.run (m : MemDir) : List MemOp → Option MemDir
  | [] => some m
  | op :: rest => (m.apply op).bind (fun m1 => MemDir.run m1 rest)

/-- The slots `Lookup` iterates over: the intersection of the bitmaps of the
keys (no slot when a key has no bitmap). -/
def MemDir.matching (m : MemDir) (keys : List GoString) : Bitmap :=
  match MemDir.Lookup.bitmaps m.i keys with
  | none => []
  | some imb => FastAnd imb

/-- The slices `s`, `p` and `b` have one length, and every slot registered in
`f` or held in the free set is below it. -/
def MemDir.Aligned (m : MemDir) : Prop :=
  m.s.length = m.p.length ∧ m.p.length = m.b.length ∧
    (∀ kv ∈ m.f, kv.2 < m.s.length) ∧ (∀ j ∈ m.z.getD [], j < m.s.length)

end ftse

/-! ## Package `p2p`: code points in cleaned file names -/

namespace ftse

/-- A code point that UTF-8 encodes: a Unicode scalar value (up to U+10FFFF and
not a surrogate). -/
def IsScalar (r : Nat) : Prop := r < 0xD800 ∨ (0xE000 ≤ r ∧ r ≤ 0x10FFFF)

/-- The characters of a string, as `for _, r := range s` and `strings.Map` read
them: a byte that starts no valid UTF-8 sequence is read as U+FFFD. -/
def runes (s : GoString) : List Nat := (decodeRunes s.length s).map (fun rb => rb.1)

end ftse



/-! ## The group of P-256

The points of the curve as Mathlib has them, with their group law; the proofs
about `P256.ScalarMult` relate the pairs of the model to these points. -/

namespace P256

/-- The curve as a Weierstrass curve over the integers modulo `p`:
y² = x³ - 3x + b. -/
def W : WeierstrassCurve.Affine (ZMod p) :=
  { a₁ := 0, a₂ := 0, a₃ := 0, a₄ := -3, a₆ := (b : ZMod p) }

/-- The pair `P` of the model stands for the point `Q` of the curve: (0, 0) for
the point at infinity, otherwise reduced coordinates of a point on the curve. -/
def Rep (P : Nat × Nat) (Q : W.Point) : Prop :=
  (P = (0, 0) ∧ Q = 0) ∨
  (P.1 < p ∧ P.2 < p ∧
    ∃ h : W.Nonsingular (P.1 : ZMod p) (P.2 : ZMod p), Q = WeierstrassCurve.Affine.Point.some h)

/-- The number a big-endian scalar stands for, bit by bit as `ScalarMult` reads it. -/
def scalarOf (k : Bytes) : Nat :=
  (k.flatMap bitsOfByte).foldl (fun n bit => 2 * n + (if bit then 1 else 0)) 0

end P256

namespace proto

/-- The libraries with the curve P-256 and `Sum256` as `sha256.Sum256`, which is
not part of the repository and is a parameter. -/
def p256With (Sum256 : Bytes → Bytes) : Crypto := { curve := P256.curve, Sum256 := Sum256 }

end proto

/-! ## Theorems -/

set_option maxRecDepth 100000

namespace proto

theorem readi32_append (hd : Bytes) (rest : Bytes) (n : Int) (tl : Bytes)
    (h : bson.readi32 hd = some (n, tl)) :
    bson.readi32 (hd ++ rest) = some (n, tl ++ rest) := by
  match hd, h with
  | b0 :: b1 :: b2 :: b3 :: t, h =>
    simp only [bson.readi32, Option.some.injEq, Prod.mk.injEq] at h
    simp only [List.cons_append, bson.readi32, Option.some.injEq, Prod.mk.injEq]
    exact ⟨h.1, by rw [h.2]⟩

theorem wellFormed_length (d : Bytes) (h : bson.WellFormed d) : 4 ≤ d.length := by
  obtain ⟨rest, hr⟩ := h
  match d, hr with
  | b0 :: b1 :: b2 :: b3 :: t, _ => simp

theorem readDocument_wellFormed (d : Bytes) (h : bson.WellFormed d) :
    bson.ReadDocument d = some (d, []) := by
  obtain ⟨rest, hr⟩ := h
  have h0 : ¬ ((d.length : Int) < 0) := by omega
  simp [bson.ReadDocument, bson.ReadLength, hr, h0]

theorem ReadDocument_of_wellFormed (c : Conn) (d rest : Bytes) (h : bson.WellFormed d)
    (hc : c.conn.rd = d ++ rest) :
    c.ReadDocument =
      (some d, none, { conn := { c.conn with rd := rest }, arena := c.arena.Alloc }) := by
  obtain ⟨tl, hr⟩ := h
  match d, hr with
  | b0 :: b1 :: b2 :: b3 :: t, hr =>
    have hlen : (4 : Nat) ≤ c.conn.rd.length := by rw [hc]; simp
    have htake : c.conn.rd.take 4 = [b0, b1, b2, b3] := by rw [hc]; simp
    have hdrop : c.conn.rd.drop 4 = t ++ rest := by rw [hc]; simp
    have hL : ((b0 :: b1 :: b2 :: b3 :: t).length : Int) = ((t.length + 4 : Nat) : Int) := rfl
    rw [hL] at hr
    have hr4 : bson.readi32 [b0, b1, b2, b3] = some (((t.length + 4 : Nat) : Int), []) := by
      simp only [bson.readi32, Option.some.injEq, Prod.mk.injEq] at hr ⊢
      exact ⟨hr.1, trivial⟩
    have hlt : ¬ (((t.length + 4 : Nat) : Int) < 4) := by omega
    have hn : ((t.length + 4 : Nat) : Int).toNat - 4 = t.length := by
      rw [Int.toNat_ofNat]; omega
    have hle : t.length ≤ (t ++ rest).length := by simp
    simp only [Conn.ReadDocument, NewDocumentFromReader2, ReadFull, hlen, if_true, htake, hr4,
      hdrop, if_neg hlt, hn, hle]
    simp

theorem WriteDocument_of_wellFormed (a : Conn) (d : Bytes) (h : bson.WellFormed d) :
    a.WriteDocument d = (a.conn.werr, { a with conn := { a.conn with writes := a.conn.writes ++ [d] } }) := by
  simp [Conn.WriteDocument, readDocument_wellFormed d h, RWC.Write]

/-- C1: for well-formed document buffers (the 4-byte little-endian length prefix
equals the buffer length), `WriteDocument(d1)` on a healthy stream returns no error
and `ReadDocument` on the other end returns, with no error, exactly the bytes of
`d1`; and two documents written back to back are read back as the same two
documents in the same order. -/
theorem C1_write_read_roundtrip (a : Conn) (d1 d2 : Bytes)
    (h1 : bson.WellFormed d1) (h2 : bson.WellFormed d2)
    (hw : a.conn.writes = []) (he : a.conn.werr = none) :
    (a.WriteDocument d1).1 = none ∧
    (otherEnd (a.WriteDocument d1).2).ReadDocument.1 = some d1 ∧
    (otherEnd (a.WriteDocument d1).2).ReadDocument.2.1 = none ∧
    ((a.WriteDocument d1).2.WriteDocument d2).1 = none ∧
    (otherEnd ((a.WriteDocument d1).2.WriteDocument d2).2).ReadDocument.1 = some d1 ∧
    (otherEnd ((a.WriteDocument d1).2.WriteDocument d2).2).ReadDocument.2.1 = none ∧
    (otherEnd ((a.WriteDocument d1).2.WriteDocument d2).2).ReadDocument.2.2.ReadDocument.1
      = some d2 ∧
    (otherEnd ((a.WriteDocument d1).2.WriteDocument d2).2).ReadDocument.2.2.ReadDocument.2.1
      = none := by
  have w1 := WriteDocument_of_wellFormed a d1 h1
  have w2 := WriteDocument_of_wellFormed (a.WriteDocument d1).2 d2 h2
  have e1 : (otherEnd (a.WriteDocument d1).2).conn.rd = d1 ++ [] := by
    rw [w1]; simp [otherEnd, NewConn, hw]
  have e2 : (otherEnd ((a.WriteDocument d1).2.WriteDocument d2).2).conn.rd = d1 ++ d2 := by
    rw [w2, w1]; simp [otherEnd, NewConn, hw]
  have r1 := ReadDocument_of_wellFormed _ d1 [] h1 e1
  have r2 := ReadDocument_of_wellFormed _ d1 d2 h1 e2
  have e3 : (otherEnd ((a.WriteDocument d1).2.WriteDocument d2).2).ReadDocument.2.2.conn.rd
      = d2 ++ [] := by rw [r2]; simp
  have r3 := ReadDocument_of_wellFormed _ d2 [] h2 e3
  refine ⟨by rw [w1]; exact he, by rw [r1], by rw [r1], ?_, by rw [r2], by rw [r2],
    by rw [r3], by rw [r3]⟩
  rw [w2, w1]; exact he

/-- C1 at a concrete input: the empty document and a 6-byte buffer whose
prefix is 6. -/
theorem C1_write_read_roundtrip_witness :
    (freshConn.WriteDocument [5, 0, 0, 0, 0]).1 = none ∧
    (otherEnd (freshConn.WriteDocument [5, 0, 0, 0, 0]).2).ReadDocument.1
      = some [5, 0, 0, 0, 0] ∧
    (otherEnd (freshConn.WriteDocument [5, 0, 0, 0, 0]).2).ReadDocument.2.1 = none ∧
    ((freshConn.WriteDocument [5, 0, 0, 0, 0]).2.WriteDocument [6, 0, 0, 0, 7, 0]).1 = none ∧
    (otherEnd ((freshConn.WriteDocument [5, 0, 0, 0, 0]).2.WriteDocument
      [6, 0, 0, 0, 7, 0]).2).ReadDocument.1 = some [5, 0, 0, 0, 0] ∧
    (otherEnd ((freshConn.WriteDocument [5, 0, 0, 0, 0]).2.WriteDocument
      [6, 0, 0, 0, 7, 0]).2).ReadDocument.2.1 = none ∧
    (otherEnd ((freshConn.WriteDocument [5, 0, 0, 0, 0]).2.WriteDocument
      [6, 0, 0, 0, 7, 0]).2).ReadDocument.2.2.ReadDocument.1 = some [6, 0, 0, 0, 7, 0] ∧
    (otherEnd ((freshConn.WriteDocument [5, 0, 0, 0, 0]).2.WriteDocument
      [6, 0, 0, 0, 7, 0]).2).ReadDocument.2.2.ReadDocument.2.1 = none :=
  C1_write_read_roundtrip freshConn [5, 0, 0, 0, 0] [6, 0, 0, 0, 7, 0]
    (by decide) (by decide) rfl rfl

end proto


namespace proto

theorem bdup_eq (b : Bytes) : bdup b = b := by
  cases b <;> simp [bdup]

theorem Step1_sk_of_none (E : Crypto) (sa : ServerAuth) (d : Option bson.Document)
    (h : (sa.Step1 E d).1 = none) : (sa.Step1 E d).2.sk = sa.sk := by
  unfold ServerAuth.Step1 at h ⊢
  split
  · rfl
  · rename_i pub pri rand1 hg
    simp only [hg] at h
    dsimp only at h ⊢
    by_cases hb : (!((bson.Lookup d (lit "login")).BinaryOK.2.2 &&
        (bson.Lookup d (lit "domain")).StringValueOK.2)) = true
    · rw [if_pos hb]
    · rw [if_neg hb] at h ⊢
      cases hs : Handshake E.curve (bdup (bson.Lookup d (lit "login")).BinaryOK.2.1) pri with
      | none => rfl
      | some sk => rw [hs] at h; simp at h

theorem Step1s_sk_of_all_none (E : Crypto) (ds : List (Option bson.Document))
    (sa : ServerAuth) (h : ∀ r ∈ (sa.Step1s E ds).1, r = none) :
    (sa.Step1s E ds).2.sk = sa.sk := by
  induction ds generalizing sa with
  | nil => rfl
  | cons d ds ih =>
    simp only [ServerAuth.Step1s, List.mem_cons, forall_eq_or_imp] at h ⊢
    rw [ih _ h.2, Step1_sk_of_none E sa d h.1]

theorem Step2_iff (sa : ServerAuth) (doc : Option bson.Document) :
    sa.Step2 doc = true ↔
      sa.sk ≠ [] ∧ ∃ t, bson.Lookup doc (lit "sha2") = bson.Value.binary t sa.sk := by
  unfold ServerAuth.Step2
  simp only [Bool.and_eq_true, decide_eq_true_eq, gt_iff_lt, List.length_pos]
  constructor
  · rintro ⟨h1, h2⟩
    refine ⟨h1, ?_⟩
    cases hv : bson.Lookup doc (lit "sha2") <;>
      simp only [hv, bson.Value.BinaryOK] at h2 <;>
      first
        | exact absurd h2 h1
        | exact ⟨_, by rw [h2]⟩
  · rintro ⟨h1, t, ht⟩
    exact ⟨h1, by simp [ht, bson.Value.BinaryOK]⟩

/-- C4: `ServerAuth.Step2(doc)` is true exactly when the stored session key `sk`
is non-empty and the first "sha2" element of `doc` is a binary equal to `sk`
byte for byte; a failing `Step1` leaves `sk` as it was, so on a `ServerAuth` on
which no `Step1` has succeeded (whatever documents were tried) `Step2` is false
for every document, with or without a "sha2" element. -/
theorem C4_Step2_accepts_iff (E : Crypto) (sa : ServerAuth) (doc d0 : Option bson.Document)
    (rand : Bytes) (ds : List (Option bson.Document)) :
    (sa.Step2 doc = true ↔
      sa.sk ≠ [] ∧ ∃ t, bson.Lookup doc (lit "sha2") = bson.Value.binary t sa.sk) ∧
    ((sa.Step1 E d0).1 = none → (sa.Step1 E d0).2.sk = sa.sk) ∧
    ((∀ r ∈ ((newServerAuth rand).Step1s E ds).1, r = none) →
      ((newServerAuth rand).Step1s E ds).2.Step2 doc = false) := by
  refine ⟨Step2_iff sa doc, Step1_sk_of_none E sa d0, fun h => ?_⟩
  have hsk := Step1s_sk_of_all_none E ds (newServerAuth rand) h
  cases hb : ((newServerAuth rand).Step1s E ds).2.Step2 doc
  · rfl
  · rw [Step2_iff] at hb
    exact absurd (hsk.trans rfl) hb.1

end proto

namespace proto

theorem GenKeyPair_of_length (c : Curve) (rand : Bytes) (h : 32 ≤ rand.length) :
    GenKeyPair c rand =
      ((c.Marshal (c.ScalarBaseMult (rand.take 32)), rand.take 32, none), rand.drop 32) := by
  simp [GenKeyPair, h, Nat.sub_eq_zero_of_le h]

theorem Handshake_of_valid (E : Crypto) (hE : E.Sound) (a b : Bytes)
    (va : (E.curve.Unmarshal (E.curve.Marshal (E.curve.ScalarBaseMult a))).isSome = true) :
    Handshake E.curve (E.curve.Marshal (E.curve.ScalarBaseMult a)) b
      = some (E.curve.Marshal (E.curve.ScalarMult (E.curve.ScalarBaseMult a) b)) := by
  unfold Handshake
  cases hu : E.curve.Unmarshal (E.curve.Marshal (E.curve.ScalarBaseMult a)) with
  | none => rw [hu] at va; exact absurd va (by simp)
  | some Q => rw [hE.decode a Q hu]

theorem lookup_login (kp : KeyPair) :
    bson.Lookup (some kp.Step1) (lit "login") = bson.Value.binary 99 kp.Pub := rfl

theorem lookup_domain (kp : KeyPair) :
    bson.Lookup (some kp.Step1) (lit "domain") = bson.Value.string kp.Domain := rfl

theorem lookup_chal (pub : Bytes) :
    bson.Lookup (some (bson.NewDocumentBuilder.AppendBinary (lit "chal") 99 pub).Build)
      (lit "chal") = bson.Value.binary 99 pub := rfl

theorem lookup_sha2 (sk : Bytes) :
    bson.Lookup (some (bson.NewDocumentBuilder.AppendBinary (lit "sha2") 115 sk).Build)
      (lit "sha2") = bson.Value.binary 115 sk := rfl

/-- The handshake agrees on every curve and digest that satisfy `Crypto.Sound`:
for two key pairs produced by `GenKeyPair` whose public keys are valid encoded
points both sides compute one shared value, and the digest the client's `Step2`
sends is the session key the server's `Step1` stored. -/
theorem handshake_agreement_of_sound (E : Crypto) (hE : E.Sound) (randA randB : Bytes)
    (dom : GoString) (hA : 32 ≤ randA.length) (hB : 32 ≤ randB.length)
    (vA : (E.curve.Unmarshal (GenKeyPair E.curve randA).1.1).isSome = true)
    (vB : (E.curve.Unmarshal (GenKeyPair E.curve randB).1.1).isSome = true) :
    Handshake E.curve (GenKeyPair E.curve randA).1.1 (GenKeyPair E.curve randB).1.2.1
      = Handshake E.curve (GenKeyPair E.curve randB).1.1 (GenKeyPair E.curve randA).1.2.1 ∧
    ∃ shared chal reply sa1,
      Handshake E.curve (GenKeyPair E.curve randA).1.1 (GenKeyPair E.curve randB).1.2.1
        = some shared ∧
      (newServerAuth randB).Step1 E (some (KeyPair.generate E.curve randA dom).Step1)
        = (some chal, sa1) ∧
      sa1.sk = dohash E shared ∧
      (KeyPair.generate E.curve randA dom).Step2 E (some chal) = some reply ∧
      bson.Lookup (some reply) (lit "sha2") = bson.Value.binary 115 sa1.sk ∧
      sa1.Step2 (some reply) = true := by
  unfold KeyPair.generate
  rw [GenKeyPair_of_length _ _ hA] at vA ⊢
  rw [GenKeyPair_of_length _ _ hB] at vB ⊢
  simp only at vA vB ⊢
  have h1 := Handshake_of_valid E hE (randA.take 32) (randB.take 32) vA
  have h2 := Handshake_of_valid E hE (randB.take 32) (randA.take 32) vB
  have hc := hE.comm (randA.take 32) (randB.take 32) vA vB
  refine ⟨by rw [h1, h2, hc], _,
    (bson.NewDocumentBuilder.AppendBinary (lit "chal") 99
      (E.curve.Marshal (E.curve.ScalarBaseMult (randB.take 32)))).Build,
    (bson.NewDocumentBuilder.AppendBinary (lit "sha2") 115 (dohash E (E.curve.Marshal
      (E.curve.ScalarMult (E.curve.ScalarBaseMult (randA.take 32)) (randB.take 32))))).Build,
    { Rand := randB.drop 32, Pub := E.curve.Marshal (E.curve.ScalarBaseMult (randA.take 32)),
      Domain := dom, sk := dohash E (E.curve.Marshal
        (E.curve.ScalarMult (E.curve.ScalarBaseMult (randA.take 32)) (randB.take 32))) },
    h1, ?_, rfl, ?_, lookup_sha2 _, ?_⟩
  · unfold ServerAuth.Step1
    rw [show (newServerAuth randB).Rand = randB from rfl, GenKeyPair_of_length _ _ hB]
    simp only [lookup_login, lookup_domain, bson.Value.BinaryOK, bson.Value.StringValueOK,
      bdup_eq, Bool.and_self, Bool.not_true, Bool.false_eq_true, if_false, h1]
  · unfold KeyPair.Step2
    simp only [lookup_chal, bson.Value.BinaryOK, h2, hc]
  · rw [Step2_iff]
    refine ⟨?_, 115, lookup_sha2 _⟩
    intro h0
    have := hE.digest (E.curve.Marshal
      (E.curve.ScalarMult (E.curve.ScalarBaseMult (randA.take 32)) (randB.take 32)))
    simp only [dohash] at h0
    rw [h0] at this
    simp at this

theorem toyCrypto_sound : toyCrypto.Sound where
  decode := by
    intro k Q h
    simp only [toyCrypto] at h ⊢
    split at h
    · exact ((Option.some.inj h).symm)
    · exact Option.noConfusion h
  comm := by
    intro a b _ _
    simp only [toyCrypto, Nat.mod_mul_mod, Prod.mk.injEq, and_true]
    rw [Nat.mul_comm]
  digest := by
    intro x
    simp [toyCrypto]

/-- C5 as stated fails on P-256 for a degenerate key: `GenKeyPair` reading 32 zero
bytes returns, without error, the pair A whose public key encodes the point at
infinity; with B the pair of the scalar 1, `Handshake(pubA, priB)` is nil while
`Handshake(pubB, priA)` is a 65-byte encoding, so the two sides disagree. -/
theorem C5_degenerate_key_counterexample :
    (GenKeyPair P256.curve (List.replicate 32 0)).1.2.2 = none ∧
    (GenKeyPair P256.curve (List.replicate 31 0 ++ [1])).1.2.2 = none ∧
    Handshake P256.curve (GenKeyPair P256.curve (List.replicate 32 0)).1.1
        (GenKeyPair P256.curve (List.replicate 31 0 ++ [1])).1.2.1 = none ∧
    Handshake P256.curve (GenKeyPair P256.curve (List.replicate 31 0 ++ [1])).1.1
        (GenKeyPair P256.curve (List.replicate 32 0)).1.2.1
      = some (4 :: List.replicate 64 0) := by
  decide!

end proto

namespace p2p

theorem BadFileName_loop_iff (os : GOOS) (s : GoString) :
    BadFileName.loop os s = true ↔ ∃ b ∈ s, b = 47 ∨ b = 92 ∨ b = Separator os := by
  induction s with
  | nil => simp [BadFileName.loop]
  | cons b rest ih =>
    unfold BadFileName.loop
    by_cases h1 : b = Separator os
    · simp [h1]
    · by_cases h2 : b = 92 ∨ b = 47
      · rw [if_neg h1, if_pos h2]
        simp only [List.mem_cons, exists_eq_or_imp, true_iff]
        rcases h2 with h | h
        · exact Or.inl (Or.inr (Or.inl h))
        · exact Or.inl (Or.inl h)
      · rw [if_neg h1, if_neg h2, ih]
        simp only [List.mem_cons, exists_eq_or_imp]
        constructor
        · exact fun h => Or.inr h
        · rintro (h | h)
          · rcases h with h | h | h
            · exact absurd (Or.inr h) h2
            · exact absurd (Or.inl h) h2
            · exact absurd h h1
          · exact h

/-- C9: `BadFileName(s)` is true exactly when `s` contains a byte equal to `/`,
`\` or the operating system's path separator, or `s` is exactly "."; every
other name is accepted, the empty name and ".." among them. -/
theorem C9_BadFileName_iff (os : GOOS) (s : GoString) :
    (BadFileName os s = true ↔
      (∃ b ∈ s, b = 47 ∨ b = 92 ∨ b = Separator os) ∨ s = lit ".") ∧
    BadFileName os [] = false ∧
    BadFileName os (lit "..") = false := by
  refine ⟨?_, by cases os <;> decide, by cases os <;> decide⟩
  unfold BadFileName
  by_cases h : BadFileName.loop os s = true
  · simp only [h, if_true, true_iff]
    exact Or.inl ((BadFileName_loop_iff os s).1 h)
  · rw [if_neg h]
    rw [BadFileName_loop_iff] at h
    by_cases h2 : s = lit "."
    · simp [h2]
    · simp only [if_neg h2, Bool.false_eq_true, false_iff, not_or]
      exact ⟨h, h2⟩

theorem serveReq_getfile (E : proto.Crypto) (s : Server) (c : connServer)
    (msg : bson.Document) (rest : List bson.Document) (e0 : bson.Element)
    (tl : List bson.Element) (hin : c.pc.inbox = msg :: rest) (hel : msg.elems = e0 :: tl)
    (hk : e0.1 = lit "getfile") :
    c.serveReq E s = connServer.getfile s
      { c with pc := { c.pc with inbox := rest, arena := c.pc.arena.Alloc.Free } }
      (e0 :: tl) msg.err := by
  have h1 : ¬ (e0.1 = lit "hs.s1") := by rw [hk]; decide
  have h2 : ¬ (e0.1 = lit "hs.s2") := by rw [hk]; decide
  unfold connServer.serveReq
  simp only [proto.DocConn.ReadDocument, hin, bson.Elements, bson.Document.Elements, hel,
    if_neg h1, if_neg h2, if_pos hk, proto.DocConn.Free]

/-- C7 (as amended): for a `getfile` request handled by `serveReq` while the
download queue holds 8 elements, `FileSystem.Open` is called once; when it fails
the server enqueues the `putfile` reply 404 with the error text; when it
succeeds the file is closed again and the server enqueues the `putfile` reply
204 "queue ran full"; either way the download queue is left unchanged and
`serveReq` returns nil. -/
theorem C7_getfile_queue_full (E : proto.Crypto) (s : Server) (c : connServer)
    (msg : bson.Document) (rest : List bson.Document) (e0 e1 : bson.Element)
    (tl : List bson.Element) (hin : c.pc.inbox = msg :: rest)
    (hel : msg.elems = e0 :: e1 :: tl) (hk : e0.1 = lit "getfile")
    (hq : c.downl.length = 8) :
    (∀ e, (s.FS (e0.2.StringValueOK.1, e1.2.StringValueOK.1)).2 = some e →
      ∃ c1, c.serveReq E s = some (none, c1) ∧
        c1.fslog = c.fslog ++ [.Open (e0.2.StringValueOK.1, e1.2.StringValueOK.1)] ∧
        c1.outhi = c.outhi ++ [pack [(lit "putfile", .int 404), (lit "txt", .string e.Error)]] ∧
        c1.downl = c.downl) ∧
    (∀ f, s.FS (e0.2.StringValueOK.1, e1.2.StringValueOK.1) = (some f, none) →
      ∃ c1, c.serveReq E s = some (none, c1) ∧
        c1.fslog = c.fslog ++ [.Open (e0.2.StringValueOK.1, e1.2.StringValueOK.1), .Close f] ∧
        c1.outhi = c.outhi ++
          [pack [(lit "putfile", .int 204), (lit "txt", .string (lit "queue ran full"))]] ∧
        c1.downl = c.downl) := by
  rw [serveReq_getfile E s c msg rest e0 (e1 :: tl) hin hel hk]
  have hlen : ¬ ((e0 :: e1 :: tl).length < 2) := by simp
  constructor
  · intro e he
    refine ⟨{ c with
      pc := { c.pc with inbox := rest, arena := c.pc.arena.Alloc.Free }
      fslog := c.fslog ++ [.Open (e0.2.StringValueOK.1, e1.2.StringValueOK.1)]
      outhi := c.outhi ++ [pack [(lit "putfile", .int 404), (lit "txt", .string e.Error)]] },
      ?_, rfl, rfl, rfl⟩
    simp [connServer.getfile, he]
  · intro f hf
    refine ⟨{ c with
      pc := { c.pc with inbox := rest, arena := c.pc.arena.Alloc.Free }
      fslog := c.fslog ++ [.Open (e0.2.StringValueOK.1, e1.2.StringValueOK.1), .Close f]
      outhi := c.outhi ++
        [pack [(lit "putfile", .int 204), (lit "txt", .string (lit "queue ran full"))]] },
      ?_, rfl, rfl, rfl⟩
    simp [connServer.getfile, hf, hq, downlCap]

/-- C7 on a concrete state: 8 queued transfers, the request for "a.txt" of the
directory "share"; the file opens, so it is closed again and 204 is enqueued. -/
theorem C7_getfile_queue_full_witness :
    ∃ c1, fullQueueConn.serveReq proto.toyCrypto exampleServer = some (none, c1) ∧
      c1.fslog = fullQueueConn.fslog ++ [.Open (lit "share", lit "a.txt"),
        .Close { name := lit "share/a.txt", reads := [] }] ∧
      c1.outhi = fullQueueConn.outhi ++
        [pack [(lit "putfile", .int 204), (lit "txt", .string (lit "queue ran full"))]] ∧
      c1.downl = fullQueueConn.downl :=
  (C7_getfile_queue_full proto.toyCrypto exampleServer fullQueueConn
    (getfileRequest (lit "share", lit "a.txt")) []
    (lit "getfile", .string (lit "share")) (lit "f", .string (lit "a.txt")) []
    rfl rfl rfl (by decide)).2 { name := lit "share/a.txt", reads := [] } (by decide)

/-- C7 as stated fails: with 8 transfers queued, the request is answered with
204, and `FileSystem.Open` was called on the requested path all the same (the
file is opened, then closed). -/
theorem C7_file_is_opened_counterexample :
    fullQueueConn.downl.length = 8 ∧
    (fullQueueConn.serveReq proto.toyCrypto exampleServer).map (fun r => r.2.outhi)
      = some [pack [(lit "putfile", .int 204), (lit "txt", .string (lit "queue ran full"))]] ∧
    (fullQueueConn.serveReq proto.toyCrypto exampleServer).map (fun r => r.2.fslog)
      = some [.Open (lit "share", lit "a.txt"),
          .Close { name := lit "share/a.txt", reads := [] }] := by
  decide

theorem BadFileName_of_slash (os : GOOS) (s : GoString) (h : 47 ∈ s) :
    BadFileName os s = true := by
  have hl : BadFileName.loop os s = true :=
    (BadFileName_loop_iff os s).2 ⟨47, h, Or.inl rfl⟩
  simp [BadFileName, hl]

theorem DirColl_loop_of_slash (env : OSEnv) (p : Path) (h : 47 ∈ p.2) (dd : GoString)
    (rest : List GoString) (acc : OpenResult) :
    DirColl.Open.loop env p (dd :: rest) acc
      = { r := none, e := some .ENoFile, opened := acc.opened } := by
  simp [DirColl.Open.loop, Dir.Open, BadFileName_of_slash env.os p.2 h]

theorem serveReq_getfileRequest (E : proto.Crypto) (s : Server) (c : connServer) (p : Path)
    (rest : List bson.Document) (hin : c.pc.inbox = getfileRequest p :: rest) :
    c.serveReq E s = connServer.getfile s
      { c with pc := { c.pc with inbox := rest, arena := c.pc.arena.Alloc.Free } }
      [(lit "getfile", .string p.1), (lit "f", .string p.2)] none :=
  serveReq_getfile E s c (getfileRequest p) rest (lit "getfile", .string p.1)
    [(lit "f", .string p.2)] hin rfl rfl

/-- C8: for a path whose file name contains `/`, `Dir.Open`, `DirMap.Open` and
`DirColl.Open` on a non-empty collection open no file and return `ENoFile`, and
the peer server then answers the `getfile` request with `putfile` 404. On an
empty `DirColl` the loop body never runs: `Open` returns a nil reader with a nil
error for every path, and the server answers the request for such a name with
`putfile` 200, queueing a nil reader. -/
theorem C8_bad_filename_Open (E : proto.Crypto) (env : OSEnv) (d : GoString)
    (ds : List GoString) (dm : List (GoString × GoString)) (p : Path)
    (s : Server) (c : connServer) (rest : List bson.Document) :
    (47 ∈ p.2 → Dir.Open env d p = { r := none, e := some .ENoFile, opened := [] }) ∧
    (47 ∈ p.2 → DirMap.Open env dm p = { r := none, e := some .ENoFile, opened := [] }) ∧
    (47 ∈ p.2 → ds ≠ [] →
      DirColl.Open env ds p = { r := none, e := some .ENoFile, opened := [] }) ∧
    (c.pc.inbox = getfileRequest p :: rest → (s.FS p).2 = some .ENoFile →
      ∃ c1, c.serveReq E s = some (none, c1) ∧ c1.downl = c.downl ∧
        c1.outhi = c.outhi ++
          [pack [(lit "putfile", .int 404), (lit "txt", .string (lit "p2p: File not Found"))]]) ∧
    DirColl.Open env [] p = { r := none, e := none, opened := [] } ∧
    (c.pc.inbox = getfileRequest p :: rest → c.downl.length < 8 →
      ∃ c1, c.serveReq E { s with FS := FileSystem.ofDirColl env [] } = some (none, c1) ∧
        c1.downl = c.downl ++ [{ fobj := none, path := p }] ∧
        c1.outhi = c.outhi ++ [pack [(lit "putfile", .int 200), (lit "d", .string p.1),
          (lit "f", .string p.2)]]) := by
  refine ⟨?_, ?_, ?_, ?_, rfl, ?_⟩
  · intro h
    simp [Dir.Open, BadFileName_of_slash env.os p.2 h]
  · intro h
    simp [DirMap.Open, BadFileName_of_slash env.os p.2 h]
  · intro h hne
    cases ds with
    | nil => exact absurd rfl hne
    | cons dd rest => exact DirColl_loop_of_slash env p h dd rest _
  · intro hin he
    rw [serveReq_getfileRequest E s c p rest hin]
    refine ⟨{ c with
      pc := { c.pc with inbox := rest, arena := c.pc.arena.Alloc.Free }
      fslog := c.fslog ++ [.Open p]
      outhi := c.outhi ++
        [pack [(lit "putfile", .int 404), (lit "txt", .string (lit "p2p: File not Found"))]] },
      ?_, rfl, rfl⟩
    simp [connServer.getfile, bson.Value.StringValueOK, he, GoError.Error]
  · intro hin hq
    rw [serveReq_getfileRequest E _ c p rest hin]
    refine ⟨{ c with
      pc := { c.pc with inbox := rest, arena := c.pc.arena.Alloc.Free }
      fslog := c.fslog ++ [.Open p]
      downl := c.downl ++ [{ fobj := none, path := p }]
      outhi := c.outhi ++ [pack [(lit "putfile", .int 200), (lit "d", .string p.1),
          (lit "f", .string p.2)]] }, ?_, rfl, rfl⟩
    simp [connServer.getfile, bson.Value.StringValueOK, FileSystem.ofDirColl, DirColl.Open,
      DirColl.Open.loop, downlCap, hq]

theorem Int32OK_ne_200 (v : bson.Value) : v.Int32OK.1 ≠ 200 ↔ v ≠ .int32 200 := by
  cases v <;> simp [bson.Value.Int32OK]

theorem GetFile_reply (c : Client) (tok : Token) (path : Path) (pickClose : Bool)
    (msg : bson.Document) (rest : List bson.Document)
    (hw : c.pc.werr = none) (hq : c.appmsg = msg :: rest)
    (hp : (c.aliveClosed && pickClose) = false) :
    c.GetFile tok path pickClose =
      (let c4 : Client :=
        { c with
          toks := c.toks.Put path tok
          appmsg := rest
          pc := { c.pc with
            sent := c.pc.sent ++ [pack [(lit "getfile", .string path.1),
              (lit "f", .string path.2)]]
            arena := c.pc.arena.Free } }
      match msg.err with
      | some err => some (none, some err, c4)
      | none =>
        if msg.elems.length < 2 then some (none, some .EProtocolError, c4)
        else if ((msg.elems.get? 0).getD ([], .zero)).2.Int32OK.1 ≠ 200 then
          some (some (.errorf ((msg.elems.get? 1).getD ([], .zero)).2.StringValueOK.1), none, c4)
        else some (none, none, c4)) := by
  unfold Client.GetFile
  simp only [proto.DocConn.WriteDocument, hw, Client.readMessage, hq, hp, Bool.false_eq_true,
    if_false, bson.Elements, bson.Document.Elements, proto.DocConn.Free]
  cases he : msg.err <;> simp

/-- C10 (as amended): for every reply document read by `Client.GetFile`: when
its element iteration fails, `GetFile` returns that error and a nil `dataerr`;
when it iterates cleanly and has fewer than two elements, `err` is
`EProtocolError`; otherwise `err` is nil, `dataerr` is nil exactly when the first
element is the int32 200, and when it is not, `dataerr` is an error whose message
is the string value of the second element. -/
theorem C10_GetFile_reply (c : Client) (tok : Token) (path : Path) (pickClose : Bool)
    (msg : bson.Document) (rest : List bson.Document)
    (hw : c.pc.werr = none) (hq : c.appmsg = msg :: rest)
    (hp : (c.aliveClosed && pickClose) = false) :
    ∃ dataerr err c1, c.GetFile tok path pickClose = some (dataerr, err, c1) ∧
      (∀ e, msg.err = some e → err = some e ∧ dataerr = none) ∧
      (msg.err = none → msg.elems.length < 2 → err = some .EProtocolError ∧ dataerr = none) ∧
      (∀ e0 e1 tl, msg.err = none → msg.elems = e0 :: e1 :: tl →
        err = none ∧ (dataerr = none ↔ e0.2 = .int32 200) ∧
        (e0.2 ≠ .int32 200 →
          ∃ de, dataerr = some de ∧ de.Error = e1.2.StringValueOK.1)) := by
  rw [GetFile_reply c tok path pickClose msg rest hw hq hp]
  cases he : msg.err with
  | some e =>
    refine ⟨_, _, _, rfl, ?_, ?_, ?_⟩
    · intro e' h; cases h; exact ⟨rfl, rfl⟩
    · intro h; cases h
    · intro _ _ _ h; cases h
  | none =>
    by_cases hl : msg.elems.length < 2
    · simp only [if_pos hl]
      refine ⟨_, _, _, rfl, ?_, ?_, ?_⟩
      · intro e' h; cases h
      · intro _ _; exact ⟨rfl, rfl⟩
      · intro e0 e1 tl _ hel
        rw [hel] at hl
        exact absurd hl (by simp)
    · simp only [if_neg hl]
      by_cases hc : ((msg.elems.get? 0).getD ([], .zero)).2.Int32OK.1 ≠ 200
      · simp only [if_pos hc]
        refine ⟨_, _, _, rfl, ?_, ?_, ?_⟩
        · intro e' h; cases h
        · intro _ h; exact absurd h hl
        · intro e0 e1 tl _ hel
          rw [hel] at hc
          simp only [List.get?_cons_zero, Option.getD_some] at hc
          have hne := (Int32OK_ne_200 e0.2).1 hc
          refine ⟨rfl, ?_, ?_⟩
          · constructor
            · intro h; cases h
            · intro h; exact absurd h hne
          · intro _
            exact ⟨_, rfl, by simp [hel, GoError.Error]⟩
      · simp only [if_neg hc]
        refine ⟨_, _, _, rfl, ?_, ?_, ?_⟩
        · intro e' h; cases h
        · intro _ h; exact absurd h hl
        · intro e0 e1 tl _ hel
          rw [hel] at hc
          simp only [List.get?_cons_zero, Option.getD_some] at hc
          have heq : e0.2 = .int32 200 := by
            by_contra hne
            exact hc ((Int32OK_ne_200 e0.2).2 hne)
          exact ⟨rfl, ⟨fun _ => heq, fun _ => rfl⟩, fun h => absurd heq h⟩

/-- C10 on a concrete reply: `{putfile: 404, txt: "p2p: File not Found"}`. -/
theorem C10_GetFile_reply_witness :
    ∃ dataerr err c1,
      (clientWithReply (pack [(lit "putfile", .int 404),
        (lit "txt", .string (lit "p2p: File not Found"))])).GetFile (some 1)
        (lit "peer.onion", lit "song.ogg") false = some (dataerr, err, c1) ∧
      (∀ e, (pack [(lit "putfile", .int 404),
          (lit "txt", .string (lit "p2p: File not Found"))]).err = some e →
        err = some e ∧ dataerr = none) ∧
      ((pack [(lit "putfile", .int 404),
          (lit "txt", .string (lit "p2p: File not Found"))]).err = none →
        (pack [(lit "putfile", .int 404),
          (lit "txt", .string (lit "p2p: File not Found"))]).elems.length < 2 →
        err = some .EProtocolError ∧ dataerr = none) ∧
      (∀ e0 e1 tl, (pack [(lit "putfile", .int 404),
          (lit "txt", .string (lit "p2p: File not Found"))]).err = none →
        (pack [(lit "putfile", .int 404),
          (lit "txt", .string (lit "p2p: File not Found"))]).elems = e0 :: e1 :: tl →
        err = none ∧ (dataerr = none ↔ e0.2 = .int32 200) ∧
        (e0.2 ≠ .int32 200 →
          ∃ de, dataerr = some de ∧ de.Error = e1.2.StringValueOK.1)) :=
  C10_GetFile_reply _ (some 1) (lit "peer.onion", lit "song.ogg") false _ [] rfl rfl rfl

/-- C10 as stated fails for a reply with fewer than two elements whose
iteration fails after the first one: the reader task reads it from the
connection and hands it on (its first element parses), and `GetFile` then
returns the iteration error, not `EProtocolError`. -/
theorem C10_malformed_reply_counterexample :
    cutOffReply.elems.length < 2 ∧
    ((ClientContext.prepare (proto.connOf [cutOffReply])).reader 1).map
        (fun c => (c.appmsg, c.aliveClosed)) = some ([cutOffReply], false) ∧
    (((ClientContext.prepare (proto.connOf [cutOffReply])).reader 1).bind
        (fun c => c.GetFile (some 1) (lit "peer.onion", lit "song.ogg") false)).map
        (fun r => (r.1, r.2.1))
      = some (none, some .InsufficientBytes) := by
  decide

end p2p

namespace server

theorem approveAll_mem (as : List (GoString × Bytes)) (p : PeerConnectAuth) :
    (p.approveAll as).mem = p.mem := by
  induction as generalizing p with
  | nil => rfl
  | cons a rest ih =>
    obtain ⟨d, k⟩ := a
    simp only [PeerConnectAuth.approveAll]
    rw [ih]
    rfl

/-- C3: the memoizer does not keep approvals. After `approve(d, p)` on the
memoizer of a new `PeerConnectAuth`, alone or among any other approvals before
and after it, `checkOK(d, p)` returns false, and `Login(p, d)` returns a
`Pending` token, not an `Accepted` one. -/
theorem C3_approve_is_not_memoized (before after : List (GoString × Bytes))
    (d : GoString) (pub : Bytes) :
    (((newPeerConnectAuth.approveAll before).approve d pub).approveAll after).checkOK d pub
      = false ∧
    (((newPeerConnectAuth.approveAll before).approve d pub).approveAll after).Login pub d
      = { Status := .Pending, Domain := d } := by
  have hm : (((newPeerConnectAuth.approveAll before).approve d pub).approveAll after).mem
      = newPeerConnectAuth.mem := by
    rw [approveAll_mem]
    show (newPeerConnectAuth.approveAll before).mem = _
    rw [approveAll_mem]
  have hc : (((newPeerConnectAuth.approveAll before).approve d pub).approveAll after).checkOK
      d pub = false := by
    unfold PeerConnectAuth.checkOK
    rw [hm]
    rfl
  exact ⟨hc, by simp [PeerConnectAuth.Login, hc]⟩

end server

namespace ftse

/-- C2 fails on the code: starting from the empty index, after `Publish` of the
path ("x.onion", "g", "a"), a `Publish` of ("x.onion", "g", "b") followed by its
`Retract` under the same `Accepted` token leaves "b" findable: the query for the
keyword of "b" returns the result ("x.onion", "g", "b"). The retract cleared
slot 0, which holds "a", because `PutTrack` registered "b" under slot 0 while
storing it in slot 1. Without the earlier publish the same retract works. -/
theorem C2_retracted_path_still_found :
    indexAfterRetract.map (fun m =>
        (FTSI.results asciiUnicode m (some (bson.NewDocumentBuilder.AppendString (lit "f") (lit "b")).Build) 1024).map (fun r => r.Path))
      = some [{ domain := lit "x.onion", group := lit "g", title := lit "b" }] ∧
    indexAfterRetract.map (fun m =>
        (FTSI.Query asciiUnicode m tokX (some (bson.NewDocumentBuilder.AppendString (lit "f") (lit "b")).Build) 1024).elems)
      = some [(lit "x.onion", .document (fileDoc (lit "g") (lit "b")).elems none)] ∧
    indexAfterRetract.map (fun m => (m.f, m.s, m.p))
      = some ([(lit "x.onion/g/a", 0)], [[], [lit "fb"]],
          [Path.zero, { domain := lit "x.onion", group := lit "g", title := lit "b" }]) ∧
    ((FTSI.Publish asciiUnicode MemDir.empty tokX (some (fileDoc (lit "g") (lit "b")))).map
      (fun m1 => FTSI.results asciiUnicode
        (FTSI.Retract m1 tokX (some (fileDoc (lit "g") (lit "b")))) (some (bson.NewDocumentBuilder.AppendString (lit "f") (lit "b")).Build) 1024))
      = some [] := by
  decide

end ftse

namespace c2s

theorem teardownCount_append (a b : List QCall) :
    teardownCount (a ++ b) = teardownCount a + teardownCount b := by
  simp [teardownCount, List.countP_append]

theorem teardownCount_publish (tok : Srv_Token) (elems : List bson.Element) :
    teardownCount (connServer.publish tok elems) = 0 := by
  induction elems with
  | nil => rfl
  | cons e rest ih =>
    unfold connServer.publish
    split
    · simpa [teardownCount, List.countP_cons] using ih
    · exact ih

theorem teardownCount_retract (tok : Srv_Token) (elems : List bson.Element) :
    teardownCount (connServer.retract tok elems) = 0 := by
  induction elems with
  | nil => rfl
  | cons e rest ih =>
    unfold connServer.retract
    split
    · simpa [teardownCount, List.countP_cons] using ih
    · exact ih

theorem WriteDocument_inbox (pc : proto.DocConn) (d : Option bson.Document) :
    (pc.WriteDocument d).2.inbox = pc.inbox := by
  cases d <;> rfl

theorem query_frame (S : Server) (c : connServer) (elems : List bson.Element) :
    teardownCount (c.query S elems).2.calls = teardownCount c.calls ∧
    (c.query S elems).2.pc.inbox = c.pc.inbox := by
  unfold connServer.query
  by_cases h1 : (c.token S).Status = .Rejected
  · rw [if_pos h1]
    exact ⟨rfl, WriteDocument_inbox _ _⟩
  · rw [if_neg h1]
    dsimp only
    by_cases h2 : (!((elems.get? 0).getD ([], bson.Value.zero)).2.DocumentOK.2) = true
    · rw [if_pos h2]
      exact ⟨rfl, rfl⟩
    · rw [if_neg h2]
      refine ⟨?_, WriteDocument_inbox _ _⟩
      simp [teardownCount_append, teardownCount]

theorem serve_frame (S : Server) (c : connServer) :
    teardownCount (c.serve S).2.calls = teardownCount c.calls ∧
    ((c.serve S).1 = none → (c.serve S).2.pc.inbox.length < c.pc.inbox.length) := by
  unfold connServer.serve proto.DocConn.ReadDocument
  cases hin : c.pc.inbox with
  | nil => simp
  | cons msg rest =>
    simp only [bson.Elements, bson.Document.Elements]
    cases he : msg.err with
    | some e => simp
    | none =>
      cases hl : msg.elems with
      | nil => simp [proto.DocConn.Free]
      | cons e0 tl =>
        simp only
        split_ifs
        · simp [connServer.ready, proto.DocConn.Free, WriteDocument_inbox]
        · simp [teardownCount_append, teardownCount_publish, proto.DocConn.Free]
        · simp [teardownCount_append, teardownCount_retract, proto.DocConn.Free]
        · simp [teardownCount_append, teardownCount, proto.DocConn.Free]
        · refine ⟨(query_frame S _ (e0 :: tl)).1, fun _ => ?_⟩
          simp only [(query_frame S _ (e0 :: tl)).2]
          simp [proto.DocConn.Free]
        · simp [proto.DocConn.Free]

theorem serveLoop_returns (S : Server) (fuel : Nat) (c : connServer)
    (h : c.pc.inbox.length < fuel) :
    ∃ c1, Server.serveLoop S fuel c = some c1 ∧
      teardownCount c1.calls = teardownCount c.calls := by
  induction fuel generalizing c with
  | zero => exact absurd h (Nat.not_lt_zero _)
  | succ n ih =>
    unfold Server.serveLoop
    have hf := serve_frame S c
    cases hs : c.serve S with
    | mk err c1 =>
      rw [hs] at hf
      cases err with
      | some e => exact ⟨c1, rfl, hf.1⟩
      | none =>
        have hlt : c1.pc.inbox.length < n := by
          have := hf.2 rfl
          simp only at this
          omega
        obtain ⟨c2, h2, h3⟩ := ih c1 hlt
        exact ⟨c2, h2, h3.trans hf.1⟩

theorem handshake_calls (S : Server) (c : connServer) :
    (c.handshake S).2.calls = c.calls := by
  unfold connServer.handshake
  split
  · rfl
  · dsimp only
    split
    · rfl
    · split
      · rfl
      · split
        · rfl
        · rfl

/-- C6 (as amended): every run of `Server.Serve` on a connection returns, and
`RetractAll(token)` is invoked at teardown exactly once if the handshake
succeeded and `Auth.Login` returned a non-nil token, and zero times otherwise
(when the handshake failed, or `Login` returned nil). -/
theorem C6_teardown_RetractAll (S : Server) (conn : proto.DocConn) :
    ∃ t, S.Serve conn = some t ∧
      teardownCount t.calls =
        (if ((S.prepare conn).handshake S).1 = none ∧
            (S.Login ((S.prepare conn).handshake S).2.sa.Pub
              ((S.prepare conn).handshake S).2.sa.Domain).isSome = true
          then 1 else 0) := by
  have hc := handshake_calls S (S.prepare conn)
  cases hh : (S.prepare conn).handshake S with
  | mk err t1 =>
    rw [hh] at hc
    have hc0 : teardownCount t1.calls = 0 := by rw [hc]; rfl
    cases err with
    | some e =>
      refine ⟨{ t1 with pc := t1.pc.Close }, by simp only [Server.Serve, hh], ?_⟩
      simp [hc0]
    | none =>
      cases hl : S.Login t1.sa.Pub t1.sa.Domain with
      | none =>
        refine ⟨{ t1 with pc := t1.pc.Close }, by simp only [Server.Serve, hh, hl], ?_⟩
        simp [hc0, hl]
      | some tok =>
        obtain ⟨t3, h3, h4⟩ := serveLoop_returns S (t1.pc.inbox.length + 1)
          { t1 with tok := some tok } (Nat.lt_succ_self _)
        refine ⟨{ t3 with
          calls := t3.calls ++ [.RetractAll (t3.token S) true]
          pc := t3.pc.Close }, by simp only [Server.Serve, hh, hl, h3, Option.map_some'], ?_⟩
        simp only [teardownCount_append, h4, hc0, hl]
        simp [teardownCount]

/-- C6 as stated fails when `Auth.Login` returns a nil token: the handshake
succeeds, so the session reaches `Login`, and `Serve` returns without any
`RetractAll` at teardown. -/
theorem C6_nil_token_counterexample :
    ((nilLoginServer.prepare (proto.connOf honestHandshake)).handshake nilLoginServer).1 = none ∧
    (nilLoginServer.Serve (proto.connOf honestHandshake)).map (fun t => teardownCount t.calls)
      = some 0 := by
  decide

end c2s

namespace ftse

/-- C18: for every token whose status is not `Accepted`, every index state and
every document, `FTSI.Publish`, `FTSI.Retract` and `FTSI.RetractAll` leave the
index as it was (no `PutTrack`, `DelTrack` or `DelAll` is performed, not even
the `prepare` they start with). -/
theorem C18_not_accepted_leaves_index (U : Unicode) (m : MemDir) (tok : c2s.Srv_Token)
    (doc : Option bson.Document) (h : tok.Status ≠ .Accepted) :
    FTSI.Publish U m tok doc = some m ∧
    FTSI.Retract m tok doc = m ∧
    FTSI.RetractAll m tok = m := by
  simp [FTSI.Publish, FTSI.Retract, FTSI.RetractAll, h]

/-- C18 on a concrete input: a `Pending` token, the empty index and a file
document. -/
theorem C18_not_accepted_leaves_index_witness :
    FTSI.Publish asciiUnicode MemDir.empty { Status := .Pending, Domain := lit "x.onion" }
        (some (fileDoc (lit "g") (lit "a"))) = some MemDir.empty ∧
    FTSI.Retract MemDir.empty { Status := .Pending, Domain := lit "x.onion" }
        (some (fileDoc (lit "g") (lit "a"))) = MemDir.empty ∧
    FTSI.RetractAll MemDir.empty { Status := .Pending, Domain := lit "x.onion" }
      = MemDir.empty :=
  C18_not_accepted_leaves_index asciiUnicode MemDir.empty
    { Status := .Pending, Domain := lit "x.onion" } (some (fileDoc (lit "g") (lit "a")))
    (by decide)

end ftse

namespace p2p

theorem filewrite_loop_of_fills (reads : List Bytes) (out : List bson.Document)
    (h : FillsBuffer reads) :
    connServer.filewrite.loop reads out
      = out ++ (reads.filter (fun ch => ch ≠ [])).map dlBin := by
  induction reads generalizing out with
  | nil => simp [connServer.filewrite.loop]
  | cons chunk rest ih =>
    cases rest with
    | nil =>
      have hle : chunk.length ≤ bufSize := h
      have ht : chunk.take bufSize = chunk := List.take_of_length_le hle
      unfold connServer.filewrite.loop
      simp only [ht]
      by_cases h0 : chunk.length = 0
      · have : chunk = [] := List.length_eq_zero.mp h0
        simp [this]
      · have hne : chunk ≠ [] := fun e => h0 (by rw [e]; rfl)
        rw [if_neg h0]
        by_cases hlt : chunk.length < bufSize
        · rw [if_pos hlt]; simp [hne]
        · rw [if_neg hlt]; simp [connServer.filewrite.loop, hne]
    | cons c2 rest2 =>
      obtain ⟨hlen, hrest⟩ := h
      have ht : chunk.take bufSize = chunk := List.take_of_length_le (le_of_eq hlen)
      have hne : chunk ≠ [] := by
        intro e; rw [e] at hlen; exact absurd hlen (by decide)
      unfold connServer.filewrite.loop
      simp only [ht, hlen]
      rw [if_neg (by decide), if_neg (by decide), ih _ hrest]
      simp [hne]

theorem fills_chunk_le (reads : List Bytes) (h : FillsBuffer reads) :
    ∀ ch ∈ reads, ch.length ≤ bufSize := by
  induction reads with
  | nil => simp
  | cons chunk rest ih =>
    cases rest with
    | nil => intro ch hc; simp at hc; rw [hc]; exact h
    | cons c2 rest2 =>
      intro ch hc
      rcases List.mem_cons.mp hc with e | hm
      · rw [e]; exact le_of_eq h.1
      · exact ih h.2 ch hm

theorem flatten_filter_ne_nil (reads : List Bytes) :
    (reads.filter (fun ch => ch ≠ [])).flatten = reads.flatten := by
  induction reads with
  | nil => rfl
  | cons chunk rest ih =>
    simp only [ne_eq, decide_not] at ih ⊢
    by_cases h : chunk = []
    · simp [h, ih]
    · simp [h, ih]

/-- C11: for every accepted file whose reader fills the 8192-byte buffer on
every read except the last, `filewrite` appends to the low-priority queue
exactly: one `{dl.start: {d, f}}` with the file's path, then the `{dl.bin}`
messages of a list of chunks, each of 1 to 8192 bytes, then one `{dl.end: 0}`;
the chunks concatenated are the file's content (so their lengths add up to the
file size); and the file is closed. -/
theorem C11_filewrite_stream (c : connServer) (felem : queueElement) (f : ReadCloser)
    (hf : felem.fobj = some f) (hfill : FillsBuffer f.reads) :
    ∃ chunks : List Bytes,
      (c.filewrite felem).outlo
        = c.outlo ++ [dlStart felem.path] ++ chunks.map dlBin ++ [dlEnd] ∧
      (∀ ch ∈ chunks, 1 ≤ ch.length ∧ ch.length ≤ 8192) ∧
      chunks.flatten = f.reads.flatten ∧
      (chunks.map List.length).sum = f.reads.flatten.length ∧
      (c.filewrite felem).fslog = c.fslog ++ [.Close f] := by
  refine ⟨f.reads.filter (fun ch => ch ≠ []), ?_, ?_, flatten_filter_ne_nil _, ?_, ?_⟩
  · simp [connServer.filewrite, hf, filewrite_loop_of_fills _ _ hfill]
  · intro ch hc
    rw [List.mem_filter] at hc
    refine ⟨?_, fills_chunk_le _ hfill ch hc.1⟩
    have : ch ≠ [] := by simpa using hc.2
    exact List.length_pos.mpr this
  · rw [← flatten_filter_ne_nil, List.length_flatten]
  · simp [connServer.filewrite, hf]

/-- C11 on a concrete file: one read of 3 bytes. -/
theorem C11_filewrite_stream_witness :
    ∃ chunks : List Bytes,
      ((Server.prepare (proto.connOf [])).filewrite
          { fobj := some { name := lit "share/a.txt", reads := [[1, 2, 3]] },
            path := (lit "share", lit "a.txt") }).outlo
        = (Server.prepare (proto.connOf [])).outlo ++ [dlStart (lit "share", lit "a.txt")]
            ++ chunks.map dlBin ++ [dlEnd] ∧
      (∀ ch ∈ chunks, 1 ≤ ch.length ∧ ch.length ≤ 8192) ∧
      chunks.flatten
        = (List.flatten [[1, 2, 3]]) ∧
      (chunks.map List.length).sum = (List.flatten [[1, 2, 3]]).length ∧
      ((Server.prepare (proto.connOf [])).filewrite
          { fobj := some { name := lit "share/a.txt", reads := [[1, 2, 3]] },
            path := (lit "share", lit "a.txt") }).fslog
        = (Server.prepare (proto.connOf [])).fslog
            ++ [.Close { name := lit "share/a.txt", reads := [[1, 2, 3]] }] :=
  C11_filewrite_stream (Server.prepare (proto.connOf []))
    { fobj := some { name := lit "share/a.txt", reads := [[1, 2, 3]] },
      path := (lit "share", lit "a.txt") }
    { name := lit "share/a.txt", reads := [[1, 2, 3]] } rfl
    (by decide)

end p2p

namespace p2p

theorem WriteDocument_sent (pc : proto.DocConn) (msg : bson.Document) :
    (pc.WriteDocument (some msg)).2.sent = pc.sent ++ [msg] := rfl

theorem sendHi_spec (c c1 : connServer) (h : c.sendHi = some c1) :
    ∃ msg, c.outhi = msg :: c1.outhi ∧ c1.outlo = c.outlo ∧
      c1.pc.sent = c.pc.sent ++ [msg] ∧ c1.alive = c.alive := by
  unfold connServer.sendHi at h
  cases hq : c.outhi with
  | nil => rw [hq] at h; exact Option.noConfusion h
  | cons msg rest =>
    rw [hq] at h
    cases Option.some.inj h
    exact ⟨msg, rfl, rfl, rfl, rfl⟩

theorem sendLo_spec (c c1 : connServer) (h : c.sendLo = some c1) :
    ∃ msg, c.outlo = msg :: c1.outlo ∧ c1.outhi = c.outhi ∧
      c1.pc.sent = c.pc.sent ++ [msg] ∧ c1.alive = c.alive := by
  unfold connServer.sendLo at h
  cases hq : c.outlo with
  | nil => rw [hq] at h; exact Option.noConfusion h
  | cons msg rest =>
    rw [hq] at h
    cases Option.some.inj h
    exact ⟨msg, rfl, rfl, rfl, rfl⟩

/-- What one step does to the queues and to the stream: it transmits the head
of one queue, or appends to one queue, or changes nothing. -/
theorem writerStep_spec (c c1 : connServer) (st : WriterStep) (h : c.writerStep st = some c1) :
    (∃ msg, c.outhi = msg :: c1.outhi ∧ c1.outlo = c.outlo ∧
        c1.pc.sent = c.pc.sent ++ [msg] ∧ enqueuedHi [st] = [] ∧ enqueuedLo [st] = []) ∨
    (∃ msg, c.outlo = msg :: c1.outlo ∧ c1.outhi = c.outhi ∧
        c1.pc.sent = c.pc.sent ++ [msg] ∧ enqueuedHi [st] = [] ∧ enqueuedLo [st] = []) ∨
    (c1.outhi = c.outhi ++ enqueuedHi [st] ∧ c1.outlo = c.outlo ++ enqueuedLo [st] ∧
        c1.pc.sent = c.pc.sent) := by
  cases st with
  | first p =>
    cases p with
    | alive =>
      simp only [connServer.writerStep, connServer.writer.first] at h
      split at h
      · exact Option.noConfusion h
      · cases Option.some.inj h; exact Or.inr (Or.inr ⟨by simp [enqueuedHi], by simp [enqueuedLo], rfl⟩)
    | hi =>
      obtain ⟨msg, h1, h2, h3, _⟩ := sendHi_spec c c1 h
      exact Or.inl ⟨msg, h1, h2, h3, rfl, rfl⟩
    | lo => exact Option.noConfusion h
    | dflt =>
      simp only [connServer.writerStep, connServer.writer.first] at h
      split at h
      · cases Option.some.inj h; exact Or.inr (Or.inr ⟨by simp [enqueuedHi], by simp [enqueuedLo], rfl⟩)
      · exact Option.noConfusion h
  | second p =>
    cases p with
    | alive =>
      simp only [connServer.writerStep, connServer.writer.second] at h
      split at h
      · exact Option.noConfusion h
      · cases Option.some.inj h; exact Or.inr (Or.inr ⟨by simp [enqueuedHi], by simp [enqueuedLo], rfl⟩)
    | hi =>
      obtain ⟨msg, h1, h2, h3, _⟩ := sendHi_spec c c1 h
      exact Or.inl ⟨msg, h1, h2, h3, rfl, rfl⟩
    | lo =>
      obtain ⟨msg, h1, h2, h3, _⟩ := sendLo_spec c c1 h
      exact Or.inr (Or.inl ⟨msg, h1, h2, h3, rfl, rfl⟩)
    | dflt => exact Option.noConfusion h
  | enqHi msg =>
    cases Option.some.inj h
    exact Or.inr (Or.inr ⟨rfl, by simp [enqueuedLo], rfl⟩)
  | enqLo msg =>
    cases Option.some.inj h
    exact Or.inr (Or.inr ⟨by simp [enqueuedHi], rfl, rfl⟩)

theorem enqueuedHi_cons (st : WriterStep) (rest : List WriterStep) :
    enqueuedHi (st :: rest) = enqueuedHi [st] ++ enqueuedHi rest := by
  cases st <;> simp [enqueuedHi]

theorem enqueuedLo_cons (st : WriterStep) (rest : List WriterStep) :
    enqueuedLo (st :: rest) = enqueuedLo [st] ++ enqueuedLo rest := by
  cases st <;> simp [enqueuedLo]

/-- Same-class order over a whole run: what was transmitted is made of a
front part of the high-priority messages and a front part of the low-priority
messages (those queued at the start, then those enqueued during the run), each
in the order of its queue. -/
theorem writerRun_fifo (steps : List WriterStep) (c c1 : connServer)
    (h : c.writerRun steps = some c1) :
    ∃ hs ls m, c.outhi ++ enqueuedHi steps = hs ++ c1.outhi ∧
      c.outlo ++ enqueuedLo steps = ls ++ c1.outlo ∧
      c1.pc.sent = c.pc.sent ++ m ∧ Interleave hs ls m := by
  induction steps generalizing c with
  | nil =>
    cases Option.some.inj h
    exact ⟨[], [], [], by simp [enqueuedHi], by simp [enqueuedLo], by simp, .nil⟩
  | cons st rest ih =>
    simp only [connServer.writerRun] at h
    cases hs1 : c.writerStep st with
    | none => rw [hs1] at h; exact Option.noConfusion h
    | some c2 =>
      rw [hs1] at h
      obtain ⟨hs, ls, m, e1, e2, e3, e4⟩ := ih c2 h
      rw [enqueuedHi_cons, enqueuedLo_cons]
      rcases writerStep_spec c c2 st hs1 with
        ⟨msg, a1, a2, a3, a4, a5⟩ | ⟨msg, a1, a2, a3, a4, a5⟩ | ⟨a1, a2, a3⟩
      · refine ⟨msg :: hs, ls, msg :: m, ?_, ?_, ?_, .left msg e4⟩
        · rw [a4, a1]; simpa using e1
        · rw [a5, ← a2]; simpa using e2
        · rw [e3, a3]; simp
      · refine ⟨hs, msg :: ls, msg :: m, ?_, ?_, ?_, .right msg e4⟩
        · rw [a4, ← a2]; simpa using e1
        · rw [a5, a1]; simpa using e2
        · rw [e3, a3]; simp
      · refine ⟨hs, ls, m, ?_, ?_, ?_, e4⟩
        · rw [← List.append_assoc, ← a1]; exact e1
        · rw [← List.append_assoc, ← a2]; exact e2
        · rw [e3, a3]

/-- C13 fails in the code: `writer` sends a low-priority message while a
high-priority message is still queued. In every live session with at least two
high-priority messages and one low-priority message queued, a round of `writer`
can transmit the first high-priority message and then the low-priority one,
leaving the second high-priority message in its queue: the second `select`
offers both queues at once. The first `select` of a round does honour the
priority (with a high-priority message queued it can only transmit that one),
and over every run messages of the same priority class go out in the order they
were enqueued. The last part runs the round on a session holding the replies
404 and 204 in the high-priority queue and one block of file data in the other. -/
theorem C13_low_sent_while_high_queued (c : connServer) (steps : List WriterStep) :
    (∀ h1 h2 hs l ls, c.alive = true → c.outhi = h1 :: h2 :: hs → c.outlo = l :: ls →
      ∃ c2, c.writerRound .hi .lo = some c2 ∧ c2.pc.sent = c.pc.sent ++ [h1, l] ∧
        c2.outhi = h2 :: hs ∧ c2.outlo = ls) ∧
    (∀ h hs p c1, c.alive = true → c.outhi = h :: hs →
      connServer.writer.first c p = some c1 →
        p = .hi ∧ c1.pc.sent = c.pc.sent ++ [h] ∧ c1.outhi = hs ∧ c1.outlo = c.outlo) ∧
    (∀ c1, c.writerRun steps = some c1 →
      ∃ hs ls m, c.outhi ++ enqueuedHi steps = hs ++ c1.outhi ∧
        c.outlo ++ enqueuedLo steps = ls ++ c1.outlo ∧
        c1.pc.sent = c.pc.sent ++ m ∧ Interleave hs ls m) ∧
    (twoHighOneLow.writerRound .hi .lo).map (fun c => (c.pc.sent, c.outhi, c.outlo))
      = some ([pack [(lit "putfile", .int 404), (lit "txt", .string (lit "p2p: File not Found"))],
          dlBin [1, 2, 3]],
        [pack [(lit "putfile", .int 204), (lit "txt", .string (lit "queue ran full"))]], []) := by
  refine ⟨?_, ?_, fun c1 h => writerRun_fifo steps c c1 h, by decide⟩
  · intro h1 h2 hs l ls ha hq hl
    have hr : c.writerRound .hi .lo
        = some { c with
            outhi := h2 :: hs
            outlo := ls
            pc := ((c.pc.WriteDocument (some h1)).2.WriteDocument (some l)).2 } := by
      simp only [connServer.writerRound, connServer.writer.first, connServer.sendHi, hq,
        Option.some_bind, connServer.writer.second, connServer.sendLo, hl]
    refine ⟨_, hr, ?_, rfl, rfl⟩
    simp only [WriteDocument_sent, List.append_assoc, List.singleton_append]
  · intro h hs p c1 ha hq hf
    cases p with
    | alive => simp [connServer.writer.first, ha] at hf
    | lo => exact Option.noConfusion hf
    | dflt => simp [connServer.writer.first, ha, hq] at hf
    | hi =>
      obtain ⟨msg, e1, e2, e3, e4⟩ := sendHi_spec c c1 hf
      rw [hq] at e1
      cases e1
      exact ⟨rfl, e3, rfl, e2⟩

end p2p

namespace p2p

theorem handle_dlStart (T : TargetStore) (c : Client) (w : fileWriter) (msg : bson.Document)
    (hes : List bson.Element) (herr : Option GoError) (tl : List bson.Element)
    (hm : msg.elems = (lit "dl.start", .document hes herr) :: tl) :
    Client.filewriter.handle T c w msg =
      ({ c with
          toks := c.toks.Put (d2path (some { elems := hes, err := herr })) none
          pc := c.pc.Free },
        match (T (c.toks.Get (d2path (some { elems := hes, err := herr })))
            (d2path (some { elems := hes, err := herr }))).2 with
        | some _ => { w with log := w.log ++ [.Create
            (c.toks.Get (d2path (some { elems := hes, err := herr })))
            (d2path (some { elems := hes, err := herr }))] }
        | none => fileWriter.setFile { w with log := w.log ++ [.Create
            (c.toks.Get (d2path (some { elems := hes, err := herr })))
            (d2path (some { elems := hes, err := herr }))] }
            (T (c.toks.Get (d2path (some { elems := hes, err := herr })))
              (d2path (some { elems := hes, err := herr }))).1) := by
  unfold Client.filewriter.handle
  simp only [bson.Document.IndexErr, hm, List.get?_cons_zero, bson.Value.DocumentOK,
    Bool.not_true, Bool.false_eq_true, if_false, if_true]
  cases (T (c.toks.Get (d2path (some { elems := hes, err := herr })))
      (d2path (some { elems := hes, err := herr }))).2 <;> rfl

theorem handle_dlBin (T : TargetStore) (c : Client) (w : fileWriter) (msg : bson.Document)
    (t : Nat) (data : Bytes) (tl : List bson.Element)
    (hm : msg.elems = (lit "dl.bin", .binary t data) :: tl) :
    (Client.filewriter.handle T c w msg).2 =
      match w.cf with
      | some f => { w with log := w.log ++ [.Write f data] }
      | none => w := by
  have h1 : ¬ (lit "dl.bin" = lit "dl.start") := by decide
  unfold Client.filewriter.handle
  simp only [bson.Document.IndexErr, hm, List.get?_cons_zero, if_neg h1, if_true,
    bson.Value.BinaryOK, Bool.not_true, Bool.false_eq_true, if_false]
  cases w.cf <;> rfl

/-- C12: what `filewriter` does on a `dl.start` whose header is a document.
When `Create` succeeds, the sink that was open is closed (after `Create`, before
anything is written to the new sink) and the new sink becomes current. When
`Create` fails and no sink was open, none is open afterwards and a following
`dl.bin` is written nowhere. When `Create` fails while a sink is open, that sink
is neither closed nor dropped: it stays current, and a following `dl.bin` is
written to it, that is into the file of the earlier transfer. -/
theorem C12_dlStart_sink (T : TargetStore) (c : Client) (w : fileWriter)
    (msg bin : bson.Document) (hes : List bson.Element) (herr : Option GoError)
    (tl tl2 : List bson.Element) (t : Nat) (data : Bytes) :
    msg.elems = (lit "dl.start", .document hes herr) :: tl →
    bin.elems = (lit "dl.bin", .binary t data) :: tl2 →
    (∀ ncf, T (c.toks.Get (d2path (some { elems := hes, err := herr })))
        (d2path (some { elems := hes, err := herr })) = (ncf, none) →
      (Client.filewriter.handle T c w msg).2.cf = ncf ∧
      (Client.filewriter.handle T c w msg).2.log = w.log ++
        (.Create (c.toks.Get (d2path (some { elems := hes, err := herr })))
          (d2path (some { elems := hes, err := herr })) ::
          (match w.cf with
            | some old => [.Close old]
            | none => []))) ∧
    (∀ e, (T (c.toks.Get (d2path (some { elems := hes, err := herr })))
        (d2path (some { elems := hes, err := herr }))).2 = some e →
      (Client.filewriter.handle T c w msg).2.cf = w.cf ∧
      (Client.filewriter.handle T c w msg).2.log = w.log ++
        [.Create (c.toks.Get (d2path (some { elems := hes, err := herr })))
          (d2path (some { elems := hes, err := herr }))] ∧
      (Client.filewriter.handle T (Client.filewriter.handle T c w msg).1
          (Client.filewriter.handle T c w msg).2 bin).2.log
        = (Client.filewriter.handle T c w msg).2.log ++
          (match w.cf with
            | some old => [.Write old data]
            | none => [])) := by
  intro hm hb
  rw [handle_dlStart T c w msg hes herr tl hm]
  constructor
  · intro ncf hT
    rw [hT]
    cases hcf : w.cf <;> simp [fileWriter.setFile, hcf]
  · intro e hT
    rw [handle_dlBin T _ _ bin t data tl2 hb]
    rw [hT]
    cases hcf : w.cf <;> simp [hcf]

/-- C12 on a concrete state: the sink of "a.ogg" is open, no token is stored
for "b.ogg"; the start of "b.ogg" is rejected, the sink of "a.ogg" stays
current and unclosed, and the next chunk is written into it. -/
theorem C12_dlStart_sink_witness :
    (Client.filewriter.handle exampleTarget (clientWithReply truncatedReply)
        { cf := some { name := lit "dl/a.ogg" }, log := [] }
        (dlStart (lit "peer.onion", lit "b.ogg"))).2.cf = some { name := lit "dl/a.ogg" } ∧
    (Client.filewriter.handle exampleTarget (clientWithReply truncatedReply)
        { cf := some { name := lit "dl/a.ogg" }, log := [] }
        (dlStart (lit "peer.onion", lit "b.ogg"))).2.log
      = [] ++ [.Create none (lit "peer.onion", lit "b.ogg")] ∧
    (Client.filewriter.handle exampleTarget
        (Client.filewriter.handle exampleTarget (clientWithReply truncatedReply)
          { cf := some { name := lit "dl/a.ogg" }, log := [] }
          (dlStart (lit "peer.onion", lit "b.ogg"))).1
        (Client.filewriter.handle exampleTarget (clientWithReply truncatedReply)
          { cf := some { name := lit "dl/a.ogg" }, log := [] }
          (dlStart (lit "peer.onion", lit "b.ogg"))).2 (dlBin [3, 4])).2.log
      = (Client.filewriter.handle exampleTarget (clientWithReply truncatedReply)
          { cf := some { name := lit "dl/a.ogg" }, log := [] }
          (dlStart (lit "peer.onion", lit "b.ogg"))).2.log
        ++ [.Write { name := lit "dl/a.ogg" } [3, 4]] :=
  (C12_dlStart_sink exampleTarget (clientWithReply truncatedReply)
    { cf := some { name := lit "dl/a.ogg" }, log := [] }
    (dlStart (lit "peer.onion", lit "b.ogg")) (dlBin [3, 4])
    [(lit "d", .string (lit "peer.onion")), (lit "f", .string (lit "b.ogg"))] none [] [] 1
    [3, 4] rfl rfl).2 .EDlRejected (by decide)

/-- The same on a whole run of the task: the peer starts "a.ogg" (a token is
stored), sends a chunk, starts "b.ogg" (no token: `Create` is rejected) and
sends another chunk. The sink of "a.ogg" is not closed at the second start, and
the chunk of "b.ogg" is written into it; it is closed only when the task
returns. -/
theorem filewriter_rejected_start_run :
    (Client.filewriter exampleTarget twoStartsClient 4).map (fun r => r.2.log)
      = some [.Create (some 7) (lit "peer.onion", lit "a.ogg"),
          .Write { name := lit "dl/a.ogg" } [1, 2],
          .Create none (lit "peer.onion", lit "b.ogg"),
          .Write { name := lit "dl/a.ogg" } [3, 4],
          .Close { name := lit "dl/a.ogg" }] := by
  decide

end p2p

namespace c2s

theorem appendFiles_eq (db : bson.DocumentBuilder) (fs : List bson.Document) :
    appendFiles db fs = db ++ fs.map (fun f => (([] : GoString), bson.Value.document f.elems f.err)) := by
  induction fs generalizing db with
  | nil => simp [appendFiles]
  | cons f rest ih =>
    simp [appendFiles, ih, bson.DocumentBuilder.AppendDocument]

theorem publish_files (tok : Srv_Token) (k : GoString) (fs : List bson.Document) :
    connServer.publish tok (fs.map (fun f => (k, bson.Value.document f.elems f.err)))
      = fs.map (fun f => QCall.Publish tok (some f)) := by
  induction fs with
  | nil => rfl
  | cons f rest ih =>
    simp only [List.map_cons, connServer.publish, bson.Value.DocumentOK, if_true, ih]

theorem retract_files (tok : Srv_Token) (k : GoString) (fs : List bson.Document) :
    connServer.retract tok (fs.map (fun f => (k, bson.Value.document f.elems f.err)))
      = fs.map (fun f => QCall.Retract tok (some f)) := by
  induction fs with
  | nil => rfl
  | cons f rest ih =>
    simp only [List.map_cons, connServer.retract, bson.Value.DocumentOK, if_true, ih]

/-- C16: for a non-empty list of file documents, `Client.Publish` writes one
message (first file under "publish", the rest under empty keys); when the
index server's `serve` reads that message it calls `Queries.Publish(token, f)`
once for each file, in the order of the list, calls nothing else, writes no
reply and returns nil. The same holds for `Client.Retract` and
`Queries.Retract`. For an empty list nothing is written. -/
theorem C16_publish_retract_round_trip (cl : Client) (f0 : bson.Document)
    (fs : List bson.Document) (S : Server) (c : connServer) (rest : List bson.Document) :
    (∃ msg, cl.Publish (f0 :: fs) = (cl.conn.werr, { cl with conn := { cl.conn with
        sent := cl.conn.sent ++ [msg] } }) ∧
      (c.pc.inbox = msg :: rest →
        (c.serve S).1 = none ∧
        (c.serve S).2.calls = c.calls ++ (f0 :: fs).map (fun f => QCall.Publish (c.token S) (some f)) ∧
        (c.serve S).2.pc.sent = c.pc.sent)) ∧
    (∃ msg, cl.Retract (f0 :: fs) = (cl.conn.werr, { cl with conn := { cl.conn with
        sent := cl.conn.sent ++ [msg] } }) ∧
      (c.pc.inbox = msg :: rest →
        (c.serve S).1 = none ∧
        (c.serve S).2.calls = c.calls ++ (f0 :: fs).map (fun f => QCall.Retract (c.token S) (some f)) ∧
        (c.serve S).2.pc.sent = c.pc.sent)) ∧
    cl.Publish [] = (none, cl) ∧ cl.Retract [] = (none, cl) := by
  have hp : ¬ (lit "publish" = lit "ready") := by decide
  have hr1 : ¬ (lit "retract" = lit "ready") := by decide
  have hr2 : ¬ (lit "retract" = lit "publish") := by decide
  refine ⟨⟨_, rfl, fun hin => ?_⟩, ⟨_, rfl, fun hin => ?_⟩, rfl, rfl⟩
  · have hl := publish_files (c.token S) [] fs
    unfold connServer.serve
    simp only [proto.DocConn.ReadDocument, hin, bson.Elements, bson.Document.Elements,
      bson.DocumentBuilder.Build, appendFiles_eq, bson.DocumentBuilder.AppendDocument,
      bson.NewDocumentBuilder, List.nil_append, List.singleton_append, if_neg hp, if_true]
    refine ⟨trivial, ?_, rfl⟩
    simp only [connServer.publish, bson.Value.DocumentOK, if_true, List.map_cons]
    rw [← hl]
    rfl
  · have hl := retract_files (c.token S) [] fs
    unfold connServer.serve
    simp only [proto.DocConn.ReadDocument, hin, bson.Elements, bson.Document.Elements,
      bson.DocumentBuilder.Build, appendFiles_eq, bson.DocumentBuilder.AppendDocument,
      bson.NewDocumentBuilder, List.nil_append, List.singleton_append, if_neg hr1, if_neg hr2,
      if_true]
    refine ⟨trivial, ?_, rfl⟩
    simp only [connServer.retract, bson.Value.DocumentOK, if_true, List.map_cons]
    rw [← hl]
    rfl

end c2s

namespace ftse

theorem collect_length (m : MemDir) (max : Int) (l : List Nat) (pth : List Result)
    (h : (pth.length : Int) < max ∨ pth.length = 0) :
    ((MemDir.Lookup.collect m max l pth).length : Int) ≤ Max.max max 1 := by
  induction l generalizing pth with
  | nil =>
    simp only [MemDir.Lookup.collect]
    rcases h with h | h
    · exact le_trans (le_of_lt h) (le_max_left _ _)
    · rw [h]; exact le_trans (by decide) (le_max_right _ _)
  | cons i rest ih =>
    unfold MemDir.Lookup.collect
    split
    · exact ih pth h
    · dsimp only
      split
      · rw [List.length_append, List.length_singleton]
        rcases h with h | h
        · exact le_trans (by push_cast; omega) (le_max_left _ _)
        · rw [h]; exact le_max_right _ _
      · rename_i hge
        refine ih _ (Or.inl ?_)
        exact lt_of_not_ge hge

theorem Lookup_length (m : MemDir) (keys : List GoString) (max : Int) :
    ((m.Lookup keys max).length : Int) ≤ Max.max max 1 := by
  unfold MemDir.Lookup
  split
  · exact le_trans (by decide) (le_max_right _ _)
  · exact collect_length m max _ [] (Or.inr rfl)

theorem foldl_AppendDocument_length (rs : List Result) (db : bson.DocumentBuilder) :
    (rs.foldl (fun db res => db.AppendDocument res.Path.domain res.GetMeta) db).length
      = db.length + rs.length := by
  induction rs generalizing db with
  | nil => rfl
  | cons r rest ih =>
    rw [List.foldl_cons, ih]
    simp only [bson.DocumentBuilder.AppendDocument, List.length_append,
      List.length_cons, List.length_nil]
    omega

theorem Query_length (U : Unicode) (m : MemDir) (tok : c2s.Srv_Token)
    (terms : Option bson.Document) (max : Int) :
    ((FTSI.Query U m tok terms max).elems.length : Int) ≤ Max.max max 1 := by
  unfold FTSI.Query bson.DocumentBuilder.Build
  simp only [foldl_AppendDocument_length, bson.NewDocumentBuilder, List.length_nil, zero_add]
  exact Lookup_length m _ max

end ftse

namespace c2s

/-- C17: a query request handled by the index server over the in-memory index
gets a reply of at most max(`max`, 1) result elements, `max` being the int32
"max" element of the request or 1024 without one; so the limit holds for every
`max` of at least 1. For a `max` of 0 (or below) the reply still carries one
result when there is a match: `MemDir.Lookup` compares `len(pth)` with `max`
only after it has appended a result. The request `{query: {f: "a"}, max: 0}` on an
index holding the file "a" is answered with one element. -/
theorem C17_query_result_limit :
    (∀ (S : Server) (U : ftse.Unicode) (m : ftse.MemDir) (c : connServer)
        (elems : List bson.Element) (reply : bson.Document),
      (c.query (S.withIndex U m) elems).2.pc.sent = c.pc.sent ++ [reply] →
        (reply.elems.length : Int) ≤ Max.max (requestedMax elems) 1) ∧
    (∀ (S : Server) (U : ftse.Unicode) (m : ftse.MemDir) (c : connServer)
        (msg : bson.Document) (rest : List bson.Document) (e0 : bson.Element)
        (tl : List bson.Element) (reply : bson.Document),
      c.pc.inbox = msg :: rest → msg.err = none → msg.elems = e0 :: tl → e0.1 = lit "query" →
      (c.serve (S.withIndex U m)).2.pc.sent = c.pc.sent ++ [reply] →
        (reply.elems.length : Int) ≤ Max.max (requestedMax (e0 :: tl)) 1) ∧
    requestedMax queryMaxZero.elems = 0 ∧
    (({ Server.prepare oneFileServer (proto.connOf [queryMaxZero]) with
        tok := some ftse.tokX }).serve oneFileServer).2.pc.sent.map (fun (d : bson.Document) => d.elems.length)
      = [1] := by
  have hq : ∀ (S : Server) (U : ftse.Unicode) (m : ftse.MemDir) (c : connServer)
      (elems : List bson.Element) (reply : bson.Document),
      (c.query (S.withIndex U m) elems).2.pc.sent = c.pc.sent ++ [reply] →
        (reply.elems.length : Int) ≤ Max.max (requestedMax elems) 1 := by
    intro S U m c elems reply h
    unfold connServer.query at h
    by_cases h1 : (c.token (S.withIndex U m)).Status = .Rejected
    · rw [if_pos h1] at h
      simp only [proto.DocConn.WriteDocument, List.append_cancel_left_eq, List.cons.injEq,
        and_true] at h
      rw [← h]
      exact le_trans (by decide) (le_max_right _ _)
    · rw [if_neg h1] at h
      dsimp only at h
      by_cases h2 : (!((elems.get? 0).getD ([], bson.Value.zero)).2.DocumentOK.2) = true
      · rw [if_pos h2] at h
        simp at h
      · rw [if_neg h2] at h
        simp only [Server.withIndex, proto.DocConn.WriteDocument, List.append_cancel_left_eq,
          List.cons.injEq, and_true] at h
        rw [← h]
        exact ftse.Query_length U m _ _ _
  refine ⟨hq, ?_, by decide, by decide⟩
  intro S U m c msg rest e0 tl reply hin he hel hk h
  have k1 : ¬ (e0.1 = lit "ready") := by rw [hk]; decide
  have k2 : ¬ (e0.1 = lit "publish") := by rw [hk]; decide
  have k3 : ¬ (e0.1 = lit "retract") := by rw [hk]; decide
  have k4 : ¬ (e0.1 = lit "sweep") := by rw [hk]; decide
  unfold connServer.serve at h
  simp only [proto.DocConn.ReadDocument, hin, bson.Elements, bson.Document.Elements, he, hel,
    if_neg k1, if_neg k2, if_neg k3, if_neg k4, if_pos hk] at h
  exact hq S U m _ (e0 :: tl) reply h

end c2s

namespace servent

theorem Query_loop_spec (terms : bson.Document) (maxPerConn : Int) (conns : List serverConn)
    (res : List bson.Element) (err : Option GoError) :
    (Servent.Query.loop terms maxPerConn conns res err).1.1
      = res ++ (conns.map (fun c => (sessionResult terms maxPerConn c).1)).flatten ∧
    (Servent.Query.loop terms maxPerConn conns res err).1.2
      = (if err = none then firstError (conns.map (sessionResult terms maxPerConn)) else err) ∧
    (Servent.Query.loop terms maxPerConn conns res err).2.map (fun c => c.cli)
      = conns.map (fun c => (c.cli.Query terms maxPerConn).2.2) := by
  induction conns generalizing res err with
  | nil => cases err <;> simp [Servent.Query.loop, firstError]
  | cons conn rest ih =>
    obtain ⟨h1, h2, h3⟩ := ih (res ++ (conn.cli.Query terms maxPerConn).1)
      (if err = none then (conn.cli.Query terms maxPerConn).2.1 else err)
    simp only [Servent.Query.loop, h1, h2, h3, List.map_cons, List.flatten_cons,
      List.append_assoc, sessionResult, true_and]
    constructor
    · cases err with
      | some e => simp
      | none =>
        cases hq : (conn.cli.Query terms maxPerConn).2.1 with
        | none => simp [firstError]
        | some e => simp [firstError]
    · cases err with
      | some e => simp [wakeup]
      | none =>
        cases hq : (conn.cli.Query terms maxPerConn).2.1 with
        | none => simp [wakeup]
        | some e => simp [wakeup]

theorem firstError_ne_none (l : List (List bson.Element × Option GoError)) :
    firstError l ≠ none ↔ ∃ r ∈ l, r.2 ≠ none := by
  induction l with
  | nil => simp [firstError]
  | cons r rest ih =>
    obtain ⟨es, e⟩ := r
    cases e with
    | some e => simp [firstError]
    | none => simp [firstError, ih]

/-- C15: `Servent.Query` queries every session of the list, whatever the
earlier ones returned; its result is the concatenation of the elements the
sessions returned, in the order of the list; its error is not nil exactly when
that concatenation is empty and at least one session failed, and it is then the
error of the first session that failed. With two sessions, the first returning
two elements and the second failing, it returns the two elements and a nil
error. -/
theorem C15_fan_out_query (conns : List serverConn) (terms : bson.Document) (maxPerConn : Int)
    (e1 e2 : bson.Element) :
    (Servent.Query conns terms maxPerConn).2.map (fun c => c.cli)
      = conns.map (fun c => (c.cli.Query terms maxPerConn).2.2) ∧
    (Servent.Query conns terms maxPerConn).1.1
      = (conns.map (fun c => (sessionResult terms maxPerConn c).1)).flatten ∧
    ((Servent.Query conns terms maxPerConn).1.2 ≠ none ↔
      (conns.map (fun c => (sessionResult terms maxPerConn c).1)).flatten = [] ∧
      ∃ c ∈ conns, (sessionResult terms maxPerConn c).2 ≠ none) ∧
    ((Servent.Query conns terms maxPerConn).1.2 ≠ none →
      (Servent.Query conns terms maxPerConn).1.2
        = firstError (conns.map (sessionResult terms maxPerConn))) ∧
    (Servent.Query [sessionOf [{ elems := [e1, e2], err := none }], sessionOf []]
        terms maxPerConn).1 = ([e1, e2], none) := by
  obtain ⟨h1, h2, h3⟩ := Query_loop_spec terms maxPerConn conns [] none
  simp only [List.nil_append, if_true] at h1 h2
  refine ⟨h3, h1, ?_, ?_, rfl⟩
  · simp only [Servent.Query, h1, h2]
    split
    · rename_i hpos
      simp only [ne_eq, not_true_eq_false, false_iff, not_and]
      intro hnil
      rw [hnil] at hpos
      exact absurd hpos (by simp)
    · rename_i hpos
      have hnil : (conns.map (fun c => (sessionResult terms maxPerConn c).1)).flatten = [] :=
        List.length_eq_zero.mp (by omega)
      rw [firstError_ne_none]
      simp only [hnil, true_and, List.mem_map]
      constructor
      · rintro ⟨r, ⟨c, hc, rfl⟩, hr⟩
        exact ⟨c, hc, hr⟩
      · rintro ⟨c, hc, hr⟩
        exact ⟨_, ⟨c, hc, rfl⟩, hr⟩
  · simp only [Servent.Query, h1, h2]
    split
    · intro h; exact absurd rfl h
    · intro _; rfl

end servent

namespace p2p

theorem freeAll_arena (l : List bson.Document) (pc : proto.DocConn) :
    (freeAll pc l).arena.allocs = pc.arena.allocs ∧
    (freeAll pc l).arena.frees = pc.arena.frees + l.length := by
  induction l generalizing pc with
  | nil => simp [freeAll]
  | cons d rest ih =>
    obtain ⟨h1, h2⟩ := ih pc.Free
    simp only [freeAll, List.length_cons]
    rw [h1, h2]
    refine ⟨rfl, ?_⟩
    show pc.arena.frees + 1 + rest.length = pc.arena.frees + (rest.length + 1)
    omega

theorem readMessage_owned (c : Client) (pickClose : Bool) (msg : Option bson.Document)
    (err : Option GoError) (c2 : Client) (h : c.readMessage pickClose = some (msg, err, c2)) :
    c2.pc = c.pc ∧ c2.filemsg = c.filemsg ∧
    ((err = none ∧ c.appmsg.length = c2.appmsg.length + 1) ∨ (err ≠ none ∧ c2 = c)) := by
  unfold Client.readMessage at h
  split at h
  · split at h
    · simp only [Option.some.injEq, Prod.mk.injEq] at h
      obtain ⟨-, rfl, rfl⟩ := h
      simp
    · simp only [Option.some.injEq, Prod.mk.injEq] at h
      obtain ⟨-, rfl, rfl⟩ := h
      rename_i hm _
      simp [hm]
  · split at h
    · simp only [Option.some.injEq, Prod.mk.injEq] at h
      obtain ⟨-, rfl, rfl⟩ := h
      simp
    · exact absurd h (by simp)

end p2p

namespace p2p

theorem reader_round_owned (c c2 : Client) (h : Client.reader.round c = some c2) :
    c2.owned = c.owned := by
  unfold Client.reader.round proto.DocConn.ReadDocument at h
  cases hi : c.pc.inbox with
  | nil =>
    simp only [hi, Option.some.injEq] at h
    subst h
    rfl
  | cons d rest =>
    simp only [hi] at h
    split at h
    · simp only [Option.some.injEq] at h
      subst h
      simp only [Client.owned, proto.DocConn.Free, proto.Arena.Free, proto.Arena.Alloc]
      push_cast
      omega
    · split at h
      · split at h
        · simp only [Option.some.injEq] at h
          subst h
          simp only [Client.owned, proto.Arena.Alloc, List.length_append, List.length_cons,
            List.length_nil]
          push_cast
          omega
        · exact absurd h (by simp)
      · split at h
        · simp only [Option.some.injEq] at h
          subst h
          simp only [Client.owned, proto.Arena.Alloc, List.length_append, List.length_cons,
            List.length_nil]
          push_cast
          omega
        · exact absurd h (by simp)

theorem reader_drain_owned (c : Client) : (Client.reader.drain c).owned = c.owned := by
  obtain ⟨h1, h2⟩ := freeAll_arena c.filemsg (freeAll c.pc c.appmsg)
  obtain ⟨h3, h4⟩ := freeAll_arena c.appmsg c.pc
  simp only [Client.owned, Client.reader.drain, h1, h2, h3, h4, List.length_nil]
  push_cast
  omega

theorem reader_owned (n : Nat) (c c2 : Client) (h : c.reader n = some c2) :
    c2.owned = c.owned := by
  induction n generalizing c with
  | zero =>
    unfold Client.reader at h
    split at h
    · simp only [Option.some.injEq] at h
      subst h
      exact reader_drain_owned c
    · simp only [Option.some.injEq] at h
      subst h
      rfl
  | succ n ih =>
    unfold Client.reader at h
    split at h
    · simp only [Option.some.injEq] at h
      subst h
      exact reader_drain_owned c
    · split at h
      · exact absurd h (by simp)
      · rename_i c1 hr
        rw [ih c1 h]
        exact reader_round_owned c c1 hr

theorem write_owned (c : Client) (doc : Option bson.Document) :
    ({ c with pc := (c.pc.WriteDocument doc).2 } : Client).owned = c.owned := by
  cases doc <;> rfl

theorem taken_owned (c c2 : Client) (pickClose : Bool) (msg : Option bson.Document)
    (h : c.readMessage pickClose = some (msg, none, c2)) :
    ({ c2 with pc := c2.pc.Free } : Client).owned = c.owned := by
  obtain ⟨h1, h2, h3⟩ := readMessage_owned c pickClose msg none c2 h
  rcases h3 with ⟨-, h3⟩ | ⟨h3, -⟩
  · simp only [Client.owned, proto.DocConn.Free, proto.Arena.Free, h1, h2, h3]
    push_cast
    omega
  · exact absurd rfl h3

theorem failed_owned (c c2 : Client) (pickClose : Bool) (msg : Option bson.Document)
    (e : GoError) (h : c.readMessage pickClose = some (msg, some e, c2)) : c2 = c := by
  obtain ⟨-, -, h3⟩ := readMessage_owned c pickClose msg (some e) c2 h
  rcases h3 with ⟨h3, -⟩ | ⟨-, h3⟩
  · exact absurd h3 (by simp)
  · exact h3

theorem step2_owned (c : Client) (pl : bson.Document) (sa : proto.ServerAuth) (pickClose : Bool)
    (r : AuthResult) (h : c.step2 pl sa pickClose = some r) : r.cli.owned = c.owned := by
  unfold Client.step2 at h
  split at h
  · rename_i err pc1 hw
    simp only [Option.some.injEq] at h
    subst h
    have := write_owned c (some (pack [(lit "hs.s2", .document pl)]))
    rw [hw] at this
    exact this
  · rename_i pc1 hw
    have hwo := write_owned c (some (pack [(lit "hs.s2", .document pl)]))
    rw [hw] at hwo
    split at h
    · exact absurd h (by simp)
    · rename_i m e c2 hm
      simp only [Option.some.injEq] at h
      subst h
      rw [failed_owned _ _ _ _ _ hm]
      exact hwo
    · rename_i m c2 hm
      simp only [Option.some.injEq] at h
      subst h
      rw [← hwo]
      exact taken_owned _ _ _ _ hm

theorem step1_owned (E : proto.Crypto) (c : Client) (sa : proto.ServerAuth) (pickClose : Bool)
    (r : Step1Result) (h : c.step1 E sa pickClose = some r) : r.cli.owned = c.owned := by
  unfold Client.step1 at h
  split at h
  · rename_i err pc1 hw
    simp only [Option.some.injEq] at h
    subst h
    have := write_owned c (some (pack [(lit "hs.s1", .string [])]))
    rw [hw] at this
    exact this
  · rename_i pc1 hw
    have hwo := write_owned c (some (pack [(lit "hs.s1", .string [])]))
    rw [hw] at hwo
    split at h
    · exact absurd h (by simp)
    · rename_i m e c2 hm
      simp only [Option.some.injEq] at h
      subst h
      rw [failed_owned _ _ _ _ _ hm]
      exact hwo
    · rename_i m c2 hm
      simp only [Option.some.injEq] at h
      subst h
      rw [← hwo]
      exact taken_owned _ _ _ _ hm

end p2p

namespace p2p

theorem GetFile_owned (c : Client) (tok : Token) (path : Path) (pickClose : Bool)
    (r : Option GoError × Option GoError × Client) (h : c.GetFile tok path pickClose = some r) :
    r.2.2.owned = c.owned := by
  unfold Client.GetFile at h
  simp only at h
  split at h
  · rename_i err pc2 hw
    simp only [Option.some.injEq] at h
    subst h
    have := write_owned { c with toks := c.toks.Put path tok }
      (some (pack [(lit "getfile", .string path.1), (lit "f", .string path.2)]))
    rw [hw] at this
    exact this
  · rename_i pc2 hw
    have hwo := write_owned { c with toks := c.toks.Put path tok }
      (some (pack [(lit "getfile", .string path.1), (lit "f", .string path.2)]))
    rw [hw] at hwo
    have hc : ({ c with toks := c.toks.Put path tok } : Client).owned = c.owned := rfl
    rw [hc] at hwo
    split at h
    · exact absurd h (by simp)
    · rename_i m e c3 hm
      simp only [Option.some.injEq] at h
      subst h
      rw [failed_owned _ _ _ _ _ hm]
      exact hwo
    · rename_i m c3 hm
      have ht := taken_owned _ _ _ _ hm
      rw [hwo] at ht
      split at h
      · simp only [Option.some.injEq] at h
        subst h
        exact ht
      · split at h
        · simp only [Option.some.injEq] at h
          subst h
          exact ht
        · split at h
          · simp only [Option.some.injEq] at h
            subst h
            exact ht
          · simp only [Option.some.injEq] at h
            subst h
            exact ht

theorem handle_frees (T : TargetStore) (c : Client) (w : fileWriter) (msg : bson.Document) :
    (Client.filewriter.handle T c w msg).1.pc = c.pc.Free ∧
    (Client.filewriter.handle T c w msg).1.appmsg = c.appmsg ∧
    (Client.filewriter.handle T c w msg).1.filemsg = c.filemsg := by
  unfold Client.filewriter.handle
  simp only
  split
  · split
    · exact ⟨rfl, rfl, rfl⟩
    · split <;> exact ⟨rfl, rfl, rfl⟩
  · split
    · split
      · exact ⟨rfl, rfl, rfl⟩
      · split <;> exact ⟨rfl, rfl, rfl⟩
    · split
      · split <;> exact ⟨rfl, rfl, rfl⟩
      · exact ⟨rfl, rfl, rfl⟩

theorem getfile_pc (s : Server) (c : connServer) (elems : List bson.Element)
    (err : Option GoError) (r : Option GoError × connServer)
    (h : connServer.getfile s c elems err = some r) : r.2.pc = c.pc := by
  unfold connServer.getfile at h
  simp only at h
  split at h
  · simp only [Option.some.injEq] at h
    subst h
    rfl
  · split at h
    · simp only [Option.some.injEq] at h
      subst h
      rfl
    · split at h
      · simp only [Option.some.injEq] at h
        subst h
        rfl
      · split at h
        · exact absurd h (by simp)
        · simp only [Option.some.injEq] at h
          subst h
          rfl

theorem serveReq_outstanding (E : proto.Crypto) (s : Server) (c : connServer)
    (r : Option GoError × connServer) (h : c.serveReq E s = some r) :
    r.2.pc.arena.outstanding = c.pc.arena.outstanding := by
  unfold connServer.serveReq proto.DocConn.ReadDocument at h
  cases hi : c.pc.inbox with
  | nil =>
    simp only [hi, Option.some.injEq] at h
    subst h
    rfl
  | cons d rest =>
    have hfree : ∀ (pc : proto.DocConn), pc.arena = c.pc.arena.Alloc.Free →
        pc.arena.outstanding = c.pc.arena.outstanding := by
      intro pc hpc
      rw [hpc]
      simp only [proto.Arena.outstanding, proto.Arena.Alloc, proto.Arena.Free]
      push_cast
      omega
    simp only [hi] at h
    split at h
    · simp only [Option.some.injEq] at h
      subst h
      exact hfree _ rfl
    · split at h
      · simp only [Option.some.injEq] at h
        subst h
        exact hfree _ rfl
      · split at h
        · simp only [Option.some.injEq] at h
          subst h
          exact hfree _ rfl
        · split at h
          · rw [getfile_pc _ _ _ _ _ h]
            exact hfree _ rfl
          · simp only [Option.some.injEq] at h
            subst h
            exact hfree _ rfl

end p2p

namespace c2s

theorem WriteDocument_arena (pc : proto.DocConn) (doc : Option bson.Document) :
    (pc.WriteDocument doc).2.arena = pc.arena := by
  cases doc <;> rfl

theorem ReadDocument_arena (pc : proto.DocConn) :
    (pc.ReadDocument.2.1 = none → pc.ReadDocument.2.2.arena = pc.arena.Alloc) ∧
    (pc.ReadDocument.2.1 ≠ none → pc.ReadDocument.2.2.arena = pc.arena) ∧
    pc.ReadDocument.2.2.arena.frees = pc.arena.frees := by
  unfold proto.DocConn.ReadDocument
  cases pc.inbox <;> simp [proto.Arena.Alloc]

theorem WriteDocument_arena_eq (pc : proto.DocConn) (doc : Option bson.Document)
    (r : Option GoError × proto.DocConn) (h : pc.WriteDocument doc = r) :
    r.2.arena = pc.arena := by
  subst h
  exact WriteDocument_arena pc doc

theorem ReadDocument_ok (pc pc1 : proto.DocConn) (d : Option bson.Document)
    (h : pc.ReadDocument = (d, none, pc1)) : pc1.arena = pc.arena.Alloc := by
  have h1 := (ReadDocument_arena pc).1
  rw [h] at h1
  exact h1 rfl

theorem ReadDocument_err (pc pc1 : proto.DocConn) (d : Option bson.Document) (e : GoError)
    (h : pc.ReadDocument = (d, some e, pc1)) : pc1.arena = pc.arena := by
  have h1 := (ReadDocument_arena pc).2.1
  rw [h] at h1
  exact h1 (by simp)

theorem alloc_free_outstanding (a : proto.Arena) : a.Alloc.Free.outstanding = a.outstanding := by
  simp only [proto.Arena.outstanding, proto.Arena.Alloc, proto.Arena.Free]
  push_cast
  omega

theorem server_handshake_outstanding (S : Server) (c : connServer) :
    (c.handshake S).2.pc.arena.outstanding = c.pc.arena.outstanding := by
  unfold connServer.handshake
  split
  · rename_i hr
    show proto.Arena.outstanding (proto.DocConn.arena _) = _
    rw [ReadDocument_err _ _ _ _ hr]
  · rename_i hr
    have h1 := ReadDocument_ok _ _ _ hr
    rename_i pc1
    have h2 : pc1.Free.arena.outstanding = c.pc.arena.outstanding := by
      show pc1.arena.Free.outstanding = _
      rw [h1]
      exact alloc_free_outstanding _
    simp only
    split
    · exact h2
    · split
      · rename_i hw
        have h3 := WriteDocument_arena_eq _ _ _ hw
        show proto.Arena.outstanding (proto.DocConn.arena _) = _
        rw [h3]
        exact h2
      · rename_i hw
        have h3 := WriteDocument_arena_eq _ _ _ hw
        simp only at h3
        split
        · rename_i hr2
          show proto.Arena.outstanding (proto.DocConn.arena _) = _
          rw [ReadDocument_err _ _ _ _ hr2, h3]
          exact h2
        · rename_i hr2
          rename_i pc4
          show pc4.arena.Free.outstanding = _
          rw [ReadDocument_ok _ _ _ hr2, alloc_free_outstanding, h3]
          exact h2

theorem query_pc_arena (S : Server) (c : connServer) (elems : List bson.Element) :
    (c.query S elems).2.pc.arena = c.pc.arena := by
  unfold connServer.query
  split
  · exact WriteDocument_arena _ _
  · simp only
    split
    · rfl
    · exact WriteDocument_arena _ _

theorem server_serve_outstanding (S : Server) (c : connServer) :
    (c.serve S).2.pc.arena.outstanding = c.pc.arena.outstanding := by
  unfold connServer.serve
  split
  · rename_i hr
    show proto.Arena.outstanding (proto.DocConn.arena _) = _
    rw [ReadDocument_err _ _ _ _ hr]
  · rename_i hr
    have h1 := ReadDocument_ok _ _ _ hr
    rename_i pc1
    have h2 : pc1.Free.arena.outstanding = c.pc.arena.outstanding := by
      show pc1.arena.Free.outstanding = _
      rw [h1]
      exact alloc_free_outstanding _
    simp only
    split
    · exact h2
    · exact h2
    · simp only
      split
      · show (pc1.Free.WriteDocument _).2.arena.outstanding = _
        rw [WriteDocument_arena]
        exact h2
      · split
        · exact h2
        · split
          · exact h2
          · split
            · exact h2
            · split
              · rw [query_pc_arena]
                exact h2
              · exact h2

end c2s

namespace c2s

theorem client_handshake_frees (E : proto.Crypto) (c : Client) :
    (Client.handshake E c).2.conn.arena.frees = c.conn.arena.frees := by
  unfold Client.handshake
  split
  · rename_i hw
    show (proto.DocConn.arena _).frees = _
    rw [WriteDocument_arena_eq _ _ _ hw]
  · rename_i hw
    have h1 := WriteDocument_arena_eq _ _ _ hw
    simp only at h1
    split
    · rename_i hr
      show (proto.DocConn.arena _).frees = _
      rw [ReadDocument_err _ _ _ _ hr, h1]
    · rename_i hr
      have h2 := ReadDocument_ok _ _ _ hr
      split
      · show (proto.DocConn.arena _).frees = _
        rw [h2, h1]
        rfl
      · show (proto.DocConn.arena (proto.DocConn.WriteDocument _ _).2).frees = _
        rw [WriteDocument_arena, h2, h1]
        rfl

theorem client_Status_frees (c : Client) :
    c.Status.2.conn.arena.frees = c.conn.arena.frees := by
  unfold Client.Status
  simp only
  split
  · rename_i hw
    show (proto.DocConn.arena _).frees = _
    rw [WriteDocument_arena_eq _ _ _ hw]
  · rename_i hw
    have h1 := WriteDocument_arena_eq _ _ _ hw
    simp only at h1
    split
    · rename_i hr
      show (proto.DocConn.arena _).frees = _
      rw [ReadDocument_err _ _ _ _ hr, h1]
    · rename_i hr
      have h2 := ReadDocument_ok _ _ _ hr
      split
      · show (proto.DocConn.arena _).frees = _
        rw [h2, h1]
        rfl
      · show (proto.DocConn.arena _).frees = _
        rw [h2, h1]
        rfl

theorem client_Query_frees (c : Client) (terms : bson.Document) (max : Int) :
    (c.Query terms max).2.2.conn.arena.frees = c.conn.arena.frees := by
  unfold Client.Query
  simp only
  split
  · rename_i hw
    show (proto.DocConn.arena _).frees = _
    rw [WriteDocument_arena_eq _ _ _ hw]
  · rename_i hw
    have h1 := WriteDocument_arena_eq _ _ _ hw
    simp only at h1
    split
    · rename_i hr
      show (proto.DocConn.arena _).frees = _
      rw [ReadDocument_err _ _ _ _ hr, h1]
    · rename_i hr
      have h2 := ReadDocument_ok _ _ _ hr
      show (proto.DocConn.arena _).frees = _
      rw [h2, h1]
      rfl

theorem write_then_read (pc : proto.DocConn) (doc d : bson.Document) (rest : List bson.Document)
    (hw : pc.werr = none) (hi : pc.inbox = d :: rest) :
    pc.WriteDocument (some doc) = (none, { pc with sent := pc.sent ++ [doc] }) ∧
    ({ pc with sent := pc.sent ++ [doc] } : proto.DocConn).ReadDocument
      = (some d, none, { pc with sent := pc.sent ++ [doc], inbox := rest, arena := pc.arena.Alloc }) := by
  constructor
  · simp only [proto.DocConn.WriteDocument, hw]
  · simp only [proto.DocConn.ReadDocument, hi]

theorem client_handshake_allocs (E : proto.Crypto) (c : Client) (d : bson.Document)
    (rest : List bson.Document) (hw : c.conn.werr = none) (hi : c.conn.inbox = d :: rest) :
    (Client.handshake E c).2.conn.arena.allocs = c.conn.arena.allocs + 1 := by
  obtain ⟨h1, h2⟩ := write_then_read c.conn c.KP.Step1 d rest hw hi
  unfold Client.handshake
  rw [h1]
  simp only [h2]
  split
  · rfl
  · show (proto.DocConn.arena (proto.DocConn.WriteDocument _ _).2).allocs = _
    rw [WriteDocument_arena]
    rfl

theorem client_Status_allocs (c : Client) (d : bson.Document)
    (rest : List bson.Document) (hw : c.conn.werr = none) (hi : c.conn.inbox = d :: rest) :
    c.Status.2.conn.arena.allocs = c.conn.arena.allocs + 1 := by
  obtain ⟨h1, h2⟩ := write_then_read c.conn
    (bson.NewDocumentBuilder.AppendString (lit "ready") []).Build d rest hw hi
  unfold Client.Status
  simp only [h1, h2]
  split <;> rfl

theorem client_Query_allocs (c : Client) (terms : bson.Document) (max : Int) (d : bson.Document)
    (rest : List bson.Document) (hw : c.conn.werr = none) (hi : c.conn.inbox = d :: rest) :
    (c.Query terms max).2.2.conn.arena.allocs = c.conn.arena.allocs + 1 := by
  unfold Client.Query
  simp only
  obtain ⟨h1, h2⟩ := write_then_read c.conn
    (if max > 0 then (bson.NewDocumentBuilder.AppendDocument (lit "query") terms).AppendInt32
        (lit "max") (p2p.toInt32 max)
      else bson.NewDocumentBuilder.AppendDocument (lit "query") terms).Build d rest hw hi
  rw [h1]
  simp only [h2]
  rfl

/-- C20: the c2s client breaks the ownership rule. `Client.handshake`,
`Client.Status` and `Client.Query` never call `Free`, so whenever their request
is written and a reply is read, the reply's buffer stays allocated: the number
of buffers allocated and not freed grows by one (first three parts, and the run
of `Status` on the reply `{status: 2}` at the end). The other session operations
keep the rule: the handshake and `serve` of the c2s server and `serveReq` of the
p2p server free every buffer they read exactly once; the p2p client's reader,
`filewriter` round, `step1`, `step2` and `GetFile` free exactly once each buffer
that is not left in one of its two queues (a `filewriter` round starts with
the message taken from `filemsg`). -/
theorem C20_client_reply_never_freed :
    (∀ (E : proto.Crypto) (c : Client) (d : bson.Document) (rest : List bson.Document),
      c.conn.werr = none → c.conn.inbox = d :: rest →
      (Client.handshake E c).2.conn.arena.allocs = c.conn.arena.allocs + 1 ∧
      (Client.handshake E c).2.conn.arena.frees = c.conn.arena.frees) ∧
    (∀ (c : Client) (d : bson.Document) (rest : List bson.Document),
      c.conn.werr = none → c.conn.inbox = d :: rest →
      c.Status.2.conn.arena.allocs = c.conn.arena.allocs + 1 ∧
      c.Status.2.conn.arena.frees = c.conn.arena.frees) ∧
    (∀ (c : Client) (terms : bson.Document) (max : Int) (d : bson.Document)
        (rest : List bson.Document),
      c.conn.werr = none → c.conn.inbox = d :: rest →
      (c.Query terms max).2.2.conn.arena.allocs = c.conn.arena.allocs + 1 ∧
      (c.Query terms max).2.2.conn.arena.frees = c.conn.arena.frees) ∧
    (∀ (S : Server) (c : connServer),
      (c.handshake S).2.pc.arena.outstanding = c.pc.arena.outstanding ∧
      (c.serve S).2.pc.arena.outstanding = c.pc.arena.outstanding) ∧
    (∀ (E : proto.Crypto) (s : p2p.Server) (c : p2p.connServer) r, c.serveReq E s = some r →
      r.2.pc.arena.outstanding = c.pc.arena.outstanding) ∧
    (∀ (c : p2p.Client) (n : Nat) c2, c.reader n = some c2 → c2.owned = c.owned) ∧
    (∀ (T : p2p.TargetStore) (c : p2p.Client) (w : p2p.fileWriter) (msg : bson.Document),
      (p2p.Client.filewriter.handle T c w msg).1.owned
        = ({ c with filemsg := msg :: c.filemsg } : p2p.Client).owned) ∧
    (∀ (E : proto.Crypto) (c : p2p.Client) sa pick r, c.step1 E sa pick = some r →
      r.cli.owned = c.owned) ∧
    (∀ (c : p2p.Client) pl sa pick r, c.step2 pl sa pick = some r → r.cli.owned = c.owned) ∧
    (∀ (c : p2p.Client) tok path pick r, c.GetFile tok path pick = some r →
      r.2.2.owned = c.owned) ∧
    statusClient.Status.1 = (2, none) ∧
    statusClient.Status.2.conn.arena = { allocs := 1, frees := 0 } := by
  refine ⟨?_, ?_, ?_, ?_, ?_, ?_, ?_, ?_, ?_, ?_, by decide, by decide⟩
  · intro E c d rest hw hi
    exact ⟨client_handshake_allocs E c d rest hw hi, client_handshake_frees E c⟩
  · intro c d rest hw hi
    exact ⟨client_Status_allocs c d rest hw hi, client_Status_frees c⟩
  · intro c terms max d rest hw hi
    exact ⟨client_Query_allocs c terms max d rest hw hi, client_Query_frees c terms max⟩
  · intro S c
    exact ⟨server_handshake_outstanding S c, server_serve_outstanding S c⟩
  · intro E s c r h
    exact p2p.serveReq_outstanding E s c r h
  · intro c n c2 h
    exact p2p.reader_owned n c c2 h
  · intro T c w msg
    obtain ⟨h1, h2, h3⟩ := p2p.handle_frees T c w msg
    simp only [p2p.Client.owned, h1, h2, h3, proto.DocConn.Free, proto.Arena.Free,
      List.length_cons]
    push_cast
    omega
  · intro E c sa pick r h
    exact p2p.step1_owned E c sa pick r h
  · intro c pl sa pick r h
    exact p2p.step2_owned c pl sa pick r h
  · intro c tok path pick r h
    exact p2p.GetFile_owned c tok path pick r h

end c2s

namespace server

theorem verifyPeer_run_accepted :
    verifyPeer proto.toyCrypto peerDial (lit "9999") verifierRand newPeerConnectAuth pendingToken
      c2s.honestClient.Pub 1 false
    = some { p := newPeerConnectAuth.approve (lit "a.onion") c2s.honestClient.Pub
             t := { stat := .Accepted, dom := lit "a.onion" }
             approved := [(lit "a.onion", c2s.honestClient.Pub)]
             closed := true } := by
  decide

theorem verifyPeer_run_wrong_key :
    verifyPeer proto.toyCrypto peerDial (lit "9999") verifierRand newPeerConnectAuth pendingToken
      [5] 1 false
    = some { p := newPeerConnectAuth, t := { stat := .Rejected, dom := lit "a.onion" }
             approved := [], closed := true } := by
  decide

end server

namespace server

theorem done_pending (t : token) (h : t.stat = .Pending) :
    t.done = { stat := .Rejected, dom := t.dom } := by
  simp [token.done, h]

/-- C19: when a run of `verifyPeer` on a pending token finishes, the token keeps
its domain and is no longer pending; it is Accepted exactly when the dial
returned no error and the call of `AuthStep2` returned ok = true with a nil
error, and Rejected otherwise (dial failure, no client, an error of
`AuthStep2`, ok = false); `p.mem.approve(domain, pub)` is called once in the
Accepted case and not at all otherwise. -/
theorem C19_verifyPeer_outcome (E : proto.Crypto)
    (Dial : GoString → Option proto.DocConn × Option GoError) (port : GoString) (rand : Bytes)
    (p : PeerConnectAuth) (t : token) (pub : Bytes) (rounds : Nat) (pickClose : Bool)
    (r : VerifyResult) (hp : t.stat = .Pending)
    (h : verifyPeer E Dial port rand p t pub rounds pickClose = some r) :
    r.t.dom = t.dom ∧ r.t.stat ≠ .Pending ∧
    (r.t.stat = .Accepted ↔
      (Dial (JoinHostPort t.dom port)).2 = none ∧
      ∃ a, verifyPeer.auth E Dial port rand t pub rounds pickClose = some a ∧
        a.ok = true ∧ a.err = none) ∧
    (r.t.stat ≠ .Accepted → r.t.stat = .Rejected ∧ r.approved = [] ∧ r.p = p) ∧
    (r.t.stat = .Accepted → r.approved = [(t.dom, pub)] ∧ r.p = p.approve t.dom pub) := by
  unfold verifyPeer at h
  unfold verifyPeer.auth
  rcases hd : Dial (JoinHostPort t.dom port) with ⟨conn, de⟩
  rw [hd] at h
  cases de with
  | some e =>
    simp only [Option.some.injEq] at h
    subst h
    simp [done_pending t hp]
  | none =>
    cases conn with
    | none =>
      simp only [p2p.ClientContext.NewClient, Option.some.injEq] at h
      subst h
      simp [done_pending t hp]
    | some conn =>
      simp only [p2p.ClientContext.NewClient] at h
      cases hr : (p2p.ClientContext.prepare conn).reader rounds with
      | none =>
        rw [hr] at h
        exact absurd h (by simp)
      | some cli1 =>
        rw [hr] at h
        simp only at h
        cases ha : cli1.AuthStep2 E (proto.newServerAuth rand) pub t.dom pickClose with
        | none =>
          rw [ha] at h
          exact absurd h (by simp)
        | some a =>
          rw [ha] at h
          simp only at h
          split at h
          · rename_i hbad
            simp only [Option.some.injEq] at h
            subst h
            simp only [done_pending t hp, ne_eq, reduceCtorEq, not_false_eq_true, true_and,
              false_iff, not_and, not_exists, Option.some.injEq, forall_true_left,
              and_self, implies_true, and_true, false_implies]
            intro a2 ha2 hok herr
            rw [hr] at ha2
            simp only at ha2
            rw [ha] at ha2
            simp only [Option.some.injEq] at ha2
            subst ha2
            rcases hbad with hb | hb
            · exact hb herr
            · simp [hok] at hb
          · rename_i hgood
            simp only [Option.some.injEq] at h
            subst h
            have hgood2 : a.err = none ∧ a.ok = true := by
              constructor
              · by_contra hne
                exact hgood (Or.inl hne)
              · cases hok : a.ok with
                | true => rfl
                | false => exact absurd (Or.inr (by simp [hok])) hgood
            simp only [token.done, reduceCtorEq, if_false, ne_eq, not_false_eq_true, true_and,
              not_true_eq_false, false_implies, implies_true, and_self, and_true, true_iff]
            refine ⟨a, ?_, hgood2.2, hgood2.1⟩
            rw [hr]
            exact ha

/-- A finished run on a pending token: the peer holds the key it logged in
with, and the token is accepted. -/
theorem C19_verifyPeer_outcome_witness :
    (⟨.Accepted, lit "a.onion"⟩ : token).stat ≠ .Pending ∧
    ((⟨.Accepted, lit "a.onion"⟩ : token).stat = .Accepted →
      [(lit "a.onion", c2s.honestClient.Pub)] = [(pendingToken.dom, c2s.honestClient.Pub)] ∧
      newPeerConnectAuth.approve (lit "a.onion") c2s.honestClient.Pub
        = newPeerConnectAuth.approve pendingToken.dom c2s.honestClient.Pub) :=
  have h := C19_verifyPeer_outcome proto.toyCrypto peerDial (lit "9999") verifierRand
    newPeerConnectAuth pendingToken c2s.honestClient.Pub 1 false
    { p := newPeerConnectAuth.approve (lit "a.onion") c2s.honestClient.Pub
      t := { stat := .Accepted, dom := lit "a.onion" }
      approved := [(lit "a.onion", c2s.honestClient.Pub)]
      closed := true } (by decide) (by decide)
  ⟨h.2.1, h.2.2.2.2⟩

end server

namespace servent

theorem dial_dialed (Dial : GoString → Option proto.DocConn × Option GoError)
    (port : GoString) (s : Servent) (domain : GoString) (race : Option Nat)
    (r : GetClientResult) (h : Servent.GetClient.dial Dial port s domain race = some r) :
    r.s.dialed = s.dialed ++ [server.JoinHostPort domain port] := by
  unfold Servent.GetClient.dial at h
  simp only at h
  split at h
  · simp only [Option.some.injEq] at h
    subst h
    rfl
  · split at h
    · exact absurd h (by simp)
    · simp only [Option.some.injEq] at h
      subst h
      rfl
    · exact absurd h (by simp)
    · split at h
      · simp only [Option.some.injEq] at h
        subst h
        cases race <;> rfl
      · simp only [Option.some.injEq] at h
        subst h
        cases race <;> rfl

theorem cliRem_dialed (s : Servent) (domain : GoString) (raw : Option Nat) :
    (s.cliRem domain raw).dialed = s.dialed := by
  unfold Servent.cliRem
  split <;> rfl

theorem cliRem_evicts (s : Servent) (domain : GoString) :
    (s.cliRem domain (s.clist.lookup domain)).clist.lookup domain = none := by
  unfold Servent.cliRem
  simp only [ne_eq, not_true_eq_false, if_false]
  induction s.clist with
  | nil => rfl
  | cons e rest ih =>
    obtain ⟨k, v⟩ := e
    by_cases hk : k = domain
    · simp only [List.filter, hk, ne_eq, not_true_eq_false, decide_False]
      exact ih
    · have hk2 : (domain == k) = false := by
        simp only [beq_eq_false_iff_ne, ne_eq]
        exact fun h => hk h.symm
      simp only [List.filter, hk, ne_eq, not_false_eq_true, decide_True, List.lookup, hk2]
      exact ih

/-- C14: `GetClient` has the test of the pooled client the wrong way round.
`Client.Alive` answers true once the `alive` channel is closed, so the call
returns the pooled client without dialing exactly when the pool holds an entry
for the domain and that client has been closed; it then returns that closed
client and changes nothing. A pooled client whose session is open is taken out
of the pool and the domain is dialed. With an open client pooled for "a.onion",
the call dials and returns a new client; with a closed one, it returns the
closed client. -/
theorem C14_GetClient_returns_closed_client
    (Dial : GoString → Option proto.DocConn × Option GoError) (port : GoString) (s : Servent)
    (domain : GoString) (race : Option Nat) :
    ((∃ r, Servent.GetClient Dial port s domain race = some r ∧ r.s.dialed = s.dialed) ↔
      ∃ i cli, s.clist.lookup domain = some i ∧ s.clients.get? i = some cli ∧
        cli.aliveClosed = true) ∧
    (∀ i cli, s.clist.lookup domain = some i → s.clients.get? i = some cli →
      cli.aliveClosed = true →
      Servent.GetClient Dial port s domain race = some { cli := some i, err := none, s := s }) ∧
    (∀ i cli, s.clist.lookup domain = some i → s.clients.get? i = some cli →
      cli.aliveClosed = false →
      Servent.GetClient Dial port s domain race
        = Servent.GetClient.dial Dial port (s.cliRem domain (some i)) domain race ∧
      (s.cliRem domain (some i)).clist.lookup domain = none ∧
      ∀ r, Servent.GetClient Dial port s domain race = some r →
        r.s.dialed = s.dialed ++ [server.JoinHostPort domain port]) ∧
    (Servent.GetClient okDial port (poolOf liveClient) (lit "a.onion") none).map
        (fun r => (r.cli, r.s.dialed, r.s.clist))
      = some (some 1, [server.JoinHostPort (lit "a.onion") port], [(lit "a.onion", 1)]) ∧
    Servent.GetClient okDial port (poolOf liveClient.Close) (lit "a.onion") none
      = some { cli := some 0, err := none, s := poolOf liveClient.Close } := by
  have hclosed : ∀ i cli, s.clist.lookup domain = some i → s.clients.get? i = some cli →
      cli.aliveClosed = true →
      Servent.GetClient Dial port s domain race = some { cli := some i, err := none, s := s } := by
    intro i cli hl hc ha
    simp only [Servent.GetClient, hl, Option.some_bind, hc, Option.map_some', p2p.Client.Alive,
      ha, if_true]
  have hopen : ∀ i cli, s.clist.lookup domain = some i → s.clients.get? i = some cli →
      cli.aliveClosed = false →
      Servent.GetClient Dial port s domain race
        = Servent.GetClient.dial Dial port (s.cliRem domain (some i)) domain race := by
    intro i cli hl hc ha
    simp only [Servent.GetClient, hl, Option.some_bind, hc, Option.map_some', p2p.Client.Alive,
      ha, Bool.false_eq_true, if_false]
  refine ⟨⟨?_, ?_⟩, hclosed, ?_, ?_, ?_⟩
  · rintro ⟨r, hr, hd⟩
    cases hl : s.clist.lookup domain with
    | none =>
      simp only [Servent.GetClient, hl, Option.none_bind] at hr
      have := dial_dialed _ _ _ _ _ _ hr
      rw [hd] at this
      simp at this
    | some i =>
      cases hc : s.clients.get? i with
      | none =>
        simp only [Servent.GetClient, hl, Option.some_bind, hc, Option.map_none'] at hr
        have := dial_dialed _ _ _ _ _ _ hr
        rw [hd] at this
        simp at this
      | some cli =>
        cases ha : cli.aliveClosed with
        | true => exact ⟨i, cli, rfl, hc, ha⟩
        | false =>
          rw [hopen i cli hl hc ha] at hr
          have := dial_dialed _ _ _ _ _ _ hr
          rw [cliRem_dialed, hd] at this
          simp at this
  · rintro ⟨i, cli, hl, hc, ha⟩
    exact ⟨_, hclosed i cli hl hc ha, rfl⟩
  · intro i cli hl hc ha
    refine ⟨hopen i cli hl hc ha, ?_, ?_⟩
    · rw [← hl]
      exact cliRem_evicts s domain
    · intro r hr
      rw [hopen i cli hl hc ha] at hr
      have := dial_dialed _ _ _ _ _ _ hr
      rw [cliRem_dialed] at this
      exact this
  · rfl
  · rfl

end servent

namespace proto

theorem ReadDocument_none_of_not_wellFormed (doc : Bytes) (h : ¬ bson.WellFormed doc) :
    bson.ReadDocument doc = none := by
  unfold bson.ReadDocument bson.ReadLength
  cases hr : bson.readi32 doc with
  | none => rfl
  | some lr =>
    obtain ⟨l, rest⟩ := lr
    simp only
    by_cases hneg : l < 0
    · rw [if_pos hneg]
    · rw [if_neg hneg]
      simp only
      have hne : ¬ l = (doc.length : Int) := fun hl => h ⟨rest, by rw [hr, hl]⟩
      rw [if_neg hne]

/-- C21: for every buffer whose 4-byte little-endian length prefix does not
equal the buffer's length (the buffer is too short to hold a prefix, or is
shorter or longer than the prefix says), `WriteDocument` makes no `Write` call
and returns nil; for a buffer whose prefix equals its length it makes one
`Write` call with the whole buffer and returns the error of that call. -/
theorem C21_WriteDocument_skips_mismatch (c : Conn) (doc : Bytes) :
    (¬ bson.WellFormed doc → c.WriteDocument doc = (none, c)) ∧
    (bson.readi32 doc = none → c.WriteDocument doc = (none, c)) ∧
    (∀ l rest, bson.readi32 doc = some (l, rest) → l ≠ (doc.length : Int) →
      c.WriteDocument doc = (none, c)) ∧
    (bson.WellFormed doc →
      c.WriteDocument doc
        = (c.conn.werr, { c with conn := { c.conn with writes := c.conn.writes ++ [doc] } })) ∧
    freshConn.WriteDocument longerBuffer = (none, freshConn) := by
  have hskip : ¬ bson.WellFormed doc → c.WriteDocument doc = (none, c) := by
    intro h
    simp only [Conn.WriteDocument, ReadDocument_none_of_not_wellFormed doc h]
  refine ⟨hskip, ?_, ?_, ?_, by decide⟩
  · intro h
    apply hskip
    rintro ⟨rest, hr⟩
    rw [h] at hr
    exact absurd hr (by simp)
  · intro l rest h hne
    apply hskip
    rintro ⟨rest2, hr⟩
    rw [h] at hr
    simp only [Option.some.injEq, Prod.mk.injEq] at hr
    exact hne hr.1
  · intro h
    exact WriteDocument_of_wellFormed c doc h

end proto

namespace proto

theorem Lookup_not_binary (d : bson.Document) (key : GoString)
    (h : ∀ e ∈ d.elems, e.1 = key → e.2.BinaryOK.2.2 = false) :
    (bson.Lookup (some d) key).BinaryOK.2.2 = false := by
  simp only [bson.Lookup, bson.Document.Lookup]
  cases hf : d.elems.find? (fun e => e.1 == key) with
  | none => rfl
  | some e =>
    have hm := List.mem_of_find?_eq_some hf
    have hk := List.find?_some hf
    simp only [beq_iff_eq] at hk
    exact h e hm hk

theorem Lookup_not_string (d : bson.Document) (key : GoString)
    (h : ∀ e ∈ d.elems, e.1 = key → e.2.StringValueOK.2 = false) :
    (bson.Lookup (some d) key).StringValueOK.2 = false := by
  simp only [bson.Lookup, bson.Document.Lookup]
  cases hf : d.elems.find? (fun e => e.1 == key) with
  | none => rfl
  | some e =>
    have hm := List.mem_of_find?_eq_some hf
    have hk := List.find?_some hf
    simp only [beq_iff_eq] at hk
    exact h e hm hk

theorem Step1_none (E : Crypto) (sa : ServerAuth) (doc : Option bson.Document)
    (h : (bson.Lookup doc (lit "login")).BinaryOK.2.2 = false ∨
      (bson.Lookup doc (lit "domain")).StringValueOK.2 = false ∨
      E.curve.Unmarshal (bson.Lookup doc (lit "login")).BinaryOK.2.1 = none) :
    (sa.Step1 E doc).1 = none := by
  unfold ServerAuth.Step1
  split
  · rfl
  · simp only
    split
    · rfl
    · rename_i hok
      simp only [Bool.not_eq_true, Bool.not_eq_false', Bool.and_eq_true] at hok
      rcases h with h | h | h
      · rw [hok.1] at h
        exact absurd h (by simp)
      · rw [hok.2] at h
        exact absurd h (by simp)
      · simp only [Handshake, bdup_eq, h]

theorem KeyPair_Step2_none (E : Crypto) (kp : KeyPair) (resp : Option bson.Document)
    (h : E.curve.Unmarshal (bson.Lookup resp (lit "chal")).BinaryOK.2.1 = none) :
    kp.Step2 E resp = none := by
  simp only [KeyPair.Step2, Handshake, h]

theorem BinaryOK_data_of_not_ok (v : bson.Value) (h : v.BinaryOK.2.2 = false) :
    v.BinaryOK.2.1 = [] := by
  cases v <;> simp_all [bson.Value.BinaryOK]

end proto

namespace c2s

theorem server_handshake_eCryptoError (S : Server) (c : connServer) (d : bson.Document)
    (rest : List bson.Document) (hi : c.pc.inbox = d :: rest)
    (h : (c.sa.Step1 S.E (some d)).1 = none) :
    (c.handshake S).1 = some .eCryptoError := by
  simp only [connServer.handshake, proto.DocConn.ReadDocument, hi, h]

theorem client_handshake_eCryptoError (E : proto.Crypto) (c : Client) (d : bson.Document)
    (rest : List bson.Document) (hw : c.conn.werr = none) (hi : c.conn.inbox = d :: rest)
    (h : c.KP.Step2 E (some d) = none) :
    (Client.handshake E c).1 = some .eCryptoError := by
  obtain ⟨h1, h2⟩ := write_then_read c.conn c.KP.Step1 d rest hw hi
  unfold Client.handshake
  rw [h1]
  simp only [h2, h]

/-- C22: with a curve whose `Unmarshal` refuses the empty encoding (as P-256
does), `ServerAuth.Step1` returns nil whenever the first "login" element of the
login document is missing or not binary, the first "domain" element is missing
or not a string, or the login bytes are not an encoded point; `KeyPair.Step2`
returns nil whenever the first "chal" element of the response is missing or not
binary, or its bytes are not an encoded point. The handshake of the c2s server
then returns `eCryptoError` for the login document it read, and the handshake
of the c2s client returns `eCryptoError` for the response it read. -/
theorem C22_handshake_failure_modes (E : proto.Crypto) (hE : E.curve.Unmarshal [] = none) :
    (∀ (sa : proto.ServerAuth) (doc : Option bson.Document),
      ((bson.Lookup doc (lit "login")).BinaryOK.2.2 = false ∨
        (bson.Lookup doc (lit "domain")).StringValueOK.2 = false ∨
        E.curve.Unmarshal (bson.Lookup doc (lit "login")).BinaryOK.2.1 = none) →
      (sa.Step1 E doc).1 = none) ∧
    (∀ (kp : proto.KeyPair) (resp : Option bson.Document),
      ((bson.Lookup resp (lit "chal")).BinaryOK.2.2 = false ∨
        E.curve.Unmarshal (bson.Lookup resp (lit "chal")).BinaryOK.2.1 = none) →
      kp.Step2 E resp = none) ∧
    (∀ (d : bson.Document) (key : GoString),
      ((∀ e ∈ d.elems, e.1 = key → e.2.BinaryOK.2.2 = false) →
        (bson.Lookup (some d) key).BinaryOK.2.2 = false) ∧
      ((∀ e ∈ d.elems, e.1 = key → e.2.StringValueOK.2 = false) →
        (bson.Lookup (some d) key).StringValueOK.2 = false)) ∧
    (∀ (S : Server) (c : connServer) (d : bson.Document) (rest : List bson.Document),
      S.E = E → c.pc.inbox = d :: rest →
      ((bson.Lookup (some d) (lit "login")).BinaryOK.2.2 = false ∨
        (bson.Lookup (some d) (lit "domain")).StringValueOK.2 = false ∨
        E.curve.Unmarshal (bson.Lookup (some d) (lit "login")).BinaryOK.2.1 = none) →
      (c.handshake S).1 = some .eCryptoError) ∧
    (∀ (c : Client) (d : bson.Document) (rest : List bson.Document),
      c.conn.werr = none → c.conn.inbox = d :: rest →
      ((bson.Lookup (some d) (lit "chal")).BinaryOK.2.2 = false ∨
        E.curve.Unmarshal (bson.Lookup (some d) (lit "chal")).BinaryOK.2.1 = none) →
      (Client.handshake E c).1 = some .eCryptoError) := by
  have hstep2 : ∀ (kp : proto.KeyPair) (resp : Option bson.Document),
      ((bson.Lookup resp (lit "chal")).BinaryOK.2.2 = false ∨
        E.curve.Unmarshal (bson.Lookup resp (lit "chal")).BinaryOK.2.1 = none) →
      kp.Step2 E resp = none := by
    intro kp resp h
    apply proto.KeyPair_Step2_none
    rcases h with h | h
    · rw [proto.BinaryOK_data_of_not_ok _ h]
      exact hE
    · exact h
  refine ⟨fun sa doc h => proto.Step1_none E sa doc h, hstep2, ?_, ?_, ?_⟩
  · intro d key
    exact ⟨proto.Lookup_not_binary d key, proto.Lookup_not_string d key⟩
  · intro S c d rest hS hi h
    subst hS
    exact server_handshake_eCryptoError S c d rest hi (proto.Step1_none S.E c.sa (some d) h)
  · intro c d rest hw hi h
    exact client_handshake_eCryptoError E c d rest hw hi (hstep2 c.KP (some d) h)

/-- On P-256 a login document without a "login" element gets no challenge. -/
theorem C22_handshake_failure_modes_witness :
    P256.curve.Unmarshal [] = none ∧
    ((proto.newServerAuth (List.replicate 32 1)).Step1 proto.p256Crypto
      (some (bson.NewDocumentBuilder.AppendString (lit "domain") (lit "a.onion")).Build)).1
      = none :=
  ⟨by decide,
   (C22_handshake_failure_modes proto.p256Crypto (by decide)).1 _ _ (Or.inl (by decide))⟩

end c2s

namespace p2p

theorem step2_err_ok (c : Client) (pl : bson.Document) (sa : proto.ServerAuth) (pick : Bool)
    (a : AuthResult) (h : c.step2 pl sa pick = some a) (he : a.err ≠ none) : a.ok = false := by
  unfold Client.step2 at h
  split at h
  · simp only [Option.some.injEq] at h
    subst h
    rfl
  · split at h
    · exact absurd h (by simp)
    · simp only [Option.some.injEq] at h
      subst h
      rfl
    · simp only [Option.some.injEq] at h
      subst h
      exact absurd rfl he

theorem step2_sent (c : Client) (pl : bson.Document) (sa : proto.ServerAuth) (pick : Bool)
    (a : AuthResult) (h : c.step2 pl sa pick = some a) :
    a.cli.pc.sent = c.pc.sent ++ [pack [(lit "hs.s2", .document pl)]] := by
  unfold Client.step2 at h
  have hw : (c.pc.WriteDocument (some (pack [(lit "hs.s2", .document pl)]))).2.sent
      = c.pc.sent ++ [pack [(lit "hs.s2", .document pl)]] := rfl
  split at h
  · rename_i heq
    rw [heq] at hw
    simp only [Option.some.injEq] at h
    subst h
    exact hw
  · rename_i heq
    rw [heq] at hw
    simp only at hw
    split at h
    · exact absurd h (by simp)
    · rename_i hm
      simp only [Option.some.injEq] at h
      subst h
      rw [failed_owned _ _ _ _ _ hm]
      exact hw
    · rename_i hm
      simp only [Option.some.injEq] at h
      subst h
      obtain ⟨hpc, -, -⟩ := readMessage_owned _ _ _ _ _ hm
      show (proto.DocConn.Free _).sent = _
      simp only [proto.DocConn.Free, hpc]
      exact hw

/-- C29: when `OnePassPrep(pub, dom)` returns nil, as it does when `pub` is not
an encoded point, `AuthStep2` returns ok = true with `ECryptoError` and leaves
the client as it was (nothing is written); when it returns a document, the
`hs.s2` request is written and a non-nil error comes with ok = false.
`Authenticate` returns ok = true with `ECryptoError` when `step1` returns no
error and no challenge, ok = false with the error of `step1` when it fails, and
otherwise what `step2` returns, where a non-nil error comes with ok = false. -/
theorem C29_ok_true_with_ECryptoError (E : proto.Crypto) (c : Client) (sa : proto.ServerAuth)
    (pub : Bytes) (dom : GoString) (pick1 pick2 : Bool) :
    ((sa.OnePassPrep E pub dom).1 = none →
      c.AuthStep2 E sa pub dom pick1
        = some { ok := true, err := some .ECryptoError, sa := (sa.OnePassPrep E pub dom).2,
                 cli := c }) ∧
    (E.curve.Unmarshal pub = none → (sa.OnePassPrep E pub dom).1 = none) ∧
    (∀ a, (sa.OnePassPrep E pub dom).1 ≠ none → c.AuthStep2 E sa pub dom pick1 = some a →
      a.cli.pc.sent.length = c.pc.sent.length + 1 ∧ (a.err ≠ none → a.ok = false)) ∧
    (∀ r, c.step1 E sa pick1 = some r → r.err = none → r.pl = none →
      c.Authenticate E sa pick1 pick2
        = some { ok := true, err := some .ECryptoError, sa := r.sa, cli := r.cli }) ∧
    (∀ r a, c.step1 E sa pick1 = some r → ¬ (r.err = none ∧ r.pl = none) →
      c.Authenticate E sa pick1 pick2 = some a → a.err ≠ none → a.ok = false) := by
  refine ⟨?_, ?_, ?_, ?_, ?_⟩
  · intro h
    unfold Client.AuthStep2
    split
    · rename_i sa1 heq
      rw [heq]
    · rename_i pl sa1 heq
      rw [heq] at h
      exact absurd h (by simp)
  · intro h
    unfold proto.ServerAuth.OnePassPrep
    apply proto.Step1_none
    right
    right
    exact h
  · intro a hne ha
    unfold Client.AuthStep2 at ha
    split at ha
    · rename_i sa1 heq
      rw [heq] at hne
      exact absurd rfl hne
    · rename_i pl sa1 heq
      refine ⟨?_, step2_err_ok c pl sa1 pick1 a ha⟩
      rw [step2_sent c pl sa1 pick1 a ha]
      simp
  · intro r hr he hp
    unfold Client.Authenticate
    rw [hr]
    simp only
    split
    · rename_i e heq
      rw [he] at heq
      exact absurd heq (by simp)
    · rfl
    · rename_i pl _ heq
      rw [hp] at heq
      exact absurd heq (by simp)
  · intro r a hr hnot ha he
    unfold Client.Authenticate at ha
    rw [hr] at ha
    simp only at ha
    split at ha
    · simp only [Option.some.injEq] at ha
      subst ha
      rfl
    · rename_i h1 h2
      exact absurd ⟨h1, h2⟩ hnot
    · exact step2_err_ok _ _ _ _ a ha he

end p2p

namespace servent

/-- C24: a tick in a state other than Pending does nothing. A tick in the state
Pending whose poll fails makes the supervisor exit; when the poll succeeds the
polled status is stored, the supervisor exits if it is Rejected, and for every
other polled status it sets commit = true and launches the full-inventory
publish. That includes a polled status that is still Pending: the state does
not stay as it was, commit becomes true and the inventory is published. -/
theorem C24_pending_poll_launches_publish (s : serverConn) :
    (s.status ≠ c2s.Status.Pending.toInt32 →
      serverConn.serve.tick s = { s := s, exit := false, sendAll := false }) ∧
    (s.status = c2s.Status.Pending.toInt32 → ∀ v e cli, s.cli.Status = ((v, some e), cli) →
      serverConn.serve.tick s = { s := { s with cli := cli }, exit := true, sendAll := false }) ∧
    (s.status = c2s.Status.Pending.toInt32 → ∀ v cli, s.cli.Status = ((v, none), cli) →
      (v = c2s.Status.Rejected.toInt32 →
        serverConn.serve.tick s
          = { s := { s with cli := cli, status := v }, exit := true, sendAll := false }) ∧
      (v ≠ c2s.Status.Rejected.toInt32 →
        serverConn.serve.tick s
          = { s := { s with cli := cli, status := v, commit := true }, exit := false,
              sendAll := true })) ∧
    (pendingSession 0).cli.Status.1 = (c2s.Status.Pending.toInt32, none) ∧
    (serverConn.serve.tick (pendingSession 0)).s.status = c2s.Status.Pending.toInt32 ∧
    (serverConn.serve.tick (pendingSession 0)).s.commit = true ∧
    (serverConn.serve.tick (pendingSession 0)).sendAll = true ∧
    (serverConn.serve.tick (pendingSession 0)).exit = false := by
  refine ⟨?_, ?_, ?_, by decide, by decide, by decide, by decide, by decide⟩
  · intro h
    simp only [serverConn.serve.tick, h, ne_eq, not_false_eq_true, if_true]
  · intro h v e cli hs
    simp only [serverConn.serve.tick, h, ne_eq, not_true_eq_false, if_false, hs]
  · intro h v cli hs
    constructor
    · intro hv
      simp only [serverConn.serve.tick, h, ne_eq, not_true_eq_false, if_false, hs, hv, if_true]
    · intro hv
      simp only [serverConn.serve.tick, h, ne_eq, not_true_eq_false, if_false, hs, hv]

end servent

namespace servent

theorem sendAll_files_inv (mda : Option MetadataAdapter) (dir : GoString)
    (files : List GoString) (st : SendState)
    (hd : st.docs.length < batchCap) (hc : ∀ b ∈ st.calls, b.length = batchCap) :
    (serverConn.sendAll.files mda dir files st).docs.length < batchCap ∧
    (∀ b ∈ (serverConn.sendAll.files mda dir files st).calls, b.length = batchCap) ∧
    (serverConn.sendAll.files mda dir files st).calls.flatten
        ++ (serverConn.sendAll.files mda dir files st).docs
      = st.calls.flatten ++ st.docs ++ files.map (fun file => docFor mda (dir, file)) := by
  induction files generalizing st with
  | nil => exact ⟨hd, hc, by simp [serverConn.sendAll.files]⟩
  | cons file rest ih =>
    unfold serverConn.sendAll.files
    simp only
    split
    · rename_i hlt
      obtain ⟨h1, h2, h3⟩ := ih { st with docs := st.docs ++ [docFor mda (dir, file)] } hlt hc
      refine ⟨h1, h2, ?_⟩
      rw [h3]
      simp
    · rename_i hge
      have hlen : (st.docs ++ [docFor mda (dir, file)]).length = batchCap := by
        simp only [List.length_append, List.length_cons, List.length_nil] at hge ⊢
        omega
      obtain ⟨h1, h2, h3⟩ := ih
        { docs := [], cli := (st.cli.Publish (st.docs ++ [docFor mda (dir, file)])).2,
          calls := st.calls ++ [st.docs ++ [docFor mda (dir, file)]] }
        (by simp [batchCap])
        (by
          intro b hb
          simp only [List.mem_append, List.mem_singleton] at hb
          rcases hb with hb | hb
          · exact hc b hb
          · rw [hb]; exact hlen)
      refine ⟨h1, h2, ?_⟩
      rw [h3]
      simp

theorem sendAll_dirs_inv (fs : FileSystemEx) (mda : Option MetadataAdapter)
    (dirs : List GoString) (st : SendState)
    (hd : st.docs.length < batchCap) (hc : ∀ b ∈ st.calls, b.length = batchCap) :
    (serverConn.sendAll.dirs fs mda dirs st).docs.length < batchCap ∧
    (∀ b ∈ (serverConn.sendAll.dirs fs mda dirs st).calls, b.length = batchCap) ∧
    (serverConn.sendAll.dirs fs mda dirs st).calls.flatten
        ++ (serverConn.sendAll.dirs fs mda dirs st).docs
      = st.calls.flatten ++ st.docs
        ++ (dirs.map (fun dir =>
              (fs.Files dir).1.map (fun file => docFor mda (dir, file)))).flatten := by
  induction dirs generalizing st with
  | nil => exact ⟨hd, hc, by simp [serverConn.sendAll.dirs]⟩
  | cons dir rest ih =>
    unfold serverConn.sendAll.dirs
    obtain ⟨f1, f2, f3⟩ := sendAll_files_inv mda dir (fs.Files dir).1 st hd hc
    obtain ⟨h1, h2, h3⟩ := ih (serverConn.sendAll.files mda dir (fs.Files dir).1 st) f1 f2
    refine ⟨h1, h2, ?_⟩
    rw [h3, f3]
    simp

/-- C25: `sendAll` calls `Publish` with batches of at least 1 and at most 512
documents (every batch but the last has 512), and the batches, put together in
the order of the calls, are one document per (directory, file) pair in the order
of the enumeration: the adapter's document, or the minimal `{_, f}` document
when there is no adapter, when it returns an error or when it returns no
document. `commit` is false afterwards. -/
theorem C25_sendAll_batches (fs : FileSystemEx) (mda : Option MetadataAdapter)
    (s : serverConn) :
    (s.sendAll fs mda).2.flatten = inventory fs mda ∧
    (∀ b ∈ (s.sendAll fs mda).2, 1 ≤ b.length ∧ b.length ≤ 512) ∧
    (∀ b ∈ (s.sendAll fs mda).2.dropLast, b.length = 512) ∧
    (s.sendAll fs mda).1.commit = false ∧
    (∀ pth, docFor none pth = minimalDoc pth) ∧
    (∀ (g : MetadataAdapter) pth, (g pth).2 ≠ none → docFor (some g) pth = minimalDoc pth) ∧
    (∀ (g : MetadataAdapter) pth, g pth = (none, none) → docFor (some g) pth = minimalDoc pth) ∧
    (∀ (g : MetadataAdapter) pth d, g pth = (some d, none) → docFor (some g) pth = d) := by
  obtain ⟨h1, h2, h3⟩ := sendAll_dirs_inv fs mda fs.Dirs
    { docs := [], cli := s.cli, calls := [] } (by simp [batchCap]) (by simp)
  simp only [List.flatten_nil, List.append_nil, List.nil_append] at h3
  refine ⟨?_, ?_, ?_, rfl, fun _ => rfl, ?_, ?_, ?_⟩
  · unfold serverConn.sendAll inventory
    simp only
    split
    · simp only [List.flatten_append, List.flatten_cons, List.flatten_nil, List.append_nil]
      exact h3
    · rename_i hz
      have hnil : (serverConn.sendAll.dirs fs mda fs.Dirs
          { docs := [], cli := s.cli, calls := [] }).docs = [] :=
        List.length_eq_zero.mp (by omega)
      rw [hnil, List.append_nil] at h3
      exact h3
  · intro b hb
    unfold serverConn.sendAll at hb
    simp only at hb
    split at hb
    · rename_i hpos
      simp only [List.mem_append, List.mem_singleton] at hb
      rcases hb with hb | hb
      · have := h2 b hb
        simp only [batchCap] at this
        omega
      · rw [hb]
        simp only [batchCap] at h1
        omega
    · have := h2 b hb
      simp only [batchCap] at this
      omega
  · intro b hb
    unfold serverConn.sendAll at hb
    simp only at hb
    split at hb
    · rw [List.dropLast_concat] at hb
      exact h2 b hb
    · exact h2 b (List.mem_of_mem_dropLast hb)
  · intro g pth h
    simp only [docFor, h, ne_eq, not_false_eq_true, if_true]
  · intro g pth h
    simp only [docFor, h, ne_eq, not_true_eq_false, if_false]
  · intro g pth d h
    simp only [docFor, h, ne_eq, not_true_eq_false, if_false]

end servent

namespace ftse

theorem lookup_mapPut_self {α : Type} (mp : List (GoString × α)) (k : GoString) (v : α) :
    (mapPut mp k v).lookup k = some v := by
  induction mp with
  | nil => simp [mapPut, List.lookup]
  | cons e rest ih =>
    obtain ⟨k1, v1⟩ := e
    unfold mapPut
    split
    · simp [List.lookup]
    · rename_i hne
      have hb : (k == k1) = false := by
        simp only [beq_eq_false_iff_ne, ne_eq]
        exact fun h => hne h.symm
      simp only [List.lookup, hb]
      exact ih

theorem lookup_mapPut_ne {α : Type} (mp : List (GoString × α)) (k k2 : GoString) (v : α)
    (h : k2 ≠ k) : (mapPut mp k v).lookup k2 = mp.lookup k2 := by
  induction mp with
  | nil =>
    have hb : (k2 == k) = false := by simpa using h
    simp [mapPut, List.lookup, hb]
  | cons e rest ih =>
    obtain ⟨k1, v1⟩ := e
    unfold mapPut
    split
    · rename_i heq
      subst heq
      have hb : (k2 == k1) = false := by simpa using h
      simp [List.lookup, hb]
    · cases hb : (k2 == k1) with
      | true => simp [List.lookup, hb]
      | false =>
        simp only [List.lookup, hb]
        exact ih

/-- C26: the registry invariant does not hold. When `PutTrack` appends a new
slot (the path is not registered and no slot is free) it registers the path
under slot 0, not under the slot it appends. After `PutTrack` of "a" and of "b"
from the empty index both keys map to slot 0 and the path stored in the slot of
"b" is "a"; after `DelTrack` of "b", slot 0 is in the free set although "a" is
still registered there. -/
theorem C26_append_registers_slot_zero (m : MemDir) (path : Path) (keys : List GoString)
    (doc : Option bson.Document) :
    (m.f.lookup (pathKey path) = none → (m.z = none ∨ m.z = some []) →
      ∃ m1, m.PutTrack path keys doc = some m1 ∧ m1.f.lookup (pathKey path) = some 0 ∧
        m1.p = m.p ++ [path] ∧ m1.s = m.s ++ [keys]) ∧
    twoPuts.map (fun m => (m.f, m.p))
      = some ([(pathKey (pathOf (lit "a")), 0), (pathKey (pathOf (lit "b")), 0)],
              [pathOf (lit "a"), pathOf (lit "b")]) ∧
    twoPuts.map (fun m => ((m.DelTrack (pathOf (lit "b"))).f, (m.DelTrack (pathOf (lit "b"))).z))
      = some ([(pathKey (pathOf (lit "a")), 0)], some [0]) := by
  refine ⟨?_, by decide, by decide⟩
  intro hf hz
  have hlt : m.s.length % 4294967296 < (m.s ++ [keys]).length := by
    have := Nat.mod_le m.s.length 4294967296
    simp only [List.length_append, List.length_cons, List.length_nil]
    omega
  have halloc : m.prepare.alloc = ((0, false), m.prepare) := by
    rcases hz with hz | hz <;> simp [MemDir.prepare, MemDir.alloc, hz]
  have hf2 : m.prepare.f.lookup (pathKey path) = none := hf
  have hput : m.PutTrack path keys doc
      = some { f := mapPut m.f (pathKey path) 0
               i := MemDir.PutTrack.index (m.s.length % 4294967296)
                 ((m.s ++ [keys]).getD (m.s.length % 4294967296) []) m.i
               z := some (m.z.getD [])
               s := m.s ++ [keys], p := m.p ++ [path], b := m.b ++ [doc] } := by
    simp only [MemDir.PutTrack, hf2, halloc]
    split
    · rfl
    · rename_i hn
      exact absurd hlt hn
  exact ⟨_, hput, lookup_mapPut_self _ _ _, rfl, rfl⟩

/-- C27: the bitmaps do not stay in step with the stored keyword lists. After
`PutTrack` of "a" and "b", `DelTrack` of "b", `PutTrack` of "a" again and
`PutTrack` of "c" (each with one keyword of its own), slot 0 is in the bitmap of
the keyword of "a" while the keyword list stored for slot 0 is that of "c", and
`Lookup` of the keyword of "a" returns the path and document of "c". Lookup
does return nothing when a key has no bitmap. -/
theorem C27_bitmap_of_reused_slot :
    reusedSlot.map (fun m => (m.i.lookup (lit "ka"), m.s.getD 0 []))
      = some (some [0], [lit "kc"]) ∧
    reusedSlot.map (fun m => m.Lookup [lit "ka"] 1024)
      = some [{ Path := pathOf (lit "c"), Meta := some (fileDoc (lit "g") (lit "c")) }] ∧
    (∀ (m : MemDir) (keys : List GoString) (max : Int),
      (∃ k ∈ keys, m.i.lookup k = none) → m.Lookup keys max = []) := by
  refine ⟨by decide, by decide, ?_⟩
  intro m keys max h
  have hb : MemDir.Lookup.bitmaps m.i keys = none := by
    induction keys with
    | nil =>
      obtain ⟨k, hk, _⟩ := h
      exact absurd hk (List.not_mem_nil k)
    | cons key rest ih =>
      unfold MemDir.Lookup.bitmaps
      cases hl : m.i.lookup key with
      | none => rfl
      | some b =>
        obtain ⟨k, hk, hn⟩ := h
        simp only [List.mem_cons] at hk
        rcases hk with hk | hk
        · rw [hk, hl] at hn
          exact absurd hn (by simp)
        · simp only [ih ⟨k, hk, hn⟩, Option.map_none']
  simp only [MemDir.Lookup, hb]

end ftse

namespace ftse

theorem mem_mapPut {α : Type} (mp : List (GoString × α)) (k : GoString) (v : α)
    (kv : GoString × α) (h : kv ∈ mapPut mp k v) : kv = (k, v) ∨ kv ∈ mp := by
  induction mp with
  | nil =>
    simp only [mapPut, List.mem_singleton] at h
    exact Or.inl h
  | cons e rest ih =>
    obtain ⟨k1, v1⟩ := e
    unfold mapPut at h
    split at h
    · simp only [List.mem_cons] at h
      rcases h with h | h
      · exact Or.inl h
      · exact Or.inr (List.mem_cons_of_mem _ h)
    · simp only [List.mem_cons] at h
      rcases h with h | h
      · exact Or.inr (by rw [h]; exact List.mem_cons_self _ _)
      · rcases ih h with h2 | h2
        · exact Or.inl h2
        · exact Or.inr (List.mem_cons_of_mem _ h2)

theorem mem_of_lookup {α : Type} (mp : List (GoString × α)) (k : GoString) (v : α)
    (h : mp.lookup k = some v) : ∃ k1, (k1, v) ∈ mp := by
  induction mp with
  | nil => simp [List.lookup] at h
  | cons e rest ih =>
    obtain ⟨k1, v1⟩ := e
    simp only [List.lookup] at h
    split at h
    · simp only [Option.some.injEq] at h
      subst h
      exact ⟨k1, List.mem_cons_self _ _⟩
    · obtain ⟨k2, h2⟩ := ih h
      exact ⟨k2, List.mem_cons_of_mem _ h2⟩

theorem mem_Bitmap_Add (b : Bitmap) (i x : Nat) : x ∈ Bitmap.Add b i ↔ x = i ∨ x ∈ b := by
  induction b with
  | nil => simp [Bitmap.Add]
  | cons y rest ih =>
    unfold Bitmap.Add
    split
    · simp
    · split
      · rename_i h
        subst h
        simp
      · simp only [List.mem_cons, ih]
        constructor
        · rintro (h | h | h)
          · exact Or.inr (Or.inl h)
          · exact Or.inl h
          · exact Or.inr (Or.inr h)
        · rintro (h | h | h)
          · exact Or.inr (Or.inl h)
          · exact Or.inl h
          · exact Or.inr (Or.inr h)

theorem idel_aligned (m : MemDir) (i : Nat) :
    (m.idel i).s.length = m.s.length ∧ (m.idel i).p.length = m.p.length ∧
    (m.idel i).b = m.b ∧ (m.idel i).f = m.f ∧ (m.idel i).z = m.z := by
  unfold MemDir.idel
  split
  · exact ⟨rfl, rfl, rfl, rfl, rfl⟩
  · simp

theorem Aligned_idel (m : MemDir) (i : Nat) (h : m.Aligned) : (m.idel i).Aligned := by
  obtain ⟨h1, h2, h3, h4, h5⟩ := idel_aligned m i
  obtain ⟨a1, a2, a3, a4⟩ := h
  unfold MemDir.Aligned
  rw [h1, h2, h3, h4, h5]
  exact ⟨a1, a2, a3, a4⟩

theorem Aligned_prepare (m : MemDir) (h : m.Aligned) : m.prepare.Aligned := by
  obtain ⟨a1, a2, a3, a4⟩ := h
  exact ⟨a1, a2, a3, a4⟩

theorem Aligned_release (m : MemDir) (k : GoString) (i : Nat) (h : m.Aligned)
    (hi : i < m.s.length) :
    ({ m with f := mapDel m.f k, z := some (Bitmap.Add (m.z.getD []) i) } : MemDir).Aligned := by
  obtain ⟨a1, a2, a3, a4⟩ := h
  refine ⟨a1, a2, ?_, ?_⟩
  · intro kv hkv
    exact a3 kv (List.mem_of_mem_filter hkv)
  · intro j hj
    simp only [Option.getD_some, mem_Bitmap_Add] at hj
    rcases hj with hj | hj
    · rw [hj]; exact hi
    · exact a4 j hj

theorem Aligned_DelTrack (m : MemDir) (path : Path) (h : m.Aligned) :
    (m.DelTrack path).Aligned := by
  unfold MemDir.DelTrack
  simp only
  split
  · rename_i i hl
    obtain ⟨k1, hk⟩ := mem_of_lookup _ _ _ hl
    have hi : i < m.prepare.s.length := (Aligned_prepare m h).2.2.1 _ hk
    have ha := Aligned_idel m.prepare i (Aligned_prepare m h)
    exact Aligned_release _ _ i ha (by rw [(idel_aligned m.prepare i).1]; exact hi)
  · exact Aligned_prepare m h

theorem Aligned_DelAll_loop (pre : GoString) (es : List (GoString × Nat)) (m : MemDir)
    (h : m.Aligned) (hes : ∀ kv ∈ es, kv.2 < m.s.length) :
    (MemDir.DelAll.loop pre es m).Aligned := by
  induction es generalizing m with
  | nil => exact h
  | cons e rest ih =>
    obtain ⟨p, i⟩ := e
    have hrest : ∀ kv ∈ rest, kv.2 < m.s.length :=
      fun kv hkv => hes kv (List.mem_cons_of_mem _ hkv)
    unfold MemDir.DelAll.loop
    split
    · exact ih m h hrest
    · split
      · exact ih m h hrest
      · have hi : i < m.s.length := hes (p, i) (List.mem_cons_self _ _)
        have hlen := (idel_aligned m i).1
        apply ih
        · exact Aligned_release _ _ i (Aligned_idel m i h) (by rw [hlen]; exact hi)
        · intro kv hkv
          show kv.2 < (m.idel i).s.length
          rw [hlen]
          exact hrest kv hkv

theorem Aligned_DelAll (m : MemDir) (domain : GoString) (h : m.Aligned) :
    (m.DelAll domain).Aligned := by
  unfold MemDir.DelAll
  exact Aligned_DelAll_loop _ _ _ (Aligned_prepare m h) (Aligned_prepare m h).2.2.1

end ftse

namespace ftse

theorem index_lookup (i : Nat) (keys : List GoString) (idx : List (GoString × Bitmap))
    (k : GoString) (h : k ∈ keys ∨ ∃ b, idx.lookup k = some b ∧ i ∈ b) :
    ∃ b, (MemDir.PutTrack.index i keys idx).lookup k = some b ∧ i ∈ b := by
  induction keys generalizing idx with
  | nil =>
    rcases h with h | h
    · exact absurd h (List.not_mem_nil k)
    · exact h
  | cons kw rest ih =>
    unfold MemDir.PutTrack.index
    apply ih
    by_cases hk : k = kw
    · right
      subst hk
      exact ⟨_, lookup_mapPut_self _ _ _, (mem_Bitmap_Add _ _ _).mpr (Or.inl rfl)⟩
    · rcases h with h | h
      · simp only [List.mem_cons] at h
        rcases h with h | h
        · exact absurd h hk
        · exact Or.inl h
      · right
        obtain ⟨b, hb, hi⟩ := h
        exact ⟨b, by rw [lookup_mapPut_ne _ _ _ _ hk]; exact hb, hi⟩

theorem getD_set_self {α : Type} (l : List α) (i : Nat) (a d : α) (h : i < l.length) :
    (l.set i a).getD i d = a := by
  simp [List.getD_eq_getElem?_getD, h]

theorem getD_append_length {α : Type} (l : List α) (a d : α) :
    (l ++ [a]).getD l.length d = a := by
  simp [List.getD_eq_getElem?_getD]

end ftse

namespace ftse

theorem PutTrack_spec (m : MemDir) (path : Path) (keys : List GoString)
    (doc : Option bson.Document) (h : m.Aligned)
    (r : Option MemDir) (hr : m.PutTrack path keys doc = r) :
    ∃ m1 i, r = some m1 ∧ m1.Aligned ∧
      (m.s.length < 4294967295 →
        i < m1.p.length ∧ m1.p.length ≤ m.p.length + 1 ∧
        m1.p.getD i Path.zero = path ∧ m1.b.getD i none = doc ∧
        ∀ k ∈ keys, ∃ b, m1.i.lookup k = some b ∧ i ∈ b) := by
  obtain ⟨a1, a2, a3, a4⟩ := h
  unfold MemDir.PutTrack at hr
  simp only at hr
  cases hl : m.prepare.f.lookup (pathKey path) with
  | some j =>
    rw [hl] at hr
    simp only at hr
    obtain ⟨k1, hk⟩ := mem_of_lookup _ _ _ hl
    have hj : j < m.s.length := a3 _ hk
    obtain ⟨i1, i2, i3, i4, i5⟩ := idel_aligned m.prepare j
    have hs : j < (m.prepare.idel j).s.length := by rw [i1]; exact hj
    have hp : j < (m.prepare.idel j).p.length := by rw [i2]; exact a1 ▸ hj
    have hb : j < (m.prepare.idel j).b.length := by rw [i3]; exact a2 ▸ a1 ▸ hj
    simp only [MemDir.store, hs, hp, hb, and_self, if_true, Option.map_some', List.length_set]
      at hr
    subst hr
    refine ⟨_, j, rfl, ⟨?_, ?_, ?_, ?_⟩, fun _ => ⟨?_, ?_, ?_, ?_, ?_⟩⟩
    · simp only [List.length_set, i1, i2]; exact a1
    · simp only [List.length_set, i2, i3]; exact a2
    · intro kv hkv
      simp only [List.length_set, i1]
      rw [i4] at hkv
      exact a3 kv hkv
    · intro x hx
      simp only [List.length_set, i1]
      rw [i5] at hx
      exact a4 x hx
    · simp only [List.length_set]; exact hp
    · simp only [List.length_set, i2]
      show m.p.length ≤ m.p.length + 1
      omega
    · exact getD_set_self _ _ _ _ hp
    · exact getD_set_self _ _ _ _ hb
    · intro k hk2
      apply index_lookup
      left
      rw [getD_set_self _ _ _ _ hs]
      exact hk2
  | none =>
    rw [hl] at hr
    simp only at hr
    cases hz : m.prepare.z with
    | none => simp [MemDir.prepare] at hz
    | some zs =>
      cases zs with
      | nil =>
        have halloc : m.prepare.alloc = ((0, false), m.prepare) := by
          simp only [MemDir.alloc, hz]
        rw [halloc] at hr
        simp only at hr
        have hcond : m.prepare.s.length % 4294967296 < (m.prepare.s ++ [keys]).length := by
          have := Nat.mod_le m.prepare.s.length 4294967296
          simp only [List.length_append, List.length_cons, List.length_nil]
          omega
        rw [if_pos hcond] at hr
        subst hr
        refine ⟨_, m.s.length, rfl, ⟨?_, ?_, ?_, ?_⟩, fun hlen => ?_⟩
        · simp only [List.length_append, List.length_cons, List.length_nil]
          show m.s.length + 1 = m.p.length + 1
          rw [a1]
        · simp only [List.length_append, List.length_cons, List.length_nil]
          show m.p.length + 1 = m.b.length + 1
          rw [a2]
        · intro kv hkv
          simp only [List.length_append, List.length_cons, List.length_nil]
          rcases mem_mapPut _ _ _ _ hkv with h1 | h1
          · rw [h1]
            show 0 < m.s.length + 1
            omega
          · have := a3 kv h1
            show kv.2 < m.s.length + 1
            omega
        · intro x hx
          simp only [List.length_append, List.length_cons, List.length_nil]
          rw [hz] at hx
          exact absurd hx (by simp)
        · have hmod : m.prepare.s.length % 4294967296 = m.s.length :=
            Nat.mod_eq_of_lt (by show m.s.length < 4294967296; omega)
          rw [hmod]
          refine ⟨?_, ?_, ?_, ?_, ?_⟩
          · simp only [List.length_append, List.length_cons, List.length_nil]
            show m.s.length < m.p.length + 1
            omega
          · simp only [List.length_append, List.length_cons, List.length_nil]
            show m.p.length + 1 ≤ m.p.length + 1
            omega
          · show (m.p ++ [path]).getD m.s.length Path.zero = path
            rw [a1]
            exact getD_append_length _ _ _
          · show (m.b ++ [doc]).getD m.s.length none = doc
            rw [a1, a2]
            exact getD_append_length _ _ _
          · intro k hk2
            apply index_lookup
            left
            show k ∈ (m.s ++ [keys]).getD m.s.length []
            rw [getD_append_length]
            exact hk2
      | cons j rest =>
        have halloc : m.prepare.alloc = ((j, true), { m.prepare with z := some rest }) := by
          simp only [MemDir.alloc, hz]
        rw [halloc] at hr
        simp only at hr
        have hjz : j ∈ m.z.getD [] := by
          have : m.prepare.z = some (m.z.getD []) := rfl
          rw [hz] at this
          simp only [Option.some.injEq] at this
          rw [← this]
          exact List.mem_cons_self _ _
        have hj : j < m.s.length := a4 j hjz
        have hs : j < m.prepare.s.length := hj
        have hp : j < m.prepare.p.length := a1 ▸ hj
        have hb : j < m.prepare.b.length := a2 ▸ a1 ▸ hj
        simp only [MemDir.store, hs, hp, hb, and_self, if_true, Option.map_some',
          List.length_set] at hr
        subst hr
        refine ⟨_, j, rfl, ⟨?_, ?_, ?_, ?_⟩, fun _ => ⟨?_, ?_, ?_, ?_, ?_⟩⟩
        · simp only [List.length_set]; exact a1
        · simp only [List.length_set]; exact a2
        · intro kv hkv
          simp only [List.length_set]
          rcases mem_mapPut _ _ _ _ hkv with h1 | h1
          · rw [h1]; exact hj
          · exact a3 kv h1
        · intro x hx
          simp only [List.length_set]
          apply a4
          have : m.prepare.z = some (m.z.getD []) := rfl
          rw [hz] at this
          simp only [Option.some.injEq] at this
          rw [← this]
          exact List.mem_cons_of_mem _ hx
        · simp only [List.length_set]; exact hp
        · simp only [List.length_set]
          show m.p.length ≤ m.p.length + 1
          omega
        · exact getD_set_self _ _ _ _ hp
        · exact getD_set_self _ _ _ _ hb
        · intro k hk2
          apply index_lookup
          left
          rw [getD_set_self _ _ _ _ hs]
          exact hk2

end ftse

namespace ftse

theorem Aligned_empty : MemDir.empty.Aligned := by
  refine ⟨rfl, rfl, ?_, ?_⟩
  · intro kv hkv
    exact absurd hkv (List.not_mem_nil kv)
  · intro j hj
    exact absurd hj (by simp [MemDir.empty])

theorem Aligned_apply (m : MemDir) (op : MemOp) (h : m.Aligned) :
    ∃ m1, m.apply op = some m1 ∧ m1.Aligned := by
  cases op with
  | PutTrack path keys doc =>
    obtain ⟨m1, _, h1, h2, _⟩ := PutTrack_spec m path keys doc h _ rfl
    exact ⟨m1, h1, h2⟩
  | DelTrack path => exact ⟨_, rfl, Aligned_DelTrack m path h⟩
  | DelAll domain => exact ⟨_, rfl, Aligned_DelAll m domain h⟩

theorem Aligned_run (ops : List MemOp) (m : MemDir) (h : m.Aligned) :
    ∃ m1, m.run ops = some m1 ∧ m1.Aligned := by
  induction ops generalizing m with
  | nil => exact ⟨m, rfl, h⟩
  | cons op rest ih =>
    obtain ⟨m1, h1, h2⟩ := Aligned_apply m op h
    obtain ⟨m2, h3, h4⟩ := ih m1 h2
    refine ⟨m2, ?_, h4⟩
    simp only [MemDir.run, h1, Option.some_bind]
    exact h3

theorem mem_foldl_filter (rest : List Bitmap) (b : Bitmap) (x : Nat) :
    x ∈ rest.foldl (fun acc c => acc.filter (fun y => y ∈ c)) b ↔
      x ∈ b ∧ ∀ c ∈ rest, x ∈ c := by
  induction rest generalizing b with
  | nil => simp
  | cons c cs ih =>
    simp only [List.foldl_cons, ih, List.mem_filter, decide_eq_true_eq, List.mem_cons,
      forall_eq_or_imp]
    constructor
    · rintro ⟨⟨h1, h2⟩, h3⟩
      exact ⟨h1, h2, h3⟩
    · rintro ⟨h1, h2, h3⟩
      exact ⟨⟨h1, h2⟩, h3⟩

theorem mem_FastAnd (imb : List Bitmap) (x : Nat) (hne : imb ≠ []) (h : ∀ b ∈ imb, x ∈ b) :
    x ∈ FastAnd imb := by
  cases imb with
  | nil => exact absurd rfl hne
  | cons b rest =>
    simp only [FastAnd, mem_foldl_filter]
    exact ⟨h b (List.mem_cons_self _ _), fun c hc => h c (List.mem_cons_of_mem _ hc)⟩

theorem bitmaps_of_lookup (idx : List (GoString × Bitmap)) (ks : List GoString) (i : Nat)
    (h : ∀ k ∈ ks, ∃ b, idx.lookup k = some b ∧ i ∈ b) :
    ∃ imb, MemDir.Lookup.bitmaps idx ks = some imb ∧ imb.length = ks.length ∧
      ∀ b ∈ imb, i ∈ b := by
  induction ks with
  | nil => exact ⟨[], rfl, rfl, fun b hb => absurd hb (List.not_mem_nil b)⟩
  | cons k rest ih =>
    obtain ⟨b, hb, hi⟩ := h k (List.mem_cons_self _ _)
    obtain ⟨imb, h1, h2, h3⟩ := ih (fun k2 hk2 => h k2 (List.mem_cons_of_mem _ hk2))
    refine ⟨b :: imb, ?_, ?_, ?_⟩
    · simp only [MemDir.Lookup.bitmaps, hb, h1, Option.map_some']
    · simp only [List.length_cons, h2]
    · intro c hc
      simp only [List.mem_cons] at hc
      rcases hc with hc | hc
      · rw [hc]; exact hi
      · exact h3 c hc

theorem collect_subset (m : MemDir) (max : Int) (l : List Nat) (pth : List Result)
    (r : Result) (h : r ∈ pth) : r ∈ MemDir.Lookup.collect m max l pth := by
  induction l generalizing pth with
  | nil => exact h
  | cons j rest ih =>
    unfold MemDir.Lookup.collect
    split
    · exact ih pth h
    · simp only
      split
      · exact List.mem_append_left _ h
      · exact ih _ (List.mem_append_left _ h)

theorem collect_complete (m : MemDir) (max : Int) (l : List Nat) (pth : List Result) (i : Nat)
    (hmax : ((pth.length + l.length : Nat) : Int) < max) (hi : i ∈ l)
    (hL : i < m.p.length % 4294967296) :
    { Path := m.p.getD i Path.zero, Meta := m.b.getD i none }
      ∈ MemDir.Lookup.collect m max l pth := by
  induction l generalizing pth with
  | nil => exact absurd hi (List.not_mem_nil i)
  | cons j rest ih =>
    unfold MemDir.Lookup.collect
    simp only [List.length_cons] at hmax
    split
    · rename_i hge
      simp only [List.mem_cons] at hi
      rcases hi with hi | hi
      · subst hi
        exact absurd hL (by omega)
      · exact ih pth (by omega) hi
    · simp only
      split
      · rename_i hfull
        simp only [List.length_append, List.length_cons, List.length_nil] at hfull
        exact absurd hfull (by omega)
      · simp only [List.mem_cons] at hi
        rcases hi with hi | hi
        · subst hi
          apply collect_subset
          simp
        · apply ih
          · simp only [List.length_append, List.length_cons, List.length_nil]
            omega
          · exact hi

end ftse

namespace ftse

/-- C28: calls of `PutTrack`, `DelTrack` and `DelAll` from the empty index never
panic, and in every state they reach with fewer than 2^32 - 1 slots (slot
numbers are `uint32`), `PutTrack(P, keys, doc)` returns and right afterwards
`Lookup(ks, max)`, for every non-empty list `ks` of keywords that all occur in
`keys` and every `max` above the number of slots matching `ks`, returns a
`Result` with the path `P` and the document `doc`. -/
theorem C28_lookup_after_put (ops : List MemOp) (m : MemDir) (P : Path)
    (keys : List GoString) (doc : Option bson.Document)
    (hr : MemDir.empty.run ops = some m) (hlen : m.s.length < 4294967295) :
    (∀ ops2, ∃ m2, m.run ops2 = some m2) ∧
    ∃ m1, m.PutTrack P keys doc = some m1 ∧
      ∀ (ks : List GoString) (max : Int), ks ≠ [] → (∀ k ∈ ks, k ∈ keys) →
        ((m1.matching ks).length : Int) < max →
        { Path := P, Meta := doc } ∈ m1.Lookup ks max := by
  have hal : m.Aligned := by
    obtain ⟨m0, h0, h1⟩ := Aligned_run ops MemDir.empty Aligned_empty
    rw [hr] at h0
    simp only [Option.some.injEq] at h0
    rw [h0]
    exact h1
  refine ⟨fun ops2 => ?_, ?_⟩
  · obtain ⟨m2, h2, _⟩ := Aligned_run ops2 m hal
    exact ⟨m2, h2⟩
  · obtain ⟨m1, i, h1, _, h3⟩ := PutTrack_spec m P keys doc hal _ rfl
    obtain ⟨hi, hle, hp, hb, hk⟩ := h3 hlen
    refine ⟨m1, h1, ?_⟩
    intro ks max hne hsub hmax
    obtain ⟨imb, hb1, hb2, hb3⟩ := bitmaps_of_lookup m1.i ks i (fun k hk2 => hk k (hsub k hk2))
    have himb : imb ≠ [] := by
      intro hnil
      rw [hnil] at hb2
      exact hne (List.length_eq_zero.mp hb2.symm)
    have hmem : i ∈ FastAnd imb := mem_FastAnd imb i himb hb3
    have hL : i < m1.p.length % 4294967296 := by
      have : m1.p.length < 4294967296 := by
        have := hal.1
        omega
      rw [Nat.mod_eq_of_lt this]
      exact hi
    simp only [MemDir.matching, hb1] at hmax
    have hc := collect_complete m1 max (FastAnd imb) [] i
      (by simp only [List.length_nil, Nat.zero_add]; exact hmax) hmem hL
    rw [hp, hb] at hc
    simp only [MemDir.Lookup, hb1]
    exact hc

/-- The same after `PutTrack` of "a" and of "b": `PutTrack` of "c" returns, and the
lookups of its keywords find it. -/
theorem C28_lookup_after_put_witness :
    (∀ ops2, ∃ m2, (twoPuts.getD MemDir.empty).run ops2 = some m2) ∧
    ∃ m1, (twoPuts.getD MemDir.empty).PutTrack (pathOf (lit "c")) [lit "kc"]
        (some (fileDoc (lit "g") (lit "c"))) = some m1 ∧
      ∀ (ks : List GoString) (max : Int), ks ≠ [] → (∀ k ∈ ks, k ∈ [lit "kc"]) →
        ((m1.matching ks).length : Int) < max →
        { Path := pathOf (lit "c"), Meta := some (fileDoc (lit "g") (lit "c")) }
          ∈ m1.Lookup ks max :=
  C28_lookup_after_put
    [.PutTrack (pathOf (lit "a")) [lit "ka"] (some (fileDoc (lit "g") (lit "a"))),
     .PutTrack (pathOf (lit "b")) [lit "kb"] (some (fileDoc (lit "g") (lit "b")))]
    (twoPuts.getD MemDir.empty) (pathOf (lit "c")) [lit "kc"]
    (some (fileDoc (lit "g") (lit "c"))) (by decide) (by decide)

end ftse

namespace ftse

theorem decodeRune_spec (b0 : Nat) (t : Bytes) :
    1 ≤ (decodeRune (b0 :: t)).2 ∧ (decodeRune (b0 :: t)).2 ≤ (b0 :: t).length ∧
    IsScalar (decodeRune (b0 :: t)).1 ∧
    ((decodeRune (b0 :: t)).1 < 0x80 → b0 = (decodeRune (b0 :: t)).1 ∧
      (decodeRune (b0 :: t)).2 = 1) := by
  have herr : ∀ rw : Nat × Nat, (RuneError, 1) = rw →
      1 ≤ rw.2 ∧ rw.2 ≤ (b0 :: t).length ∧ IsScalar rw.1 ∧ (rw.1 < 0x80 → b0 = rw.1 ∧ rw.2 = 1) := by
    intro rw h
    subst h
    refine ⟨Nat.le_refl _, by simp, Or.inr (by simp [RuneError]), ?_⟩
    intro h
    simp [RuneError] at h
  generalize hd : decodeRune (b0 :: t) = rw
  simp only [decodeRune] at hd
  split at hd
  · rename_i h0
    subst hd
    exact ⟨Nat.le_refl _, by simp, Or.inl (by show b0 < 0xD800; omega), fun _ => ⟨rfl, rfl⟩⟩
  · split at hd
    · rename_i h0 h1
      split at hd
      · rename_i b1 t1
        split at hd
        · rename_i hc
          simp only [isCont, decide_eq_true_eq] at hc
          subst hd
          refine ⟨by simp, by simp, Or.inl ?_, ?_⟩
          · show (b0 - 0xC0) * 64 + (b1 - 0x80) < 0xD800
            omega
          · intro hlt
            exfalso
            have : (b0 - 0xC0) * 64 + (b1 - 0x80) < 0x80 := hlt
            omega
        · exact herr rw hd
      · exact herr rw hd
    · split at hd
      · rename_i h0 h1 h2
        split at hd
        · rename_i b1 b2 t2
          by_cases hc : (if b0 = 0xE0 then 0xA0 else 0x80) ≤ b1 ∧
              b1 ≤ (if b0 = 0xED then 0x9F else 0xBF) ∧ isCont b2 = true
          · rw [if_pos hc] at hd
            obtain ⟨hc1, hc2, hc3⟩ := hc
            simp only [isCont, decide_eq_true_eq] at hc3
            subst hd
            refine ⟨by simp, by simp, ?_, ?_⟩
            · show IsScalar ((b0 - 0xE0) * 4096 + (b1 - 0x80) * 64 + (b2 - 0x80))
              unfold IsScalar
              split at hc1 <;> split at hc2 <;> omega
            · intro hlt
              exfalso
              have : (b0 - 0xE0) * 4096 + (b1 - 0x80) * 64 + (b2 - 0x80) < 0x80 := hlt
              split at hc1 <;> omega
          · rw [if_neg hc] at hd
            exact herr rw hd
        · exact herr rw hd
      · split at hd
        · rename_i h0 h1 h2 h3
          split at hd
          · rename_i b1 b2 b3 t3
            by_cases hc : (if b0 = 0xF0 then 0x90 else 0x80) ≤ b1 ∧
                b1 ≤ (if b0 = 0xF4 then 0x8F else 0xBF) ∧ isCont b2 = true ∧ isCont b3 = true
            · rw [if_pos hc] at hd
              obtain ⟨hc1, hc2, hc3, hc4⟩ := hc
              simp only [isCont, decide_eq_true_eq] at hc3 hc4
              subst hd
              refine ⟨by simp, by simp, ?_, ?_⟩
              · show IsScalar ((b0 - 0xF0) * 262144 + (b1 - 0x80) * 4096 + (b2 - 0x80) * 64
                  + (b3 - 0x80))
                unfold IsScalar
                split at hc1 <;> split at hc2 <;> omega
              · intro hlt
                exfalso
                have : (b0 - 0xF0) * 262144 + (b1 - 0x80) * 4096 + (b2 - 0x80) * 64
                  + (b3 - 0x80) < 0x80 := hlt
                split at hc1 <;> omega
            · rw [if_neg hc] at hd
              exact herr rw hd
          · exact herr rw hd
        · exact herr rw hd

end ftse

namespace ftse

theorem encodeRune_bytes (r : Nat) :
    (encodeRune r).length ≥ 1 ∧ ∀ b ∈ encodeRune r, (r < 0x80 ∧ b = r) ∨ 0x80 ≤ b := by
  unfold encodeRune
  split
  · rename_i h
    refine ⟨by simp, ?_⟩
    intro b hb
    simp only [List.mem_singleton] at hb
    exact Or.inl ⟨h, hb⟩
  · split
    · refine ⟨by simp, ?_⟩
      intro b hb
      simp only [List.mem_cons, List.mem_singleton, List.not_mem_nil, or_false] at hb
      right
      rcases hb with hb | hb <;> omega
    · split
      · refine ⟨by simp, ?_⟩
        intro b hb
        simp only [List.mem_cons, List.mem_singleton, List.not_mem_nil, or_false] at hb
        right
        rcases hb with hb | hb | hb <;> omega
      · split
        · refine ⟨by simp, ?_⟩
          intro b hb
          simp only [List.mem_cons, List.mem_singleton, List.not_mem_nil, or_false] at hb
          right
          rcases hb with hb | hb | hb <;> omega
        · refine ⟨by simp, ?_⟩
          intro b hb
          simp only [List.mem_cons, List.mem_singleton, List.not_mem_nil, or_false] at hb
          right
          rcases hb with hb | hb | hb | hb <;> omega

theorem decodeRune_encodeRune (r : Nat) (rest : Bytes) (h : IsScalar r) :
    decodeRune (encodeRune r ++ rest) = (r, (encodeRune r).length) := by
  unfold IsScalar at h
  by_cases h1 : r < 0x80
  · simp only [encodeRune, if_pos h1, List.cons_append, List.nil_append, decodeRune,
      List.length_cons, List.length_nil]
  · by_cases h2 : r < 0x800
    · have hc : isCont (0x80 + r % 64) = true := by
        simp only [isCont, decide_eq_true_eq]
        omega
      simp only [encodeRune, if_neg h1, if_pos h2, List.cons_append, List.nil_append,
        decodeRune, List.length_cons, List.length_nil]
      rw [if_neg (by omega), if_pos (by omega), if_pos hc]
      simp only [Prod.mk.injEq, and_true]
      omega
    · have h3 : ¬ ((0xD800 ≤ r ∧ r ≤ 0xDFFF) ∨ 0x10FFFF < r) := by omega
      by_cases h4 : r < 0x10000
      · have hc : isCont (0x80 + r % 64) = true := by
          simp only [isCont, decide_eq_true_eq]
          omega
        have hcond : (if 0xE0 + r / 4096 = 0xE0 then 0xA0 else 0x80) ≤ 0x80 + r / 64 % 64 ∧
            0x80 + r / 64 % 64 ≤ (if 0xE0 + r / 4096 = 0xED then 0x9F else 0xBF) ∧
            isCont (0x80 + r % 64) = true := by
          refine ⟨?_, ?_, hc⟩
          · split <;> omega
          · split <;> omega
        simp only [encodeRune, if_neg h1, if_neg h2, if_neg h3, if_pos h4, List.cons_append,
          List.nil_append, decodeRune, List.length_cons, List.length_nil]
        rw [if_neg (by omega), if_neg (by omega), if_pos (by omega), if_pos hcond]
        simp only [Prod.mk.injEq, and_true]
        omega
      · have hc2 : isCont (0x80 + r / 64 % 64) = true := by
          simp only [isCont, decide_eq_true_eq]
          omega
        have hc3 : isCont (0x80 + r % 64) = true := by
          simp only [isCont, decide_eq_true_eq]
          omega
        have hcond : (if 0xF0 + r / 262144 = 0xF0 then 0x90 else 0x80) ≤ 0x80 + r / 4096 % 64 ∧
            0x80 + r / 4096 % 64 ≤ (if 0xF0 + r / 262144 = 0xF4 then 0x8F else 0xBF) ∧
            isCont (0x80 + r / 64 % 64) = true ∧ isCont (0x80 + r % 64) = true := by
          refine ⟨?_, ?_, hc2, hc3⟩
          · split <;> omega
          · split <;> omega
        simp only [encodeRune, if_neg h1, if_neg h2, if_neg h3, if_neg h4, List.cons_append,
          List.nil_append, decodeRune, List.length_cons, List.length_nil]
        rw [if_neg (by omega), if_neg (by omega), if_neg (by omega), if_pos (by omega),
          if_pos hcond]
        simp only [Prod.mk.injEq, and_true]
        omega

end ftse

namespace ftse

theorem decodeRunes_fuel (n : Nat) (f1 f2 : Nat) (s : Bytes) (hs : s.length ≤ n)
    (h1 : n ≤ f1) (h2 : n ≤ f2) : decodeRunes f1 s = decodeRunes f2 s := by
  induction n generalizing f1 f2 s with
  | zero =>
    have hnil : s = [] := List.length_eq_zero.mp (by omega)
    subst hnil
    cases f1 <;> cases f2 <;> simp [decodeRunes]
  | succ n ih =>
    cases f1 with
    | zero => omega
    | succ g1 =>
      cases f2 with
      | zero => omega
      | succ g2 =>
        cases s with
        | nil => simp [decodeRunes]
        | cons b0 t =>
          have hw := (decodeRune_spec b0 t).1
          simp only [decodeRunes, List.cons_ne_nil, if_false]
          congr 1
          apply ih
          · simp only [List.length_drop, List.length_cons] at hs ⊢
            omega
          · omega
          · omega

theorem decodeRunes_scalar (fuel : Nat) (s : Bytes) :
    ∀ rb ∈ decodeRunes fuel s, IsScalar rb.1 := by
  induction fuel generalizing s with
  | zero =>
    intro rb h
    simp [decodeRunes] at h
  | succ f ih =>
    intro rb h
    cases s with
    | nil => simp [decodeRunes] at h
    | cons b0 t =>
      simp only [decodeRunes, List.cons_ne_nil, if_false, List.mem_cons] at h
      rcases h with h | h
      · rw [h]
        exact (decodeRune_spec b0 t).2.2.1
      · exact ih _ rb h

theorem decodeRunes_encoded (rs : List Nat) (hrs : ∀ r ∈ rs, IsScalar r) (fuel : Nat)
    (hf : ((rs.map encodeRune).flatten).length ≤ fuel) :
    decodeRunes fuel (rs.map encodeRune).flatten = rs.map (fun r => (r, encodeRune r)) := by
  induction rs generalizing fuel with
  | nil => cases fuel <;> simp [decodeRunes]
  | cons r rest ih =>
    have hlen := (encodeRune_bytes r).1
    simp only [List.map_cons, List.flatten_cons, List.length_append] at hf ⊢
    cases fuel with
    | zero => omega
    | succ f =>
      have hne : encodeRune r ++ (rest.map encodeRune).flatten ≠ [] := by
        intro h
        have := congrArg List.length h
        simp only [List.length_append, List.length_nil] at this
        omega
      simp only [decodeRunes, if_neg hne,
        decodeRune_encodeRune r _ (hrs r (List.mem_cons_self _ _)), List.take_left',
        List.drop_left']
      congr 1
      exact ih (fun x hx => hrs x (List.mem_cons_of_mem _ hx)) f (by omega)

end ftse

namespace p2p

theorem Separator_cases (os : GOOS) : Separator os = 47 ∨ Separator os = 92 := by
  cases os
  · exact Or.inl rfl
  · exact Or.inr rfl

theorem cleanup_spec (os : GOOS) (r : Nat) :
    32 ≤ cleanup os r ∧ cleanup os r ≠ 47 ∧ cleanup os r ≠ 92 ∧
    cleanup os r ≠ Separator os ∧ (cleanup os r = 95 ∨ cleanup os r = r) ∧
    (ftse.IsScalar r → ftse.IsScalar (cleanup os r)) ∧
    cleanup os (cleanup os r) = cleanup os r ∧
    ((32 ≤ r ∧ r ≠ 47 ∧ r ≠ 92) → cleanup os r = r) ∧
    ((r < 32 ∨ r = 47 ∨ r = 92) → cleanup os r = 95) := by
  have hsep := Separator_cases os
  have h95 : cleanup os 95 = 95 := by
    unfold cleanup
    rw [if_neg (by omega), if_neg (by omega)]
  unfold cleanup
  split
  · rename_i h
    refine ⟨by omega, by omega, by omega, by omega, Or.inl rfl, fun _ => Or.inl (by omega), ?_,
      fun h2 => by omega, fun _ => rfl⟩
    exact h95
  · split
    · rename_i h1 h2
      refine ⟨by omega, by omega, by omega, by omega, Or.inl rfl, fun _ => Or.inl (by omega), ?_,
        fun h3 => by omega, fun _ => rfl⟩
      exact h95
    · rename_i h1 h2
      refine ⟨by omega, by omega, by omega, by omega, Or.inr rfl, fun h => h, ?_,
        fun _ => rfl, fun h3 => by omega⟩
      rfl

end p2p

namespace p2p

theorem CleanUpFile_eq (os : GOOS) (s : GoString) :
    CleanUpFile os s = (((ftse.runes s).map (cleanup os)).map ftse.encodeRune).flatten := by
  simp only [CleanUpFile, ftse.stringsMap, ftse.runes, List.map_map]
  rfl

theorem runes_scalar (s : GoString) : ∀ r ∈ ftse.runes s, ftse.IsScalar r := by
  intro r hr
  simp only [ftse.runes, List.mem_map] at hr
  obtain ⟨rb, hrb, rfl⟩ := hr
  exact ftse.decodeRunes_scalar _ _ rb hrb

theorem runes_encoded (rs : List Nat) (hrs : ∀ r ∈ rs, ftse.IsScalar r) :
    ftse.runes (rs.map ftse.encodeRune).flatten = rs := by
  simp only [ftse.runes, ftse.decodeRunes_encoded rs hrs _ (Nat.le_refl _), List.map_map]
  exact List.map_id _

theorem runes_eq_dot (s : GoString) (h : ftse.runes s = [46]) : s = lit "." := by
  cases s with
  | nil => simp [ftse.runes, ftse.decodeRunes] at h
  | cons b0 t =>
    obtain ⟨hw1, hw2, _, hasc⟩ := ftse.decodeRune_spec b0 t
    simp only [ftse.runes, List.length_cons, ftse.decodeRunes, List.cons_ne_nil, if_false,
      List.map_cons, List.cons.injEq, List.map_eq_nil_iff] at h
    obtain ⟨hr, hrest⟩ := h
    obtain ⟨hb0, hw⟩ := hasc (by rw [hr]; omega)
    rw [hw] at hrest
    simp only [List.drop_succ_cons, List.drop_zero] at hrest
    cases t with
    | nil =>
      rw [hb0, hr]
      rfl
    | cons b1 t1 =>
      simp [ftse.decodeRunes] at hrest

end p2p

namespace p2p

/-- C23: for every string `s`, `CleanUpFile(s)` has no byte below the space
character and no '/', no '\' and no path separator; read character by character
it is `s` with each character that is below the space character or is '/', '\'
or the separator replaced by '_' and every other character kept (as
`strings.Map` reads `s`: a byte that is not valid UTF-8 counts as the character
U+FFFD); `BadFileName(CleanUpFile(s))` is true exactly when `s` is "."; and
`CleanUpFile(CleanUpFile(s)) = CleanUpFile(s)`. -/
theorem C23_CleanUpFile_clean (os : GOOS) (s : GoString) :
    (∀ b ∈ CleanUpFile os s, 32 ≤ b ∧ b ≠ 47 ∧ b ≠ 92 ∧ b ≠ Separator os) ∧
    ftse.runes (CleanUpFile os s) = (ftse.runes s).map (cleanup os) ∧
    (∀ r, ((r < 32 ∨ r = 47 ∨ r = 92 ∨ r = Separator os) → cleanup os r = 95) ∧
      (¬ (r < 32 ∨ r = 47 ∨ r = 92 ∨ r = Separator os) → cleanup os r = r)) ∧
    (BadFileName os (CleanUpFile os s) = true ↔ s = lit ".") ∧
    CleanUpFile os (CleanUpFile os s) = CleanUpFile os s := by
  have hsep := Separator_cases os
  have hrs : ∀ r ∈ (ftse.runes s).map (cleanup os), ftse.IsScalar r := by
    intro r hr
    simp only [List.mem_map] at hr
    obtain ⟨x, hx, rfl⟩ := hr
    exact (cleanup_spec os x).2.2.2.2.2.1 (runes_scalar s x hx)
  have hbytes : ∀ b ∈ CleanUpFile os s, 32 ≤ b ∧ b ≠ 47 ∧ b ≠ 92 ∧ b ≠ Separator os := by
    intro b hb
    rw [CleanUpFile_eq] at hb
    simp only [List.mem_flatten, List.mem_map, exists_exists_and_eq_and] at hb
    obtain ⟨x, _, hbx⟩ := hb
    obtain ⟨c1, c2, c3, c4, _⟩ := cleanup_spec os x
    rcases (ftse.encodeRune_bytes (cleanup os x)).2 b hbx with ⟨_, hq⟩ | hq
    · rw [hq]
      exact ⟨c1, c2, c3, c4⟩
    · refine ⟨by omega, by omega, by omega, ?_⟩
      rcases hsep with h | h <;> omega
  have hrunes : ftse.runes (CleanUpFile os s) = (ftse.runes s).map (cleanup os) := by
    rw [CleanUpFile_eq]
    exact runes_encoded _ hrs
  refine ⟨hbytes, hrunes, ?_, ?_, ?_⟩
  · intro r
    constructor
    · intro h
      apply (cleanup_spec os r).2.2.2.2.2.2.2.2
      rcases h with h | h | h | h
      · exact Or.inl h
      · exact Or.inr (Or.inl h)
      · exact Or.inr (Or.inr h)
      · rcases hsep with h2 | h2
        · exact Or.inr (Or.inl (h.trans h2))
        · exact Or.inr (Or.inr (h.trans h2))
    · intro h
      apply (cleanup_spec os r).2.2.2.2.2.2.2.1
      omega
  · constructor
    · intro hbad
      have hloop : BadFileName.loop os (CleanUpFile os s) = false := by
        cases hl : BadFileName.loop os (CleanUpFile os s) with
        | false => rfl
        | true =>
          obtain ⟨b, hb, hb2⟩ := (BadFileName_loop_iff os _).mp hl
          obtain ⟨_, c2, c3, c4⟩ := hbytes b hb
          rcases hb2 with h | h | h
          · exact absurd h c2
          · exact absurd h c3
          · exact absurd h c4
      have hdot : CleanUpFile os s = lit "." := by
        unfold BadFileName at hbad
        rw [hloop] at hbad
        simp only [Bool.false_eq_true, if_false] at hbad
        by_contra hne
        rw [if_neg hne] at hbad
        exact absurd hbad (by simp)
      have h1 : (ftse.runes s).map (cleanup os) = [46] := by
        rw [← hrunes, hdot]
        rfl
      apply runes_eq_dot
      cases hr : ftse.runes s with
      | nil =>
        rw [hr] at h1
        simp at h1
      | cons x rest =>
        rw [hr] at h1
        simp only [List.map_cons, List.cons.injEq, List.map_eq_nil_iff] at h1
        obtain ⟨hx, hrest⟩ := h1
        rw [hrest]
        rcases (cleanup_spec os x).2.2.2.2.1 with h95 | hid
        · rw [h95] at hx
          omega
        · rw [hid] at hx
          rw [hx]
    · intro hs
      subst hs
      cases os <;> rfl
  · rw [CleanUpFile_eq os (CleanUpFile os s), hrunes, CleanUpFile_eq]
    simp only [List.map_map]
    congr 1
    apply List.map_congr_left
    intro x _
    simp only [Function.comp_apply, (cleanup_spec os x).2.2.2.2.2.2.1]

end p2p

namespace P256

theorem powMod_spec (m : Nat) (fuel base e acc : Nat) (he : e < 2 ^ fuel) :
    powMod m fuel base e acc % m = acc * base ^ e % m := by
  induction fuel generalizing base e acc with
  | zero =>
    have h0 : e = 0 := by simpa using he
    subst h0
    simp [powMod]
  | succ fuel ih =>
    unfold powMod
    by_cases h0 : e = 0
    · subst h0
      simp
    · rw [if_neg h0]
      have he2 : e / 2 < 2 ^ fuel := by
        rw [Nat.div_lt_iff_lt_mul (by decide)]
        calc e < 2 ^ (fuel + 1) := he
          _ = 2 ^ fuel * 2 := by ring
      rw [ih _ _ _ he2]
      have hsq : (base * base % m) ^ (e / 2) % m = base ^ (2 * (e / 2)) % m := by
        rw [← Nat.pow_mod, pow_mul, pow_two]
      by_cases h1 : e % 2 = 1
      · rw [if_pos h1]
        have hee : e = 2 * (e / 2) + 1 := by omega
        conv_rhs => rw [hee, pow_succ, ← mul_assoc, mul_right_comm]
        rw [Nat.mul_mod, Nat.mod_mod, hsq, ← Nat.mul_mod, Nat.mul_mod (acc * base) _ m]
      · rw [if_neg h1]
        have hee : e = 2 * (e / 2) := by omega
        conv_rhs => rw [hee]
        rw [Nat.mul_mod, hsq, ← Nat.mul_mod]

theorem prime_of_cert (n a : Nat) (fs : List Nat) (k : Nat) (h1 : 1 < n) (hn : n < 2 ^ 256)
    (hfs : ∀ q ∈ fs, q.Prime) (hprod : fs.prod ^ k % (n - 1) = 0)
    (ha : powMod n 256 a (n - 1) 1 % n = 1)
    (hd : ∀ q ∈ fs, powMod n 256 a ((n - 1) / q) 1 % n ≠ 1) : n.Prime := by
  have key : ∀ e, e < 2 ^ 256 → ((a : ZMod n) ^ e = 1 ↔ powMod n 256 a e 1 % n = 1 % n) := by
    intro e he
    rw [powMod_spec n 256 a e 1 he, one_mul, ← ZMod.natCast_eq_natCast_iff']
    push_cast
    rfl
  have h1n : 1 % n = 1 := Nat.mod_eq_of_lt h1
  apply lucas_primality n (a : ZMod n)
  · rw [key _ (by omega), h1n]
    exact ha
  · intro q hq hdvd
    have hqprod : q ∣ fs.prod ^ k :=
      hdvd.trans (Nat.dvd_of_mod_eq_zero hprod)
    have hq2 : q ∣ fs.prod := hq.dvd_of_dvd_pow hqprod
    obtain ⟨r, hr, hqr⟩ := (Prime.dvd_prod_iff hq.prime).1 hq2
    have hqr2 : q = r := (Nat.prime_dvd_prime_iff_eq hq (hfs r hr)).1 hqr
    subst hqr2
    intro h
    rw [key _ (by have := Nat.div_le_self (n - 1) q; omega), h1n] at h
    exact hd q hr h


theorem prime_107 : Nat.Prime 107 := by
  refine prime_of_cert _ 2 [2, 53] 1 (by decide) (by decide) ?_ (by decide) (by decide!) (by decide!)
  intro q hq
  simp only [List.mem_cons, List.mem_singleton, List.not_mem_nil, or_false] at hq
  rcases hq with rfl | rfl
  exacts [(by norm_num), (by norm_num)]

theorem prime_157 : Nat.Prime 157 := by
  refine prime_of_cert _ 5 [2, 3, 13] 2 (by decide) (by decide) ?_ (by decide) (by decide!) (by decide!)
  intro q hq
  simp only [List.mem_cons, List.mem_singleton, List.not_mem_nil, or_false] at hq
  rcases hq with rfl | rfl | rfl
  exacts [(by norm_num), (by norm_num), (by norm_num)]

theorem prime_173 : Nat.Prime 173 := by
  refine prime_of_cert _ 2 [2, 43] 2 (by decide) (by decide) ?_ (by decide) (by decide!) (by decide!)
  intro q hq
  simp only [List.mem_cons, List.mem_singleton, List.not_mem_nil, or_false] at hq
  rcases hq with rfl | rfl
  exacts [(by norm_num), (by norm_num)]

theorem prime_181 : Nat.Prime 181 := by
  refine prime_of_cert _ 2 [2, 3, 5] 2 (by decide) (by decide) ?_ (by decide) (by decide!) (by decide!)
  intro q hq
  simp only [List.mem_cons, List.mem_singleton, List.not_mem_nil, or_false] at hq
  rcases hq with rfl | rfl | rfl
  exacts [(by norm_num), (by norm_num), (by norm_num)]

theorem prime_197 : Nat.Prime 197 := by
  refine prime_of_cert _ 2 [2, 7] 2 (by decide) (by decide) ?_ (by decide) (by decide!) (by decide!)
  intro q hq
  simp only [List.mem_cons, List.mem_singleton, List.not_mem_nil, or_false] at hq
  rcases hq with rfl | rfl
  exacts [(by norm_num), (by norm_num)]

theorem prime_241 : Nat.Prime 241 := by
  refine prime_of_cert _ 7 [2, 3, 5] 4 (by decide) (by decide) ?_ (by decide) (by decide!) (by decide!)
  intro q hq
  simp only [List.mem_cons, List.mem_singleton, List.not_mem_nil, or_false] at hq
  rcases hq with rfl | rfl | rfl
  exacts [(by norm_num), (by norm_num), (by norm_num)]

theorem prime_257 : Nat.Prime 257 := by
  refine prime_of_cert _ 3 [2] 8 (by decide) (by decide) ?_ (by decide) (by decide!) (by decide!)
  intro q hq
  simp only [List.mem_cons, List.mem_singleton, List.not_mem_nil, or_false] at hq
  rcases hq with rfl
  exacts [(by norm_num)]

theorem prime_313 : Nat.Prime 313 := by
  refine prime_of_cert _ 10 [2, 3, 13] 3 (by decide) (by decide) ?_ (by decide) (by decide!) (by decide!)
  intro q hq
  simp only [List.mem_cons, List.mem_singleton, List.not_mem_nil, or_false] at hq
  rcases hq with rfl | rfl | rfl
  exacts [(by norm_num), (by norm_num), (by norm_num)]

theorem prime_641 : Nat.Prime 641 := by
  refine prime_of_cert _ 3 [2, 5] 7 (by decide) (by decide) ?_ (by decide) (by decide!) (by decide!)
  intro q hq
  simp only [List.mem_cons, List.mem_singleton, List.not_mem_nil, or_false] at hq
  rcases hq with rfl | rfl
  exacts [(by norm_num), (by norm_num)]

theorem prime_661 : Nat.Prime 661 := by
  refine prime_of_cert _ 2 [2, 3, 5, 11] 2 (by decide) (by decide) ?_ (by decide) (by decide!) (by decide!)
  intro q hq
  simp only [List.mem_cons, List.mem_singleton, List.not_mem_nil, or_false] at hq
  rcases hq with rfl | rfl | rfl | rfl
  exacts [(by norm_num), (by norm_num), (by norm_num), (by norm_num)]

theorem prime_727 : Nat.Prime 727 := by
  refine prime_of_cert _ 5 [2, 3, 11] 2 (by decide) (by decide) ?_ (by decide) (by decide!) (by decide!)
  intro q hq
  simp only [List.mem_cons, List.mem_singleton, List.not_mem_nil, or_false] at hq
  rcases hq with rfl | rfl | rfl
  exacts [(by norm_num), (by norm_num), (by norm_num)]

theorem prime_757 : Nat.Prime 757 := by
  refine prime_of_cert _ 2 [2, 3, 7] 3 (by decide) (by decide) ?_ (by decide) (by decide!) (by decide!)
  intro q hq
  simp only [List.mem_cons, List.mem_singleton, List.not_mem_nil, or_false] at hq
  rcases hq with rfl | rfl | rfl
  exacts [(by norm_num), (by norm_num), (by norm_num)]

theorem prime_919 : Nat.Prime 919 := by
  refine prime_of_cert _ 7 [2, 3, 17] 3 (by decide) (by decide) ?_ (by decide) (by decide!) (by decide!)
  intro q hq
  simp only [List.mem_cons, List.mem_singleton, List.not_mem_nil, or_false] at hq
  rcases hq with rfl | rfl | rfl
  exacts [(by norm_num), (by norm_num), (by norm_num)]

theorem prime_1087 : Nat.Prime 1087 := by
  refine prime_of_cert _ 3 [2, 3, 181] 1 (by decide) (by decide) ?_ (by decide) (by decide!) (by decide!)
  intro q hq
  simp only [List.mem_cons, List.mem_singleton, List.not_mem_nil, or_false] at hq
  rcases hq with rfl | rfl | rfl
  exacts [(by norm_num), (by norm_num), prime_181]

theorem prime_1531 : Nat.Prime 1531 := by
  refine prime_of_cert _ 2 [2, 3, 5, 17] 2 (by decide) (by decide) ?_ (by decide) (by decide!) (by decide!)
  intro q hq
  simp only [List.mem_cons, List.mem_singleton, List.not_mem_nil, or_false] at hq
  rcases hq with rfl | rfl | rfl | rfl
  exacts [(by norm_num), (by norm_num), (by norm_num), (by norm_num)]

theorem prime_2411 : Nat.Prime 2411 := by
  refine prime_of_cert _ 6 [2, 5, 241] 1 (by decide) (by decide) ?_ (by decide) (by decide!) (by decide!)
  intro q hq
  simp only [List.mem_cons, List.mem_singleton, List.not_mem_nil, or_false] at hq
  rcases hq with rfl | rfl | rfl
  exacts [(by norm_num), (by norm_num), prime_241]

theorem prime_3677 : Nat.Prime 3677 := by
  refine prime_of_cert _ 2 [2, 919] 2 (by decide) (by decide) ?_ (by decide) (by decide!) (by decide!)
  intro q hq
  simp only [List.mem_cons, List.mem_singleton, List.not_mem_nil, or_false] at hq
  rcases hq with rfl | rfl
  exacts [(by norm_num), prime_919]

theorem prime_3769 : Nat.Prime 3769 := by
  refine prime_of_cert _ 7 [2, 3, 157] 3 (by decide) (by decide) ?_ (by decide) (by decide!) (by decide!)
  intro q hq
  simp only [List.mem_cons, List.mem_singleton, List.not_mem_nil, or_false] at hq
  rcases hq with rfl | rfl | rfl
  exacts [(by norm_num), (by norm_num), prime_157]

theorem prime_4349 : Nat.Prime 4349 := by
  refine prime_of_cert _ 2 [2, 1087] 2 (by decide) (by decide) ?_ (by decide) (by decide!) (by decide!)
  intro q hq
  simp only [List.mem_cons, List.mem_singleton, List.not_mem_nil, or_false] at hq
  rcases hq with rfl | rfl
  exacts [(by norm_num), prime_1087]

theorem prime_17449 : Nat.Prime 17449 := by
  refine prime_of_cert _ 14 [2, 3, 727] 3 (by decide) (by decide) ?_ (by decide) (by decide!) (by decide!)
  intro q hq
  simp only [List.mem_cons, List.mem_singleton, List.not_mem_nil, or_false] at hq
  rcases hq with rfl | rfl | rfl
  exacts [(by norm_num), (by norm_num), prime_727]

theorem prime_18169 : Nat.Prime 18169 := by
  refine prime_of_cert _ 11 [2, 3, 757] 3 (by decide) (by decide) ?_ (by decide) (by decide!) (by decide!)
  intro q hq
  simp only [List.mem_cons, List.mem_singleton, List.not_mem_nil, or_false] at hq
  rcases hq with rfl | rfl | rfl
  exacts [(by norm_num), (by norm_num), prime_757]

theorem prime_65537 : Nat.Prime 65537 := by
  refine prime_of_cert _ 3 [2] 16 (by decide) (by decide) ?_ (by decide) (by decide!) (by decide!)
  intro q hq
  simp only [List.mem_cons, List.mem_singleton, List.not_mem_nil, or_false] at hq
  rcases hq with rfl
  exacts [(by norm_num)]

theorem prime_78283 : Nat.Prime 78283 := by
  refine prime_of_cert _ 3 [2, 3, 4349] 2 (by decide) (by decide) ?_ (by decide) (by decide!) (by decide!)
  intro q hq
  simp only [List.mem_cons, List.mem_singleton, List.not_mem_nil, or_false] at hq
  rcases hq with rfl | rfl | rfl
  exacts [(by norm_num), (by norm_num), prime_4349]

theorem prime_490463 : Nat.Prime 490463 := by
  refine prime_of_cert _ 14 [2, 7, 53, 661] 1 (by decide) (by decide) ?_ (by decide) (by decide!) (by decide!)
  intro q hq
  simp only [List.mem_cons, List.mem_singleton, List.not_mem_nil, or_false] at hq
  rcases hq with rfl | rfl | rfl | rfl
  exacts [(by norm_num), (by norm_num), (by norm_num), prime_661]

theorem prime_704251 : Nat.Prime 704251 := by
  refine prime_of_cert _ 2 [2, 3, 5, 313] 3 (by decide) (by decide) ?_ (by decide) (by decide!) (by decide!)
  intro q hq
  simp only [List.mem_cons, List.mem_singleton, List.not_mem_nil, or_false] at hq
  rcases hq with rfl | rfl | rfl | rfl
  exacts [(by norm_num), (by norm_num), (by norm_num), prime_313]

theorem prime_6700417 : Nat.Prime 6700417 := by
  refine prime_of_cert _ 5 [2, 3, 17449] 7 (by decide) (by decide) ?_ (by decide) (by decide!) (by decide!)
  intro q hq
  simp only [List.mem_cons, List.mem_singleton, List.not_mem_nil, or_false] at hq
  rcases hq with rfl | rfl | rfl
  exacts [(by norm_num), (by norm_num), prime_17449]

theorem prime_204061199 : Nat.Prime 204061199 := by
  refine prime_of_cert _ 11 [2, 11, 23, 107, 3769] 1 (by decide) (by decide) ?_ (by decide) (by decide!) (by decide!)
  intro q hq
  simp only [List.mem_cons, List.mem_singleton, List.not_mem_nil, or_false] at hq
  rcases hq with rfl | rfl | rfl | rfl | rfl
  exacts [(by norm_num), (by norm_num), (by norm_num), prime_107, prime_3769]

theorem prime_34282281433 : Nat.Prime 34282281433 := by
  refine prime_of_cert _ 17 [2, 3, 7, 204061199] 3 (by decide) (by decide) ?_ (by decide) (by decide!) (by decide!)
  intro q hq
  simp only [List.mem_cons, List.mem_singleton, List.not_mem_nil, or_false] at hq
  rcases hq with rfl | rfl | rfl | rfl
  exacts [(by norm_num), (by norm_num), (by norm_num), prime_204061199]

theorem prime_66417393611 : Nat.Prime 66417393611 := by
  refine prime_of_cert _ 6 [2, 5, 53, 173, 197, 3677] 1 (by decide) (by decide) ?_ (by decide) (by decide!) (by decide!)
  intro q hq
  simp only [List.mem_cons, List.mem_singleton, List.not_mem_nil, or_false] at hq
  rcases hq with rfl | rfl | rfl | rfl | rfl | rfl
  exacts [(by norm_num), (by norm_num), (by norm_num), prime_173, prime_197, prime_3677]

theorem prime_11290956913871 : Nat.Prime 11290956913871 := by
  refine prime_of_cert _ 13 [2, 5, 17, 66417393611] 1 (by decide) (by decide) ?_ (by decide) (by decide!) (by decide!)
  intro q hq
  simp only [List.mem_cons, List.mem_singleton, List.not_mem_nil, or_false] at hq
  rcases hq with rfl | rfl | rfl | rfl
  exacts [(by norm_num), (by norm_num), (by norm_num), prime_66417393611]

theorem prime_46076956964474543 : Nat.Prime 46076956964474543 := by
  refine prime_of_cert _ 5 [2, 23, 18169, 78283, 704251] 1 (by decide) (by decide) ?_ (by decide) (by decide!) (by decide!)
  intro q hq
  simp only [List.mem_cons, List.mem_singleton, List.not_mem_nil, or_false] at hq
  rcases hq with rfl | rfl | rfl | rfl | rfl
  exacts [(by norm_num), (by norm_num), prime_18169, prime_78283, prime_704251]

theorem prime_774023187263532362759620327192479577272145303 : Nat.Prime 774023187263532362759620327192479577272145303 := by
  refine prime_of_cert _ 3 [2, 3, 2411, 34282281433, 11290956913871, 46076956964474543] 2 (by decide) (by decide) ?_ (by decide) (by decide!) (by decide!)
  intro q hq
  simp only [List.mem_cons, List.mem_singleton, List.not_mem_nil, or_false] at hq
  rcases hq with rfl | rfl | rfl | rfl | rfl | rfl
  exacts [(by norm_num), (by norm_num), prime_2411, prime_34282281433, prime_11290956913871, prime_46076956964474543]

theorem prime_835945042244614951780389953367877943453916927241 : Nat.Prime 835945042244614951780389953367877943453916927241 := by
  refine prime_of_cert _ 11 [2, 3, 5, 774023187263532362759620327192479577272145303] 3 (by decide) (by decide) ?_ (by decide) (by decide!) (by decide!)
  intro q hq
  simp only [List.mem_cons, List.mem_singleton, List.not_mem_nil, or_false] at hq
  rcases hq with rfl | rfl | rfl | rfl
  exacts [(by norm_num), (by norm_num), (by norm_num), prime_774023187263532362759620327192479577272145303]

/-- The field prime of P-256 is prime (Pratt certificate with base 6). -/
theorem p_prime : Nat.Prime p := by
  refine prime_of_cert _ 6 [2, 3, 5, 17, 257, 641, 1531, 65537, 490463, 6700417, 835945042244614951780389953367877943453916927241] 2 (by decide) (by decide) ?_ (by decide) (by decide!) (by decide!)
  intro q hq
  simp only [List.mem_cons, List.mem_singleton, List.not_mem_nil, or_false] at hq
  rcases hq with rfl | rfl | rfl | rfl | rfl | rfl | rfl | rfl | rfl | rfl | rfl
  exacts [(by norm_num), (by norm_num), (by norm_num), (by norm_num), prime_257, prime_641, prime_1531, prime_65537, prime_490463, prime_6700417, prime_835945042244614951780389953367877943453916927241]

end P256

namespace P256

theorem W_a₁ : W.a₁ = 0 := rfl
theorem W_a₂ : W.a₂ = 0 := rfl
theorem W_a₃ : W.a₃ = 0 := rfl
theorem W_a₄ : W.a₄ = -3 := rfl
theorem W_a₆ : W.a₆ = (b : ZMod p) := rfl

theorem p_fact : Fact (Nat.Prime p) := ⟨p_prime⟩

theorem cast_inj_of_lt (a c : Nat) (ha : a < p) (hc : c < p)
    (h : (a : ZMod p) = (c : ZMod p)) : a = c := by
  rw [ZMod.natCast_eq_natCast_iff'] at h
  rwa [Nat.mod_eq_of_lt ha, Nat.mod_eq_of_lt hc] at h

theorem p_pos : 0 < p := by decide

theorem sub_lt (a c : Nat) : sub a c < p := Nat.mod_lt _ p_pos

theorem cast_sub (a c : Nat) : ((sub a c : Nat) : ZMod p) = (a : ZMod p) - (c : ZMod p) := by
  unfold sub
  rw [ZMod.natCast_mod, Nat.cast_add, ZMod.natCast_mod,
    Nat.cast_sub (Nat.le_of_lt (Nat.mod_lt _ p_pos)), ZMod.natCast_mod, ZMod.natCast_self]
  ring

theorem cast_inv [Fact (Nat.Prime p)] (a : Nat) :
    ((inv a : Nat) : ZMod p) = ((a : ZMod p))⁻¹ := by
  unfold inv
  rw [← ZMod.natCast_mod (powMod p 256 (a % p) (p - 2) 1) p,
    powMod_spec p 256 (a % p) (p - 2) 1 (by decide), ZMod.natCast_mod, one_mul, Nat.cast_pow,
    ZMod.natCast_mod]
  by_cases h0 : (a : ZMod p) = 0
  · rw [h0, inv_zero]
    exact zero_pow (by decide)
  · symm
    apply inv_eq_of_mul_eq_one_right
    rw [← pow_succ']
    have : p - 2 + 1 = p - 1 := by decide
    rw [this]
    exact ZMod.pow_card_sub_one_eq_one h0

theorem cast_ne_zero_of_lt (a : Nat) (h0 : 0 < a) (ha : a < p) : (a : ZMod p) ≠ 0 := by
  intro h
  have := cast_inj_of_lt a 0 ha p_pos (by simpa using h)
  omega

theorem W_Δ_ne_zero : W.Δ ≠ 0 := by
  intro h
  have h1 : (((432 * b * b : Nat) : ZMod p)) = ((1728 : Nat) : ZMod p) := by
    simp only [WeierstrassCurve.Δ, WeierstrassCurve.b₂, WeierstrassCurve.b₄,
      WeierstrassCurve.b₆, WeierstrassCurve.b₈, W_a₁, W_a₂, W_a₃, W_a₄, W_a₆] at h
    push_cast
    linear_combination -h
  rw [ZMod.natCast_eq_natCast_iff'] at h1
  revert h1
  decide

theorem equation_iff_cast (x y : Nat) :
    W.Equation (x : ZMod p) (y : ZMod p) ↔
      (y : ZMod p) ^ 2 = (x : ZMod p) ^ 3 - 3 * (x : ZMod p) + (b : ZMod p) := by
  rw [WeierstrassCurve.Affine.equation_iff, W_a₁, W_a₂, W_a₃, W_a₄, W_a₆]
  constructor <;> intro h <;> linear_combination h

theorem nonsingular_of_IsOnCurve (P : Nat × Nat) (h : IsOnCurve P = true) :
    W.Nonsingular (P.1 : ZMod p) (P.2 : ZMod p) := by
  refine WeierstrassCurve.Affine.nonsingular_of_Δ_ne_zero W ?_ W_Δ_ne_zero
  rw [equation_iff_cast]
  simp only [IsOnCurve, Bool.and_eq_true, decide_eq_true_eq] at h
  have h3 := congrArg (fun n : Nat => (n : ZMod p)) h.2
  simp only [ZMod.natCast_mod, Nat.cast_add, cast_sub, Nat.cast_mul, Nat.cast_ofNat] at h3
  linear_combination h3

theorem IsOnCurve_of_equation (P : Nat × Nat) (h1 : P.1 < p) (h2 : P.2 < p)
    (h : W.Equation (P.1 : ZMod p) (P.2 : ZMod p)) : IsOnCurve P = true := by
  rw [equation_iff_cast] at h
  simp only [IsOnCurve, Bool.and_eq_true, decide_eq_true_eq]
  refine ⟨⟨h1, h2⟩, ?_⟩
  apply cast_inj_of_lt _ _ (Nat.mod_lt _ p_pos) (Nat.mod_lt _ p_pos)
  simp only [ZMod.natCast_mod, Nat.cast_add, cast_sub, Nat.cast_mul, Nat.cast_ofNat]
  linear_combination h

theorem not_equation_zero : ¬ W.Equation (0 : ZMod p) 0 := by
  rw [WeierstrassCurve.Affine.equation_zero, W_a₆]
  exact cast_ne_zero_of_lt b (by decide) (by decide)

theorem Rep_zero : Rep (0, 0) 0 := Or.inl ⟨rfl, rfl⟩

theorem Rep_lt {P : Nat × Nat} {Q : W.Point} (h : Rep P Q) : P.1 < p ∧ P.2 < p := by
  rcases h with ⟨rfl, _⟩ | ⟨h1, h2, _⟩
  · exact ⟨p_pos, p_pos⟩
  · exact ⟨h1, h2⟩

theorem ne_zero_of_nonsingular (P : Nat × Nat)
    (h : W.Nonsingular (P.1 : ZMod p) (P.2 : ZMod p)) : P ≠ (0, 0) := by
  rintro rfl
  apply not_equation_zero
  simpa using h.1

theorem Rep_unique {P P2 : Nat × Nat} {Q : W.Point} (h : Rep P Q) (h2 : Rep P2 Q) : P = P2 := by
  rcases h with ⟨rfl, rfl⟩ | ⟨a1, a2, ha, rfl⟩
  · rcases h2 with ⟨rfl, _⟩ | ⟨_, _, hb, e⟩
    · rfl
    · exact absurd e.symm (WeierstrassCurve.Affine.Point.some_ne_zero hb)
  · rcases h2 with ⟨_, e⟩ | ⟨b1, b2, hb, e⟩
    · exact absurd e (WeierstrassCurve.Affine.Point.some_ne_zero ha)
    · rw [WeierstrassCurve.Affine.Point.some.injEq] at e
      exact Prod.ext (cast_inj_of_lt _ _ a1 b1 e.1) (cast_inj_of_lt _ _ a2 b2 e.2)

theorem Rep_some {x y : ZMod p} (h : W.Nonsingular x y) (P : Nat × Nat) (h1 : P.1 < p)
    (h2 : P.2 < p) (hx : (P.1 : ZMod p) = x) (hy : (P.2 : ZMod p) = y) :
    Rep P (WeierstrassCurve.Affine.Point.some h) := by
  subst hx
  subst hy
  exact Or.inr ⟨h1, h2, h, rfl⟩

theorem Rep_of_IsOnCurve (P : Nat × Nat) (h : IsOnCurve P = true) :
    Rep P (WeierstrassCurve.Affine.Point.some (nonsingular_of_IsOnCurve P h)) := by
  simp only [IsOnCurve, Bool.and_eq_true, decide_eq_true_eq] at h
  exact Or.inr ⟨h.1.1, h.1.2, _, rfl⟩

theorem two_ne_zero_zmod : (2 : ZMod p) ≠ 0 := by
  have := cast_ne_zero_of_lt 2 (by decide) (by decide)
  simpa using this

theorem Rep_double [Fact (Nat.Prime p)] {P : Nat × Nat} {Q : W.Point} (h : Rep P Q) :
    Rep (double P) (Q + Q) := by
  rcases h with ⟨rfl, rfl⟩ | ⟨h1, h2, hn, rfl⟩
  · simpa [double] using Rep_zero
  · have hne := ne_zero_of_nonsingular P hn
    unfold double
    rw [if_neg hne]
    by_cases hy : P.2 % p = 0
    · rw [if_pos hy]
      rw [Nat.mod_eq_of_lt h2] at hy
      have hy0 : (P.2 : ZMod p) = W.negY (P.1 : ZMod p) (P.2 : ZMod p) := by
        simp [WeierstrassCurve.Affine.negY, W_a₁, W_a₃, hy]
      rw [WeierstrassCurve.Affine.Point.add_self_of_Y_eq hy0]
      exact Rep_zero
    · rw [if_neg hy]
      rw [Nat.mod_eq_of_lt h2] at hy
      have hyc : (P.2 : ZMod p) ≠ 0 := cast_ne_zero_of_lt _ (Nat.pos_of_ne_zero hy) h2
      have hy0 : (P.2 : ZMod p) ≠ W.negY (P.1 : ZMod p) (P.2 : ZMod p) := by
        simp only [WeierstrassCurve.Affine.negY, W_a₁, W_a₃, zero_mul, sub_zero]
        intro he
        have h2y : (2 : ZMod p) * (P.2 : ZMod p) = 0 := by linear_combination he
        rcases mul_eq_zero.1 h2y with h | h
        · exact two_ne_zero_zmod h
        · exact hyc h
      rw [WeierstrassCurve.Affine.Point.add_self_of_Y_ne hy0]
      have hsl : W.slope (P.1 : ZMod p) (P.1 : ZMod p) (P.2 : ZMod p) (P.2 : ZMod p)
          = (3 * (P.1 : ZMod p) ^ 2 - 3) * (2 * (P.2 : ZMod p))⁻¹ := by
        rw [WeierstrassCurve.Affine.slope_of_Y_ne rfl hy0]
        simp only [WeierstrassCurve.Affine.negY, W_a₁, W_a₂, W_a₃, W_a₄]
        ring
      have hl : ((sub (3 * (P.1 * P.1 % p)) 3 * inv (2 * P.2) % p : Nat) : ZMod p)
          = W.slope (P.1 : ZMod p) (P.1 : ZMod p) (P.2 : ZMod p) (P.2 : ZMod p) := by
        rw [hsl, ZMod.natCast_mod, Nat.cast_mul, cast_sub, cast_inv]
        push_cast
        rw [ZMod.natCast_mod]
        push_cast
        ring
      apply Rep_some
      · exact sub_lt _ _
      · exact sub_lt _ _
      · simp only [cast_sub, Nat.cast_mul, hl, WeierstrassCurve.Affine.addX, W_a₁, W_a₂]
        ring
      · simp only [cast_sub, Nat.cast_mul, hl, WeierstrassCurve.Affine.addY,
          WeierstrassCurve.Affine.negAddY, WeierstrassCurve.Affine.negY,
          WeierstrassCurve.Affine.addX, W_a₁, W_a₂, W_a₃]
        ring

theorem Rep_add [Fact (Nat.Prime p)] {P P2 : Nat × Nat} {Q Q2 : W.Point} (h : Rep P Q)
    (h2 : Rep P2 Q2) : Rep (add P P2) (Q + Q2) := by
  rcases h with ⟨rfl, rfl⟩ | ⟨a1, a2, ha, rfl⟩
  · rw [zero_add]
    unfold add
    rw [if_pos rfl]
    exact h2
  · have hne := ne_zero_of_nonsingular P ha
    rcases h2 with ⟨rfl, rfl⟩ | ⟨b1, b2, hb, rfl⟩
    · rw [add_zero]
      unfold add
      rw [if_neg hne, if_pos rfl]
      exact Or.inr ⟨a1, a2, ha, rfl⟩
    · have hne2 := ne_zero_of_nonsingular P2 hb
      unfold add
      rw [if_neg hne, if_neg hne2, Nat.mod_eq_of_lt a1, Nat.mod_eq_of_lt b1,
        Nat.mod_eq_of_lt a2, Nat.mod_eq_of_lt b2]
      by_cases hx : P.1 = P2.1
      · rw [if_pos hx]
        by_cases hy : P.2 = P2.2
        · rw [if_pos hy]
          have hPP : P = P2 := Prod.ext hx hy
          subst hPP
          exact Rep_double (Or.inr ⟨a1, a2, ha, rfl⟩)
        · rw [if_neg hy]
          have hxc : (P.1 : ZMod p) = (P2.1 : ZMod p) := by rw [hx]
          have hyc : (P.2 : ZMod p) ≠ (P2.2 : ZMod p) :=
            fun e => hy (cast_inj_of_lt _ _ a2 b2 e)
          have hneg : (P.2 : ZMod p) = W.negY (P2.1 : ZMod p) (P2.2 : ZMod p) :=
            (WeierstrassCurve.Affine.Y_eq_of_X_eq ha.1 hb.1 hxc).resolve_left hyc
          rw [WeierstrassCurve.Affine.Point.add_of_Y_eq hxc hneg]
          exact Rep_zero
      · rw [if_neg hx]
        have hxc : (P.1 : ZMod p) ≠ (P2.1 : ZMod p) :=
          fun e => hx (cast_inj_of_lt _ _ a1 b1 e)
        rw [WeierstrassCurve.Affine.Point.add_of_X_ne hxc]
        have hl : ((sub P2.2 P.2 * inv (sub P2.1 P.1) % p : Nat) : ZMod p)
            = W.slope (P.1 : ZMod p) (P2.1 : ZMod p) (P.2 : ZMod p) (P2.2 : ZMod p) := by
          rw [WeierstrassCurve.Affine.slope_of_X_ne hxc, ZMod.natCast_mod, Nat.cast_mul,
            cast_sub, cast_inv, cast_sub, div_eq_mul_inv, ← neg_sub (P.2 : ZMod p),
            ← neg_sub (P.1 : ZMod p), inv_neg]
          ring
        apply Rep_some
        · exact sub_lt _ _
        · exact sub_lt _ _
        · simp only [cast_sub, Nat.cast_mul, hl, WeierstrassCurve.Affine.addX, W_a₁, W_a₂]
          ring
        · simp only [cast_sub, Nat.cast_mul, hl, WeierstrassCurve.Affine.addY,
            WeierstrassCurve.Affine.negAddY, WeierstrassCurve.Affine.negY,
            WeierstrassCurve.Affine.addX, W_a₁, W_a₂, W_a₃]
          ring

theorem Rep_foldl [Fact (Nat.Prime p)] {P : Nat × Nat} {Q : W.Point} (h : Rep P Q)
    (bits : List Bool) (acc : Nat × Nat) (n : Nat) (hacc : Rep acc (n • Q)) :
    Rep (bits.foldl (fun acc bit => if bit then add (double acc) P else double acc) acc)
      ((bits.foldl (fun n bit => 2 * n + (if bit then 1 else 0)) n) • Q) := by
  induction bits generalizing acc n with
  | nil => exact hacc
  | cons bit rest ih =>
    simp only [List.foldl_cons]
    apply ih
    have hd := Rep_double hacc
    cases bit with
    | false =>
      simp only [Bool.false_eq_true, if_false, add_zero]
      rw [two_mul, add_nsmul]
      exact hd
    | true =>
      simp only [if_true]
      rw [add_nsmul, one_nsmul, two_mul, add_nsmul]
      exact Rep_add hd h

theorem Rep_ScalarMult [Fact (Nat.Prime p)] {P : Nat × Nat} {Q : W.Point} (h : Rep P Q)
    (k : Bytes) : Rep (ScalarMult P k) (scalarOf k • Q) := by
  unfold ScalarMult scalarOf
  apply Rep_foldl h
  rw [zero_nsmul]
  exact Rep_zero

theorem G_onCurve : IsOnCurve G = true := by decide

/-- Scalar multiplication on P-256 commutes on multiples of the base point: the
Diffie-Hellman property. -/
theorem ScalarMult_comm (a c : Bytes) :
    ScalarMult (ScalarBaseMult a) c = ScalarMult (ScalarBaseMult c) a := by
  haveI := p_fact
  have hG := Rep_of_IsOnCurve G G_onCurve
  have h1 := Rep_ScalarMult (Rep_ScalarMult hG a) c
  have h2 := Rep_ScalarMult (Rep_ScalarMult hG c) a
  rw [smul_comm] at h2
  exact Rep_unique h1 h2

theorem ScalarBaseMult_lt (k : Bytes) : (ScalarBaseMult k).1 < p ∧ (ScalarBaseMult k).2 < p := by
  haveI := p_fact
  exact Rep_lt (Rep_ScalarMult (Rep_of_IsOnCurve G G_onCurve) k)

theorem toBytesBE_length (n x : Nat) : (toBytesBE n x).length = n := by
  induction n generalizing x with
  | zero => rfl
  | succ n ih => simp [toBytesBE, ih]

theorem foldl_toBytesBE (n x a : Nat) :
    (toBytesBE n x).foldl (fun acc c => acc * 256 + c % 256) a = a * 256 ^ n + x % 256 ^ n := by
  induction n generalizing x with
  | zero => simp [toBytesBE, Nat.mod_one]
  | succ n ih =>
    simp only [toBytesBE, List.foldl_append, List.foldl_cons, List.foldl_nil, ih, Nat.mod_mod]
    have h := Nat.mod_mul (x := x) (a := 256) (b := 256 ^ n)
    rw [pow_succ, Nat.mul_comm (256 ^ n) 256, h]
    ring

theorem fromBytesBE_toBytesBE (n x : Nat) : fromBytesBE (toBytesBE n x) = x % 256 ^ n := by
  unfold fromBytesBE
  rw [foldl_toBytesBE]
  simp

theorem Unmarshal_Marshal (P : Nat × Nat) (h1 : P.1 < p) (h2 : P.2 < p) :
    Unmarshal (Marshal P) = if IsOnCurve P then some P else none := by
  have hp : p < 256 ^ 32 := by decide
  have e1 : (List.drop 1 (Marshal P)).take 32 = toBytesBE 32 P.1 := by
    simp [Marshal, List.take_append_of_le_length, toBytesBE_length]
  have e2 : List.drop 33 (Marshal P) = toBytesBE 32 P.2 := by
    simp [Marshal, List.drop_append_eq_append_drop, toBytesBE_length]
  have e3 : (Marshal P).length = 65 := by
    simp [Marshal, toBytesBE_length]
  have e4 : (Marshal P).head? = some 4 := rfl
  unfold Unmarshal
  rw [if_neg (by rw [e3]; exact fun h => h rfl), if_neg (by rw [e4]; exact fun h => h rfl)]
  simp only [e1, e2, fromBytesBE_toBytesBE, Nat.mod_eq_of_lt (lt_trans h1 hp),
    Nat.mod_eq_of_lt (lt_trans h2 hp)]

/-- A public key of P-256 is a valid encoded point exactly when its point is not
the point at infinity. -/
theorem Unmarshal_ScalarBaseMult_isSome (k : Bytes) :
    (Unmarshal (Marshal (ScalarBaseMult k))).isSome = true ↔ ScalarBaseMult k ≠ (0, 0) := by
  haveI := p_fact
  have hlt := ScalarBaseMult_lt k
  rw [Unmarshal_Marshal _ hlt.1 hlt.2]
  have hr : Rep (ScalarBaseMult k) (scalarOf k • _) :=
    Rep_ScalarMult (Rep_of_IsOnCurve G G_onCurve) k
  rcases hr with ⟨e, _⟩ | ⟨h1, h2, hn, _⟩
  · rw [e]
    have h0 : ¬ (IsOnCurve (0, 0) = true) := by decide
    rw [if_neg h0]
    exact ⟨fun h => Bool.noConfusion h, fun h => absurd rfl h⟩
  · rw [if_pos (IsOnCurve_of_equation _ h1 h2 hn.1)]
    exact ⟨fun _ => ne_zero_of_nonsingular _ hn, fun _ => rfl⟩

end P256

namespace proto

/-- The libraries are sound on P-256: a public key that decodes decodes to the
point that was encoded, and scalar multiplication has the Diffie-Hellman
property; the digest is any function with 32-byte results. -/
theorem p256With_sound (Sum256 : Bytes → Bytes) (hd : ∀ x, (Sum256 x).length = 32) :
    (p256With Sum256).Sound where
  decode := by
    intro k Q h
    have hlt := P256.ScalarBaseMult_lt k
    simp only [p256With, P256.curve] at h ⊢
    rw [P256.Unmarshal_Marshal _ hlt.1 hlt.2] at h
    split at h
    · exact (Option.some.inj h).symm
    · exact Option.noConfusion h
  comm := by
    intro a b _ _
    exact P256.ScalarMult_comm a b
  digest := hd

/-- C5 (as amended), on the curve P-256: for two key pairs produced by
`GenKeyPair` whose public keys are valid encoded points, `Handshake(pubA, priB)`
equals `Handshake(pubB, priA)` and is not nil; and when the server's `Step1`
draws the pair B and the client holds the pair A, the digest the client's
`Step2` puts in "sha2" is the session key the server stored, so the server's
`Step2` accepts the reply. The digest is any function with 32-byte results, as
`sha256.Sum256` is. -/
theorem C5_handshake_agreement (Sum256 : Bytes → Bytes)
    (hd : ∀ x, (Sum256 x).length = 32) (randA randB : Bytes)
    (dom : GoString) (hA : 32 ≤ randA.length) (hB : 32 ≤ randB.length)
    (vA : (P256.curve.Unmarshal (GenKeyPair P256.curve randA).1.1).isSome = true)
    (vB : (P256.curve.Unmarshal (GenKeyPair P256.curve randB).1.1).isSome = true) :
    Handshake P256.curve (GenKeyPair P256.curve randA).1.1 (GenKeyPair P256.curve randB).1.2.1
      = Handshake P256.curve (GenKeyPair P256.curve randB).1.1
          (GenKeyPair P256.curve randA).1.2.1 ∧
    ∃ shared chal reply sa1,
      Handshake P256.curve (GenKeyPair P256.curve randA).1.1 (GenKeyPair P256.curve randB).1.2.1
        = some shared ∧
      (newServerAuth randB).Step1 (p256With Sum256)
          (some (KeyPair.generate P256.curve randA dom).Step1)
        = (some chal, sa1) ∧
      sa1.sk = dohash (p256With Sum256) shared ∧
      (KeyPair.generate P256.curve randA dom).Step2 (p256With Sum256) (some chal) = some reply ∧
      bson.Lookup (some reply) (lit "sha2") = bson.Value.binary 115 sa1.sk ∧
      sa1.Step2 (some reply) = true :=
  handshake_agreement_of_sound (p256With Sum256) (p256With_sound Sum256 hd) randA randB dom hA hB vA vB

/-- C5 run on P-256: the client scalar 2, the server scalar 3 and a checksum as
digest. -/
theorem C5_handshake_agreement_witness :
    Handshake P256.curve (GenKeyPair P256.curve (List.replicate 31 0 ++ [2])).1.1
        (GenKeyPair P256.curve (List.replicate 31 0 ++ [3])).1.2.1
      = Handshake P256.curve (GenKeyPair P256.curve (List.replicate 31 0 ++ [3])).1.1
        (GenKeyPair P256.curve (List.replicate 31 0 ++ [2])).1.2.1 ∧
    ∃ shared chal reply sa1,
      Handshake P256.curve (GenKeyPair P256.curve (List.replicate 31 0 ++ [2])).1.1
        (GenKeyPair P256.curve (List.replicate 31 0 ++ [3])).1.2.1 = some shared ∧
      (newServerAuth (List.replicate 31 0 ++ [3])).Step1 p256Crypto
        (some (KeyPair.generate P256.curve (List.replicate 31 0 ++ [2]) (lit "a.onion")).Step1)
        = (some chal, sa1) ∧
      sa1.sk = dohash p256Crypto shared ∧
      (KeyPair.generate P256.curve (List.replicate 31 0 ++ [2]) (lit "a.onion")).Step2
        p256Crypto (some chal) = some reply ∧
      bson.Lookup (some reply) (lit "sha2") = bson.Value.binary 115 sa1.sk ∧
      sa1.Step2 (some reply) = true :=
  C5_handshake_agreement (fun x => List.replicate 31 0 ++ [x.sum % 256])
    (fun x => by simp) (List.replicate 31 0 ++ [2])
    (List.replicate 31 0 ++ [3]) (lit "a.onion") (by decide) (by decide) (by decide!) (by decide!)

end proto
